import Mathlib

/-!
# Buffer cache of `kernel/bio.c` (xv6 lab 8, bucketed version)

A sequential shallow embedding of the buffer cache.

* The cache `bcache` is a record of the slot array `buf` and of the thirteen
  rings `head[i]`.  A ring, in C a circular doubly linked list threaded through
  `prev`/`next` with the sentinel `head[i]`, is represented by the list of the
  slots met when walking `head[i].next`, `->next`, ... up to the sentinel.
  Inserting after the sentinel is `b :: ring`, unlinking a slot is `List.erase`.
* Spinlocks (`biglock`, `lock[i]`) and the sleep-lock of a slot only order
  concurrent callers; they carry no data and do not appear in the state `Cache`.
  `holdingsleep(&b->lock)` is an input of `bwrite` and `brelse`.  In `brelse`,
  `bpin` and `bunpin` the index `hash(b->blockno)` only selects a spinlock.
  The calls that take locks have a second version (`bgetT`, `breadT`,
  `brelseT`, `bpinT`, `bunpinT`) that computes the same result together with
  the list of its lock events and field writes in program order; what one
  caller does with the locks is stated on these lists.  Interleavings of several
  callers are outside the embedding.
* Values of type `uint` are natural numbers below `2^32`; every arithmetic
  operation of the code on them is written with an explicit `% 4294967296`.
-/

namespace Bio

/-! ## Machine integers -/

/-- The number of buckets, `#define NBUCKET 13`. -/
def NBUCKET : Nat := 13

/-- Value of a `uint` once converted to `int` (32 bits, two's complement), as
happens when `blockno` is passed to `hash` and in `min_ticks = b->lastuse`. -/
def toInt (n : Nat) : Int :=
  if n % 4294967296 < 2147483648 then ((n % 4294967296 : Nat) : Int)
  else ((n % 4294967296 : Nat) : Int) - 4294967296

/-- Value of an `int` once converted to `uint`, as happens to `min_ticks` in
the comparison `b->lastuse < min_ticks`. -/
def toUint (z : Int) : Nat := (z % 4294967296).toNat

/-- The function `int hash(int blockno)`, which returns `blockno % NBUCKET`;
the remainder of C truncates towards zero. -/
def hash (blockno : Int) : Int := Int.tmod blockno NBUCKET

/-! ## Data model -/

/-- Modelled from the spec: `struct buf` is declared in `buf.h`, which is not
among the sources.  A slot has the identity `dev`, `blockno` (two unsigned
integers), the flag `valid`, the hold count `refcnt` and the recency mark
`lastuse` (unsigned 32-bit counters, `lastuse` receiving `uint ticks`), and a
payload of bytes `data`, indexed by offset.  The links `prev`/`next` are
carried by the rings of `Cache`. -/
structure Buf where
  valid : Bool
  dev : Nat
  blockno : Nat
  refcnt : Nat
  lastuse : Nat
  data : Nat → Nat

/-- The object `bcache` without its locks: `buf n` is the slot `bcache.buf[n]`
and `head i` the ring of `bcache.head[i]`, in `next` order. -/
structure Cache where
  buf : Nat → Buf
  head : Nat → List Nat

/-- A slot of an object with static storage duration: every field is zero. -/
def zeroBuf : Buf :=
  { valid := false, dev := 0, blockno := 0, refcnt := 0, lastuse := 0, data := fun _ => 0 }

/-- Replace slot `b` of the cache. -/
def setBuf (s : Cache) (b : Nat) (v : Buf) : Cache :=
  { s with buf := Function.update s.buf b v }

/-- Link `b` right after the sentinel of ring `i`:
`b->next = head[i].next; b->prev = &head[i]; head[i].next->prev = b; head[i].next = b`. -/
def insertHead (s : Cache) (i b : Nat) : Cache :=
  { s with head := Function.update s.head i (b :: s.head i) }

/-- Unlink `b` from ring `j`, the ring it was found in:
`b->next->prev = b->prev; b->prev->next = b->next`. -/
def unlink (s : Cache) (j b : Nat) : Cache :=
  { s with head := Function.update s.head j ((s.head j).erase b) }

/-- The function `binit`: every ring is made empty, then the slots `buf[0]`,
..., `buf[NBUF-1]` are linked one after the other at the front of ring 0.
`NBUF` comes from `param.h` and is a parameter. -/
def binit (NBUF : Nat) : Cache :=
  (List.range NBUF).foldl (fun s b => insertHead s 0 b)
    { buf := fun _ => zeroBuf, head := fun _ => [] }

/-! ## bget -/

/-- Outcome of a call that may stop the kernel.  `panic` carries the cache as
it is when `panic` is called; `undefined` is the use of an index outside the
arrays `bcache.lock` and `bcache.head`; `timeout` is the exhaustion of the
fuel given to a loop. -/
inductive Result (α : Type) where
  | ok (a : α)
  | panic (s : Cache)
  | undefined
  | timeout

/-- The test `b->dev == dev && b->blockno == blockno`. -/
def isHit (s : Cache) (dev blockno : Nat) (b : Nat) : Bool :=
  (s.buf b).dev == dev && (s.buf b).blockno == blockno

/-- The loop `for (b = head[i].next; b != &head[i]; b = b->next)` that returns
at the first slot with the requested identity. -/
def lookup (s : Cache) (i : Nat) (dev blockno : Nat) : Option Nat :=
  (s.head i).find? (isHit s dev blockno)

/-- The statement `b->refcnt++`. -/
def incref (s : Cache) (b : Nat) : Cache :=
  setBuf s b { s.buf b with refcnt := ((s.buf b).refcnt + 1) % 4294967296 }

/-- The statement `b->refcnt--`. -/
def decref (s : Cache) (b : Nat) : Cache :=
  setBuf s b { s.buf b with refcnt := ((s.buf b).refcnt + 4294967295) % 4294967296 }

/-- The scan for a free slot over one ring, with the loop variables
`(b2, min_ticks)`:
`if (b->refcnt == 0 && (b2 == 0 || b->lastuse < min_ticks)) { min_ticks = b->lastuse; b2 = b; }`. -/
def scanFree (s : Cache) : List Nat → Option Nat × Int → Option Nat × Int
  | [], acc => acc
  | b :: bs, (b2, min_ticks) =>
    if (s.buf b).refcnt == 0 && (b2.isNone || decide ((s.buf b).lastuse < toUint min_ticks)) then
      scanFree s bs (some b, toInt (s.buf b).lastuse)
    else
      scanFree s bs (b2, min_ticks)

/-- The assignments `b2->dev = dev; b2->blockno = blockno; b2->refcnt++; b2->valid = 0`. -/
def reuse (s : Cache) (b2 dev blockno : Nat) : Cache :=
  setBuf s b2 { s.buf b2 with
    dev := dev, blockno := blockno,
    refcnt := ((s.buf b2).refcnt + 1) % 4294967296, valid := false }

/-- The loop `for (int j = hash(i + 1); j != i; j = hash(j + 1))` over the other
buckets, entered with the loop variables `(b2, min_ticks)` left by the scan of
bucket `i`; leaving the loop leads to `panic("bget: no buffers")`. -/
def stealLoop (s : Cache) (dev blockno : Nat) (i : Int) :
    Nat → Int → Option Nat × Int → Result (Cache × Nat)
  | 0, _, _ => .timeout
  | fuel + 1, j, acc =>
    if j = i then .panic s
    else
      match scanFree s (s.head j.toNat) acc with
      | (some b2, _) =>
        .ok (insertHead (unlink (reuse s b2 dev blockno) j.toNat b2) i.toNat b2, b2)
      | (none, min_ticks) => stealLoop s dev blockno i fuel (hash (j + 1)) (none, min_ticks)

/-- The function `static struct buf* bget(uint dev, uint blockno)`: the new
cache and the slot returned. -/
def bget (s : Cache) (dev blockno : Nat) : Result (Cache × Nat) :=
  let i := hash (toInt blockno)
  if i < 0 then .undefined
  else
    match lookup s i.toNat dev blockno with
    | some b => .ok (incref s b, b)
    | none =>
      -- second scan, under `biglock`
      match lookup s i.toNat dev blockno with
      | some b => .ok (incref s b, b)
      | none =>
        match scanFree s (s.head i.toNat) (none, 0) with
        | (some b2, _) => .ok (reuse s b2 dev blockno, b2)
        | (none, min_ticks) =>
          stealLoop s dev blockno i NBUCKET (hash (i + 1)) (none, min_ticks)

/-! ## brelse, bpin, bunpin -/

/-- The function `void brelse(struct buf* b)`; `holding` is
`holdingsleep(&b->lock)` and `ticks` the value of the global `uint ticks`.
The result `none` is `panic("brelse")`. -/
def brelse (s : Cache) (b : Nat) (holding : Bool) (ticks : Nat) : Option Cache :=
  if !holding then none
  else
    let s1 := decref s b
    if (s1.buf b).refcnt == 0 then
      some (setBuf s1 b { s1.buf b with lastuse := ticks % 4294967296 })
    else some s1

/-- The function `void bpin(struct buf* b)`. -/
def bpin (s : Cache) (b : Nat) : Cache := incref s b

/-- The function `void bunpin(struct buf* b)`. -/
def bunpin (s : Cache) (b : Nat) : Cache := decref s b

/-! ## The disk, bread, bwrite -/

/-- Modelled from the spec: the device behind `virtio_disk_rw`
(`virtio_disk.c` is not among the sources) is a map from `(dev, blockno)` to
block contents, together with the log of the transfers made, oldest first;
an entry is `(write, dev, blockno)`. -/
structure Disk where
  block : Nat → Nat → Nat → Nat
  log : List (Bool × Nat × Nat)

/-- Modelled from the spec: `virtio_disk_rw(b, write)`, the transfer of the
payload of slot `b` from the device (`write = 0`) or to it (`write = 1`); it
touches nothing of the cache but the payload it fills on a read. -/
def virtio_disk_rw (s : Cache) (d : Disk) (b : Nat) (write : Bool) : Cache × Disk :=
  let dev := (s.buf b).dev
  let blockno := (s.buf b).blockno
  if write then
    (s, { block := fun dv bn => if dv = dev ∧ bn = blockno then (s.buf b).data else d.block dv bn,
          log := d.log ++ [(true, dev, blockno)] })
  else
    (setBuf s b { s.buf b with data := d.block dev blockno },
     { d with log := d.log ++ [(false, dev, blockno)] })

/-- The function `struct buf* bread(uint dev, uint blockno)`. -/
def bread (s : Cache) (d : Disk) (dev blockno : Nat) : Result (Cache × Disk × Nat) :=
  match bget s dev blockno with
  | .ok (s1, b) =>
    if !(s1.buf b).valid then
      let (s2, d2) := virtio_disk_rw s1 d b false
      .ok (setBuf s2 b { s2.buf b with valid := true }, d2, b)
    else .ok (s1, d, b)
  | .panic s1 => .panic s1
  | .undefined => .undefined
  | .timeout => .timeout

/-- The function `void bwrite(struct buf *b)`; the result `none` is
`panic("bwrite")`. -/
def bwrite (s : Cache) (d : Disk) (b : Nat) (holding : Bool) : Option (Cache × Disk) :=
  if !holding then none else some (virtio_disk_rw s d b true)

/-- The caller stores the payload `P` in the slot it holds (`memmove` into `b->data`). -/
def store (s : Cache) (b : Nat) (P : Nat → Nat) : Cache :=
  setBuf s b { s.buf b with data := P }

/-! ## Predicates on caches -/

/-- No slot of ring `k` is free. -/
def noFree (s : Cache) (k : Nat) : Prop := ∀ x ∈ s.head k, (s.buf x).refcnt ≠ 0

/-- Every recency mark is a `uint`. -/
def Typed (s : Cache) : Prop := ∀ x, (s.buf x).lastuse < 4294967296

/-- No slot of ring `i` carries the identity `(dev, blockno)`. -/
def noHit (s : Cache) (i dev blockno : Nat) : Prop :=
  ∀ x ∈ s.head i, ¬ ((s.buf x).dev = dev ∧ (s.buf x).blockno = blockno)

/-- The five ways a call of `bget` ends, `I` being the bucket of `blockno`:
outside the arrays, hit, reuse of a slot of bucket `I`, reuse of a slot of the
first bucket after `I` that has a free one, panic. -/
inductive BgetPath (s : Cache) (dev blockno : Nat) : Result (Cache × Nat) → Prop where
  | undef (h : hash (toInt blockno) < 0) : BgetPath s dev blockno .undefined
  | hit (I b : Nat) (hI : hash (toInt blockno) = (I : Int)) (hlt : I < 13)
      (hb : lookup s I dev blockno = some b) :
      BgetPath s dev blockno (.ok (incref s b, b))
  | localReuse (I b2 : Nat) (m' : Int) (hI : hash (toInt blockno) = (I : Int)) (hlt : I < 13)
      (hmiss : noHit s I dev blockno)
      (hscan : scanFree s (s.head I) (none, 0) = (some b2, m')) :
      BgetPath s dev blockno (.ok (reuse s b2 dev blockno, b2))
  | steal (I t b2 : Nat) (m' : Int) (hI : hash (toInt blockno) = (I : Int)) (hlt : I < 13)
      (hmiss : noHit s I dev blockno) (hfull : noFree s I) (ht : t < 12)
      (hbefore : ∀ t', t' < t → noFree s ((I + 1 + t') % 13))
      (hscan : scanFree s (s.head ((I + 1 + t) % 13)) (none, 0) = (some b2, m')) :
      BgetPath s dev blockno
        (.ok (insertHead (unlink (reuse s b2 dev blockno) ((I + 1 + t) % 13) b2) I b2, b2))
  | panic (I : Nat) (hI : hash (toInt blockno) = (I : Int)) (hlt : I < 13)
      (hmiss : noHit s I dev blockno) (hfull : ∀ k, k < 13 → noFree s k) :
      BgetPath s dev blockno (.panic s)

/-- The slot is held: its count of holds is positive. -/
def held (s : Cache) (b : Nat) : Prop := 0 < (s.buf b).refcnt

/-- Caches reachable from `binit` by calls of `bget`, `brelse`, `bpin` and
`bunpin` on the `NBUF` slots, the last three being applied only to slots that
satisfy `P` at the time of the call.  Arguments of type `uint` are below
`2^32`; a call that panics or is undefined yields no new cache. -/
inductive ReachableBy (P : Cache → Nat → Prop) (NBUF : Nat) : Cache → Prop where
  | init : ReachableBy P NBUF (binit NBUF)
  | bget (s s' : Cache) (dev blockno b : Nat) (h : ReachableBy P NBUF s)
      (hdev : dev < 4294967296) (hblockno : blockno < 4294967296)
      (hcall : bget s dev blockno = .ok (s', b)) : ReachableBy P NBUF s'
  | brelse (s s' : Cache) (b ticks : Nat) (holding : Bool) (h : ReachableBy P NBUF s)
      (hb : b < NBUF) (hP : P s b) (hticks : ticks < 4294967296)
      (hcall : brelse s b holding ticks = some s') : ReachableBy P NBUF s'
  | bpin (s : Cache) (b : Nat) (h : ReachableBy P NBUF s) (hb : b < NBUF) (hP : P s b) :
      ReachableBy P NBUF (bpin s b)
  | bunpin (s : Cache) (b : Nat) (h : ReachableBy P NBUF s) (hb : b < NBUF) (hP : P s b) :
      ReachableBy P NBUF (bunpin s b)

/-- Reachable by any sequence of calls. -/
def Reachable (NBUF : Nat) (s : Cache) : Prop := ReachableBy (fun _ _ => True) NBUF s

/-- Reachable by a sequence of calls in which `brelse`, `bpin` and `bunpin`
are applied only to slots that are held. -/
def ReachableHeld (NBUF : Nat) (s : Cache) : Prop := ReachableBy held NBUF s

/-- Every held slot is the first slot of the ring of its bucket that carries
its identity. -/
def HeldFirst (s : Cache) : Prop :=
  ∀ x, 0 < (s.buf x).refcnt →
    0 ≤ hash (toInt (s.buf x).blockno) ∧
      lookup s (hash (toInt (s.buf x).blockno)).toNat (s.buf x).dev (s.buf x).blockno = some x

/-- Each of the `NBUF` slots lies in some ring, the rings have no repetition,
are pairwise disjoint and hold nothing but slots. -/
def Partition (NBUF : Nat) (s : Cache) : Prop :=
  (∀ b, b < NBUF → ∃ k, k < 13 ∧ b ∈ s.head k) ∧
  (∀ k, (s.head k).Nodup) ∧
  (∀ k k' b, b ∈ s.head k → b ∈ s.head k' → k = k') ∧
  (∀ k b, b ∈ s.head k → b < NBUF ∧ k < 13)

/-- The cache after `n` successive calls `bpin(b)`. -/
def pins (s : Cache) (b : Nat) : Nat → Cache
  | 0 => s
  | n + 1 => bpin (pins s b n) b

/-- Every member of ring `k` has a block number whose bucket is `k`. -/
def Placed (s : Cache) : Prop :=
  ∀ k x, x ∈ s.head k → hash (toInt (s.buf x).blockno) = (k : Int)

/-- Two different slots among the `NBUF` slots carry the same identity only if
that identity is `(0, 0)`, the identity of a slot in its initial state. -/
def UniqueAssigned (NBUF : Nat) (s : Cache) : Prop :=
  ∀ x y, x < NBUF → y < NBUF → x ≠ y → (s.buf x).dev = (s.buf y).dev →
    (s.buf x).blockno = (s.buf y).blockno → (s.buf x).dev = 0 ∧ (s.buf x).blockno = 0

/-- The index `i` computed by `brelse`, `bpin` and `bunpin` for `bcache.lock[i]`:
`int i = hash(b->blockno)`. -/
def lockIndex (s : Cache) (b : Nat) : Int := hash (toInt (s.buf b).blockno)

/-- The count of outstanding holds of the slots after `bget(dev, blockno)` has
returned slot `b`: one more for `b` on a hit, and 1 when `b` has just been
given the identity, the count starting again at each assignment. -/
def holdsAfterBget (s : Cache) (holds : Nat → Nat) (dev blockno b : Nat) : Nat → Nat :=
  Function.update holds b
    (if lookup s (hash (toInt blockno)).toNat dev blockno = some b then holds b + 1 else 1)

/-- Caches reachable from `binit` together with the number of outstanding
holds of each slot: returns of `bget` and calls of `bpin` on the slot, minus
calls of `brelse` and `bunpin` on it, since its identity was last assigned.
`brelse` and `bunpin` are applied only to a slot with an outstanding hold. -/
inductive Tracked (NBUF : Nat) : Cache → (Nat → Nat) → Prop where
  | init : Tracked NBUF (binit NBUF) (fun _ => 0)
  | bget (s s' : Cache) (holds : Nat → Nat) (dev blockno b : Nat) (h : Tracked NBUF s holds)
      (hdev : dev < 4294967296) (hblockno : blockno < 4294967296)
      (hcall : bget s dev blockno = .ok (s', b)) :
      Tracked NBUF s' (holdsAfterBget s holds dev blockno b)
  | brelse (s s' : Cache) (holds : Nat → Nat) (b ticks : Nat) (holding : Bool)
      (h : Tracked NBUF s holds) (hb : b < NBUF) (hheld : 0 < holds b)
      (hticks : ticks < 4294967296) (hcall : brelse s b holding ticks = some s') :
      Tracked NBUF s' (Function.update holds b (holds b - 1))
  | bpin (s : Cache) (holds : Nat → Nat) (b : Nat) (h : Tracked NBUF s holds) (hb : b < NBUF) :
      Tracked NBUF (bpin s b) (Function.update holds b (holds b + 1))
  | bunpin (s : Cache) (holds : Nat → Nat) (b : Nat) (h : Tracked NBUF s holds) (hb : b < NBUF)
      (hheld : 0 < holds b) : Tracked NBUF (bunpin s b) (Function.update holds b (holds b - 1))

/-- A spinlock of `bcache`: `bcache.biglock` or `bcache.lock[i]`. -/
inductive Lock where
  | biglock
  | bucket (i : Int)
  deriving DecidableEq

/-- A field of `struct buf` that the cache writes. -/
inductive Field where
  | dev
  | blockno
  | valid
  | refcnt
  | lastuse
  deriving DecidableEq

/-- What a call does that matters to the locks, in program order: `acquire`
and `release` of a spinlock, the write of a field of slot `b`, the removal of
`b` from the ring it is in (found in ring `j`), its insertion at the front of
ring `i`, `acquiresleep` and `releasesleep` of `b->lock`,
`virtio_disk_rw(b, _)`, and `panic`. -/
inductive Event where
  | acquire (l : Lock)
  | release (l : Lock)
  | write (b : Nat) (f : Field)
  | unlinked (b : Nat) (j : Int)
  | linked (b : Nat) (i : Int)
  | acquiresleep (b : Nat)
  | releasesleep (b : Nat)
  | transfer (b : Nat)
  | panic
  deriving DecidableEq

/-- The loop of `stealLoop` together with the events of lines 125-155. -/
def stealLoopT (s : Cache) (dev blockno : Nat) (i : Int) :
    Nat → Int → Option Nat × Int → Result (Cache × Nat) × List Event
  | 0, _, _ => (.timeout, [])
  | fuel + 1, j, acc =>
    if j = i then (.panic s, [.release (.bucket i), .release .biglock, .panic])
    else
      match scanFree s (s.head j.toNat) acc with
      | (some b2, _) =>
        (.ok (insertHead (unlink (reuse s b2 dev blockno) j.toNat b2) i.toNat b2, b2),
          [.acquire (.bucket j), .write b2 .dev, .write b2 .refcnt, .write b2 .valid,
            .write b2 .blockno, .unlinked b2 j, .release (.bucket j), .linked b2 i,
            .release (.bucket i), .release .biglock, .acquiresleep b2])
      | (none, min_ticks) =>
        ((stealLoopT s dev blockno i fuel (hash (j + 1)) (none, min_ticks)).1,
          [.acquire (.bucket j), .release (.bucket j)] ++
            (stealLoopT s dev blockno i fuel (hash (j + 1)) (none, min_ticks)).2)

/-- The events of a call of `bget` that misses in the first scan (lines 85-95)
and hits slot `b` in the second scan, under `biglock` (lines 97-105). -/
def recheckHitEvents (i : Int) (b : Nat) : List Event :=
  [.acquire (.bucket i), .release (.bucket i), .acquire .biglock, .acquire (.bucket i),
    .write b .refcnt, .release (.bucket i), .release .biglock, .acquiresleep b]

/-- The function `bget` together with its events, in program order. -/
def bgetT (s : Cache) (dev blockno : Nat) : Result (Cache × Nat) × List Event :=
  let i := hash (toInt blockno)
  if i < 0 then (.undefined, [])
  else
    match lookup s i.toNat dev blockno with
    | some b =>
      (.ok (incref s b, b),
        [.acquire (.bucket i), .write b .refcnt, .release (.bucket i), .acquiresleep b])
    | none =>
      match lookup s i.toNat dev blockno with
      | some b => (.ok (incref s b, b), recheckHitEvents i b)
      | none =>
        match scanFree s (s.head i.toNat) (none, 0) with
        | (some b2, _) =>
          (.ok (reuse s b2 dev blockno, b2),
            [.acquire (.bucket i), .release (.bucket i), .acquire .biglock, .acquire (.bucket i),
              .write b2 .dev, .write b2 .blockno, .write b2 .refcnt, .write b2 .valid,
              .release (.bucket i), .release .biglock, .acquiresleep b2])
        | (none, min_ticks) =>
          ((stealLoopT s dev blockno i NBUCKET (hash (i + 1)) (none, min_ticks)).1,
            [.acquire (.bucket i), .release (.bucket i), .acquire .biglock, .acquire (.bucket i)] ++
              (stealLoopT s dev blockno i NBUCKET (hash (i + 1)) (none, min_ticks)).2)

/-- The function `bread` together with its events: those of `bget`, then the
transfer and `b->valid = 1` when the slot returned is not valid. -/
def breadT (s : Cache) (d : Disk) (dev blockno : Nat) :
    Result (Cache × Disk × Nat) × List Event :=
  match bgetT s dev blockno with
  | (.ok (s1, b), tr) =>
    if !(s1.buf b).valid then
      (.ok (setBuf (virtio_disk_rw s1 d b false).1 b
          { (virtio_disk_rw s1 d b false).1.buf b with valid := true },
        (virtio_disk_rw s1 d b false).2, b), tr ++ [.transfer b, .write b .valid])
    else (.ok (s1, d, b), tr)
  | (.panic s1, tr) => (.panic s1, tr)
  | (.undefined, tr) => (.undefined, tr)
  | (.timeout, tr) => (.timeout, tr)

/-- The function `brelse` together with its events; the spinlock is
`bcache.lock[hash(b->blockno)]`. -/
def brelseT (s : Cache) (b : Nat) (holding : Bool) (ticks : Nat) : Option Cache × List Event :=
  if !holding then (none, [.panic])
  else
    if ((decref s b).buf b).refcnt == 0 then
      (some (setBuf (decref s b) b { (decref s b).buf b with lastuse := ticks % 4294967296 }),
        [.releasesleep b, .acquire (.bucket (lockIndex s b)), .write b .refcnt,
          .write b .lastuse, .release (.bucket (lockIndex s b))])
    else
      (some (decref s b),
        [.releasesleep b, .acquire (.bucket (lockIndex s b)), .write b .refcnt,
          .release (.bucket (lockIndex s b))])

/-- The function `bpin` together with its events. -/
def bpinT (s : Cache) (b : Nat) : Cache × List Event :=
  (incref s b,
    [.acquire (.bucket (lockIndex s b)), .write b .refcnt, .release (.bucket (lockIndex s b))])

/-- The function `bunpin` together with its events. -/
def bunpinT (s : Cache) (b : Nat) : Cache × List Event :=
  (decref s b,
    [.acquire (.bucket (lockIndex s b)), .write b .refcnt, .release (.bucket (lockIndex s b))])

/-- What an observer of the events knows: the members of each ring, the
spinlocks the caller holds, the sleep-locks the caller holds. -/
structure LockState where
  rings : Nat → List Nat
  held : List Lock
  sleeping : List Nat

/-- The effect of one event on the observed state. -/
def applyEvent (σ : LockState) : Event → LockState
  | .acquire l => { σ with held := l :: σ.held }
  | .release l => { σ with held := σ.held.erase l }
  | .unlinked b j => { σ with rings := Function.update σ.rings j.toNat ((σ.rings j.toNat).erase b) }
  | .linked b i => { σ with rings := Function.update σ.rings i.toNat (b :: σ.rings i.toNat) }
  | .acquiresleep b => { σ with sleeping := b :: σ.sleeping }
  | .releasesleep b => { σ with sleeping := σ.sleeping.erase b }
  | .write _ _ => σ
  | .transfer _ => σ
  | .panic => σ

/-- Run the events from the observed state `σ`, every event being allowed by
the rule `allowed` in the state it occurs in; `none` when one is not. -/
def run (allowed : LockState → Event → Bool) : List Event → LockState → Option LockState
  | [], σ => some σ
  | e :: es, σ => if allowed σ e then run allowed es (applyEvent σ e) else none

/-- The fields `dev`, `blockno`, `valid` and `refcnt`. -/
def guarded : Field → Bool
  | .lastuse => false
  | _ => true

/-- The caller holds the spinlock of a ring that contains slot `b`. -/
def covered (σ : LockState) (b : Nat) : Bool :=
  (List.range NBUCKET).any fun k =>
    decide (b ∈ σ.rings k) && decide (Lock.bucket (k : Int) ∈ σ.held)

/-- The rule "every write of `dev`, `blockno`, `valid` or `refcnt` of a slot is
made under the spinlock of the ring that contains the slot". -/
def underBucketLock (σ : LockState) : Event → Bool
  | .write b f => !guarded f || covered σ b
  | _ => true

/-- The rule `underBucketLock` relaxed for `valid`, which may also be written
by the holder of the sleep-lock of the slot. -/
def underBucketOrSleepLock (σ : LockState) : Event → Bool
  | .write b f => !guarded f || covered σ b || (decide (f = .valid) && decide (b ∈ σ.sleeping))
  | _ => true

/-- The lock is one of `bcache.lock[]`. -/
def isBucket : Lock → Bool
  | .bucket _ => true
  | .biglock => false

/-- The rule on the order of the locks: no spinlock is acquired while it is
held, `biglock` is not acquired while a bucket lock is held, a lock released
is held, and no spinlock is held at `acquiresleep` and at `panic`. -/
def lockOrder (σ : LockState) : Event → Bool
  | .acquire l => !decide (l ∈ σ.held) && (isBucket l || !σ.held.any isBucket)
  | .release l => decide (l ∈ σ.held)
  | .acquiresleep _ => σ.held.isEmpty
  | .panic => σ.held.isEmpty
  | _ => true

/-- Both rules. -/
def strict (σ : LockState) (e : Event) : Bool := lockOrder σ e && underBucketLock σ e

/-! ## Machine integers: basic facts -/

theorem toUint_toInt (n : Nat) : toUint (toInt n) = n % 4294967296 := by
  unfold toUint toInt
  split <;> omega

theorem hash_natCast (n : Nat) : hash (n : Int) = ((n % 13 : Nat) : Int) := by
  unfold hash NBUCKET
  rw [Int.tmod_eq_emod (by omega) (by omega)]
  omega

theorem hash_lt (z : Int) : hash z < 13 := Int.tmod_lt_of_pos z (by decide)

theorem toInt_of_lt {n : Nat} (h : n < 2147483648) : toInt n = (n : Int) := by
  unfold toInt
  have : n % 4294967296 = n := Nat.mod_eq_of_lt (by omega)
  rw [this, if_pos h]

theorem hash_toInt_of_lt {n : Nat} (h : n < 2147483648) :
    hash (toInt n) = ((n % 13 : Nat) : Int) := by
  rw [toInt_of_lt h, hash_natCast]

/-! ## The scan for a free slot -/

theorem scanFree_cons_busy (s : Cache) (x : Nat) (xs : List Nat) (acc : Option Nat × Int)
    (hx : (s.buf x).refcnt ≠ 0) : scanFree s (x :: xs) acc = scanFree s xs acc := by
  obtain ⟨b2, m⟩ := acc
  simp [scanFree, hx]

theorem scanFree_cons_none (s : Cache) (x : Nat) (xs : List Nat) (m : Int)
    (hx : (s.buf x).refcnt = 0) :
    scanFree s (x :: xs) (none, m) = scanFree s xs (some x, toInt (s.buf x).lastuse) := by
  simp [scanFree, hx]

theorem scanFree_cons_some (s : Cache) (x : Nat) (xs : List Nat) (b : Nat) (m : Int)
    (hx : (s.buf x).refcnt = 0) :
    scanFree s (x :: xs) (some b, m) =
      if (s.buf x).lastuse < toUint m then scanFree s xs (some x, toInt (s.buf x).lastuse)
      else scanFree s xs (some b, m) := by
  simp [scanFree, hx]

theorem scanFree_none_acc (s : Cache) (l : List Nat) (m : Int)
    (h : ∀ x ∈ l, (s.buf x).refcnt ≠ 0) : scanFree s l (none, m) = (none, m) := by
  induction l with
  | nil => rfl
  | cons x xs ih =>
    rw [scanFree_cons_busy s x xs _ (h x (List.mem_cons_self _ _))]
    exact ih (fun y hy => h y (List.mem_cons_of_mem _ hy))

/-- With a candidate in hand the scan returns that candidate or a free slot
of the ring. -/
theorem scanFree_mem_acc (s : Cache) (l : List Nat) (b : Nat) (m : Int)
    (hb : (s.buf b).refcnt = 0) (b2 : Nat) (m' : Int)
    (e : scanFree s l (some b, m) = (some b2, m')) :
    (b2 = b ∨ b2 ∈ l) ∧ (s.buf b2).refcnt = 0 := by
  induction l generalizing b m with
  | nil =>
    simp only [scanFree, Prod.mk.injEq, Option.some.injEq] at e
    exact ⟨Or.inl e.1.symm, e.1 ▸ hb⟩
  | cons y ys ih =>
    by_cases hy : (s.buf y).refcnt = 0
    · rw [scanFree_cons_some s y ys b m hy] at e
      split at e
      · obtain ⟨h1, h2⟩ := ih y _ hy e
        refine ⟨Or.inr ?_, h2⟩
        rcases h1 with rfl | h1
        · exact List.mem_cons_self _ _
        · exact List.mem_cons_of_mem _ h1
      · obtain ⟨h1, h2⟩ := ih b _ hb e
        refine ⟨?_, h2⟩
        rcases h1 with rfl | h1
        · exact Or.inl rfl
        · exact Or.inr (List.mem_cons_of_mem _ h1)
    · rw [scanFree_cons_busy s y ys _ hy] at e
      obtain ⟨h1, h2⟩ := ih b _ hb e
      refine ⟨?_, h2⟩
      rcases h1 with rfl | h1
      · exact Or.inl rfl
      · exact Or.inr (List.mem_cons_of_mem _ h1)

/-- The slot found by a scan that starts without candidate is a free slot of
the ring. -/
theorem scanFree_mem (s : Cache) (l : List Nat) (m m' : Int) (b2 : Nat)
    (h : scanFree s l (none, m) = (some b2, m')) : b2 ∈ l ∧ (s.buf b2).refcnt = 0 := by
  induction l with
  | nil => simp [scanFree] at h
  | cons x xs ih =>
    by_cases hx : (s.buf x).refcnt = 0
    · rw [scanFree_cons_none s x xs m hx] at h
      obtain ⟨h1, h2⟩ := scanFree_mem_acc s xs x _ hx b2 m' h
      refine ⟨?_, h2⟩
      rcases h1 with rfl | h1
      · exact List.mem_cons_self _ _
      · exact List.mem_cons_of_mem _ h1
    · rw [scanFree_cons_busy s x xs _ hx] at h
      obtain ⟨h1, h2⟩ := ih h
      exact ⟨List.mem_cons_of_mem _ h1, h2⟩

/-- A scan that starts without candidate ends without one exactly when the
ring has no free slot. -/
theorem scanFree_fst_none_iff (s : Cache) (l : List Nat) (m : Int) :
    (scanFree s l (none, m)).1 = none ↔ ∀ x ∈ l, (s.buf x).refcnt ≠ 0 := by
  constructor
  · intro h x hx hfree
    induction l with
    | nil => simp at hx
    | cons y ys ih =>
      by_cases hy : (s.buf y).refcnt = 0
      · rw [scanFree_cons_none s y ys m hy] at h
        generalize hr : scanFree s ys (some y, toInt (s.buf y).lastuse) = r at h
        obtain ⟨r1, r2⟩ := r
        cases r1 with
        | some v => simp at h
        | none =>
          clear ih hx
          have : ∀ (l : List Nat) (b : Nat) (m : Int), (scanFree s l (some b, m)).1 ≠ none := by
            intro l
            induction l with
            | nil => intro b m; simp [scanFree]
            | cons z zs ihz =>
              intro b m
              simp only [scanFree]
              split
              · exact ihz _ _
              · exact ihz _ _
          exact absurd (by rw [hr]) (this ys y (toInt (s.buf y).lastuse))
      · rw [scanFree_cons_busy s y ys _ hy] at h
        rcases List.mem_cons.1 hx with rfl | hx
        · exact hy hfree
        · exact ih h hx
  · intro h
    rw [scanFree_none_acc s l m h]

/-- What the scan returns once a candidate `b` is held with `min_ticks` equal
to its mark: a slot whose mark is minimal. -/
theorem scanFree_inv (s : Cache) (ht : Typed s) (l : List Nat) (b : Nat) :
    ∃ b2, scanFree s l (some b, toInt (s.buf b).lastuse) = (some b2, toInt (s.buf b2).lastuse) ∧
      (s.buf b2).lastuse ≤ (s.buf b).lastuse ∧
      ∀ x ∈ l, (s.buf x).refcnt = 0 → (s.buf b2).lastuse ≤ (s.buf x).lastuse := by
  induction l generalizing b with
  | nil => exact ⟨b, rfl, le_refl _, by simp⟩
  | cons x xs ih =>
    have hb := ht b
    by_cases hx : (s.buf x).refcnt = 0
    · rw [scanFree_cons_some s x xs b _ hx, toUint_toInt, Nat.mod_eq_of_lt hb]
      split
      · rename_i hlt
        obtain ⟨b2, e, hle, hmin⟩ := ih x
        refine ⟨b2, e, by omega, ?_⟩
        intro y hy hfy
        rcases List.mem_cons.1 hy with rfl | hy
        · exact hle
        · exact hmin y hy hfy
      · rename_i hlt
        obtain ⟨b2, e, hle, hmin⟩ := ih b
        refine ⟨b2, e, hle, ?_⟩
        intro y hy hfy
        rcases List.mem_cons.1 hy with rfl | hy
        · omega
        · exact hmin y hy hfy
    · rw [scanFree_cons_busy s x xs _ hx]
      obtain ⟨b2, e, hle, hmin⟩ := ih b
      refine ⟨b2, e, hle, ?_⟩
      intro y hy hfy
      rcases List.mem_cons.1 hy with rfl | hy
      · exact absurd hfy hx
      · exact hmin y hy hfy

/-- The slot found by a scan that starts without candidate has the smallest
mark among the free slots of the ring. -/
theorem scanFree_min (s : Cache) (ht : Typed s) (l : List Nat) (m m' : Int) (b2 : Nat)
    (h : scanFree s l (none, m) = (some b2, m')) :
    ∀ x ∈ l, (s.buf x).refcnt = 0 → (s.buf b2).lastuse ≤ (s.buf x).lastuse := by
  induction l with
  | nil => simp
  | cons x xs ih =>
    by_cases hx : (s.buf x).refcnt = 0
    · rw [scanFree_cons_none s x xs m hx] at h
      obtain ⟨b', e, hle, hmin⟩ := scanFree_inv s ht xs x
      rw [e] at h
      simp only [Prod.mk.injEq, Option.some.injEq] at h
      obtain ⟨rfl, _⟩ := h
      intro y hy hfy
      rcases List.mem_cons.1 hy with rfl | hy
      · exact hle
      · exact hmin y hy hfy
    · rw [scanFree_cons_busy s x xs _ hx] at h
      intro y hy hfy
      rcases List.mem_cons.1 hy with rfl | hy
      · exact absurd hfy hx
      · exact ih h y hy hfy

/-! ## The walk over the other buckets -/

theorem stealLoop_succ (s : Cache) (dev blockno : Nat) (i j : Int) (fuel : Nat)
    (acc : Option Nat × Int) :
    stealLoop s dev blockno i (fuel + 1) j acc =
      if j = i then .panic s
      else
        match scanFree s (s.head j.toNat) acc with
        | (some b2, _) =>
          .ok (insertHead (unlink (reuse s b2 dev blockno) j.toNat b2) i.toNat b2, b2)
        | (none, min_ticks) =>
          stealLoop s dev blockno i fuel (hash (j + 1)) (none, min_ticks) := rfl

/-- The walk started at bucket `J` with enough fuel either reaches bucket `I`
having found every bucket on the way without free slot, and panics with the
cache untouched, or stops at the first bucket on the way that has a free slot
and moves the slot found there to the front of ring `I`. -/
theorem stealLoop_spec (s : Cache) (dev blockno : Nat) (I : Nat) (m : Int) :
    ∀ (fuel J : Nat), J < 13 → I < 13 → (I + 13 - J) % 13 < fuel →
      (stealLoop s dev blockno (I : Int) fuel (J : Int) (none, m) = .panic s ∧
          ∀ t, t < (I + 13 - J) % 13 → noFree s ((J + t) % 13)) ∨
      ∃ t b2 m', t < (I + 13 - J) % 13 ∧ (∀ t', t' < t → noFree s ((J + t') % 13)) ∧
        scanFree s (s.head ((J + t) % 13)) (none, m) = (some b2, m') ∧
        stealLoop s dev blockno (I : Int) fuel (J : Int) (none, m) =
          .ok (insertHead (unlink (reuse s b2 dev blockno) ((J + t) % 13) b2) I b2, b2) := by
  intro fuel
  induction fuel with
  | zero => intro J _ _ h; omega
  | succ fuel ih =>
    intro J hJ hI hfuel
    rw [stealLoop_succ]
    by_cases hJI : J = I
    · subst hJI
      left
      refine ⟨by simp, ?_⟩
      intro t ht
      omega
    · have hne : ¬ ((J : Int) = (I : Int)) := by omega
      rw [if_neg hne, Int.toNat_ofNat, Int.toNat_ofNat]
      have hJmod : (J + 0) % 13 = J := by omega
      generalize hr : scanFree s (s.head J) (none, m) = r
      obtain ⟨r1, r2⟩ := r
      cases r1 with
      | some b2 =>
        right
        refine ⟨0, b2, r2, by omega, by intro t' ht'; omega, ?_, ?_⟩
        · rw [hJmod]; exact hr
        · rw [hJmod]
      | none =>
        have hno : noFree s J := by
          have := (scanFree_fst_none_iff s (s.head J) m).1 (by rw [hr])
          exact this
        have hacc := scanFree_none_acc s (s.head J) m hno
        rw [hr] at hacc
        simp only [Prod.mk.injEq, true_and] at hacc
        subst hacc
        have hh : hash ((J : Int) + 1) = (((J + 1) % 13 : Nat) : Int) := by
          have : ((J : Int) + 1) = ((J + 1 : Nat) : Int) := by omega
          rw [this, hash_natCast]
        simp only [hh]
        have hd : (I + 13 - (J + 1) % 13) % 13 + 1 = (I + 13 - J) % 13 := by omega
        rcases ih ((J + 1) % 13) (by omega) hI (by omega) with ⟨hp, hall⟩ | ⟨t, b2, m', ht, hbefore, hscan, hok⟩
        · left
          refine ⟨hp, ?_⟩
          intro t ht
          rcases Nat.eq_zero_or_pos t with rfl | hpos
          · rw [hJmod]; exact hno
          · have := hall (t - 1) (by omega)
            have e : ((J + 1) % 13 + (t - 1)) % 13 = (J + t) % 13 := by omega
            rw [e] at this
            exact this
        · right
          have e : ((J + 1) % 13 + t) % 13 = (J + (t + 1)) % 13 := by omega
          refine ⟨t + 1, b2, m', by omega, ?_, ?_, ?_⟩
          · intro t' ht'
            rcases Nat.eq_zero_or_pos t' with rfl | hpos
            · rw [hJmod]; exact hno
            · have := hbefore (t' - 1) (by omega)
              have e' : ((J + 1) % 13 + (t' - 1)) % 13 = (J + t') % 13 := by omega
              rw [e'] at this
              exact this
          · rw [← e]; exact hscan
          · rw [← e]; exact hok

/-! ## The paths of bget -/

theorem isHit_iff (s : Cache) (dev blockno b : Nat) :
    isHit s dev blockno b = true ↔ (s.buf b).dev = dev ∧ (s.buf b).blockno = blockno := by
  simp [isHit]

theorem lookup_none_iff (s : Cache) (i dev blockno : Nat) :
    lookup s i dev blockno = none ↔ noHit s i dev blockno := by
  unfold lookup noHit
  rw [List.find?_eq_none]
  constructor
  · intro h x hx hh
    exact h x hx ((isHit_iff s dev blockno x).2 hh)
  · intro h x hx hh
    exact h x hx ((isHit_iff s dev blockno x).1 hh)

theorem bget_path (s : Cache) (dev blockno : Nat) : BgetPath s dev blockno (bget s dev blockno) := by
  unfold bget
  simp only
  by_cases hneg : hash (toInt blockno) < 0
  · rw [if_pos hneg]
    exact .undef hneg
  · rw [if_neg hneg]
    obtain ⟨I, hI⟩ : ∃ I : Nat, hash (toInt blockno) = (I : Int) :=
      ⟨(hash (toInt blockno)).toNat, (Int.toNat_of_nonneg (by omega)).symm⟩
    have hlt : I < 13 := by
      have := hash_lt (toInt blockno)
      omega
    rw [hI, Int.toNat_ofNat]
    cases hl : lookup s I dev blockno with
    | some b => exact .hit I b hI hlt hl
    | none =>
      simp only
      have hmiss := (lookup_none_iff s I dev blockno).1 hl
      generalize hr : scanFree s (s.head I) (none, 0) = r
      obtain ⟨r1, r2⟩ := r
      cases r1 with
      | some b2 => exact .localReuse I b2 r2 hI hlt hmiss hr
      | none =>
        simp only
        have hno : noFree s I := (scanFree_fst_none_iff s (s.head I) 0).1 (by rw [hr])
        have hacc := scanFree_none_acc s (s.head I) 0 hno
        rw [hr] at hacc
        simp only [Prod.mk.injEq, true_and] at hacc
        subst hacc
        have hh : hash ((I : Int) + 1) = (((I + 1) % 13 : Nat) : Int) := by
          have : ((I : Int) + 1) = ((I + 1 : Nat) : Int) := by omega
          rw [this, hash_natCast]
        rw [hh]
        have hd : (I + 13 - (I + 1) % 13) % 13 = 12 := by omega
        rcases stealLoop_spec s dev blockno I 0 NBUCKET ((I + 1) % 13) (by omega) hlt
            (by rw [hd]; decide) with ⟨hp, hall⟩ | ⟨t, b2, m', ht, hbefore, hscan, hok⟩
        · rw [hp]
          refine .panic I hI hlt hmiss ?_
          intro k hk
          by_cases hkI : k = I
          · rw [hkI]; exact hno
          · have := hall ((k + 13 - (I + 1) % 13) % 13) (by omega)
            have e : ((I + 1) % 13 + (k + 13 - (I + 1) % 13) % 13) % 13 = k := by omega
            rw [e] at this
            exact this
        · rw [hok]
          have e : ∀ u, ((I + 1) % 13 + u) % 13 = (I + 1 + u) % 13 := by intro u; omega
          rw [e t]
          rw [e t] at hscan
          refine .steal I t b2 m' hI hlt hmiss hno (by omega) ?_ hscan
          intro t' ht'
          have := hbefore t' ht'
          rw [e t'] at this
          exact this

@[simp]
theorem setBuf_head (s : Cache) (b : Nat) (v : Buf) : (setBuf s b v).head = s.head := rfl

@[simp]
theorem setBuf_buf_self (s : Cache) (b : Nat) (v : Buf) : (setBuf s b v).buf b = v := by
  simp [setBuf]

theorem setBuf_buf_of_ne (s : Cache) (b x : Nat) (v : Buf) (h : x ≠ b) :
    (setBuf s b v).buf x = s.buf x := by
  simp [setBuf, Function.update_noteq h]

@[simp]
theorem insertHead_buf (s : Cache) (i b : Nat) : (insertHead s i b).buf = s.buf := rfl

@[simp]
theorem unlink_buf (s : Cache) (j b : Nat) : (unlink s j b).buf = s.buf := rfl

@[simp]
theorem incref_head (s : Cache) (b : Nat) : (incref s b).head = s.head := rfl

@[simp]
theorem decref_head (s : Cache) (b : Nat) : (decref s b).head = s.head := rfl

@[simp]
theorem reuse_head (s : Cache) (b dev blockno : Nat) :
    (reuse s b dev blockno).head = s.head := rfl

theorem incref_buf_of_ne (s : Cache) (b x : Nat) (h : x ≠ b) : (incref s b).buf x = s.buf x :=
  setBuf_buf_of_ne s b x _ h

theorem decref_buf_of_ne (s : Cache) (b x : Nat) (h : x ≠ b) : (decref s b).buf x = s.buf x :=
  setBuf_buf_of_ne s b x _ h

theorem reuse_buf_of_ne (s : Cache) (b dev blockno x : Nat) (h : x ≠ b) :
    (reuse s b dev blockno).buf x = s.buf x :=
  setBuf_buf_of_ne s b x _ h

@[simp]
theorem incref_buf_self (s : Cache) (b : Nat) :
    (incref s b).buf b = { s.buf b with refcnt := ((s.buf b).refcnt + 1) % 4294967296 } := by
  simp [incref]

@[simp]
theorem decref_buf_self (s : Cache) (b : Nat) :
    (decref s b).buf b =
      { s.buf b with refcnt := ((s.buf b).refcnt + 4294967295) % 4294967296 } := by
  simp [decref]

@[simp]
theorem reuse_buf_self (s : Cache) (b dev blockno : Nat) :
    (reuse s b dev blockno).buf b =
      { s.buf b with dev := dev, blockno := blockno,
                     refcnt := ((s.buf b).refcnt + 1) % 4294967296, valid := false } := by
  simp [reuse]

theorem insertHead_head_self (s : Cache) (i b : Nat) :
    (insertHead s i b).head i = b :: s.head i := by
  simp [insertHead]

theorem insertHead_head_of_ne (s : Cache) (i b k : Nat) (h : k ≠ i) :
    (insertHead s i b).head k = s.head k := by
  simp [insertHead, Function.update_noteq h]

theorem unlink_head_self (s : Cache) (j b : Nat) :
    (unlink s j b).head j = (s.head j).erase b := by
  simp [unlink]

theorem unlink_head_of_ne (s : Cache) (j b k : Nat) (h : k ≠ j) :
    (unlink s j b).head k = s.head k := by
  simp [unlink, Function.update_noteq h]

/-- The rings after a slot found in ring `j` has been moved to the front of
ring `i`. -/
theorem steal_head (s : Cache) (b2 dev blockno i j k : Nat) (hij : j ≠ i) :
    (insertHead (unlink (reuse s b2 dev blockno) j b2) i b2).head k =
      if k = i then b2 :: s.head i else if k = j then (s.head j).erase b2 else s.head k := by
  by_cases hki : k = i
  · subst hki
    rw [if_pos rfl, insertHead_head_self, unlink_head_of_ne _ _ _ _ (Ne.symm hij), reuse_head]
  · rw [if_neg hki, insertHead_head_of_ne _ _ _ _ hki]
    by_cases hkj : k = j
    · subst hkj
      rw [if_pos rfl, unlink_head_self, reuse_head]
    · rw [if_neg hkj, unlink_head_of_ne _ _ _ _ hkj, reuse_head]

theorem steal_buf (s : Cache) (b2 dev blockno i j : Nat) :
    (insertHead (unlink (reuse s b2 dev blockno) j b2) i b2).buf =
      (reuse s b2 dev blockno).buf := rfl

/-- The bucket visited at step `t` of the walk is not the bucket of the request. -/
theorem walk_ne (I t : Nat) (ht : t < 12) : (I + 1 + t) % 13 ≠ I := by omega

/-! ## Effect of a returning call of bget -/

/-- A returning call of `bget` changes no slot but the one returned. -/
theorem bget_buf_of_ne (s s' : Cache) (dev blockno b : Nat)
    (h : bget s dev blockno = .ok (s', b)) (x : Nat) (hx : x ≠ b) : s'.buf x = s.buf x := by
  have hp := bget_path s dev blockno
  rw [h] at hp
  cases hp with
  | hit I b hI hlt hb => exact incref_buf_of_ne s b x hx
  | localReuse I b2 m' hI hlt hmiss hscan => exact reuse_buf_of_ne s b dev blockno x hx
  | steal I t b2 m' hI hlt hmiss hfull ht hbefore hscan =>
    rw [steal_buf]; exact reuse_buf_of_ne s b dev blockno x hx

/-- The slot returned by `bget` either had the requested identity and keeps
its fields but `refcnt`, or was free and is given the identity. -/
theorem bget_buf_self (s s' : Cache) (dev blockno b : Nat)
    (h : bget s dev blockno = .ok (s', b)) :
    (s'.buf b = { s.buf b with refcnt := ((s.buf b).refcnt + 1) % 4294967296 } ∧
        (s.buf b).dev = dev ∧ (s.buf b).blockno = blockno) ∨
    (s'.buf b = (reuse s b dev blockno).buf b ∧ (s.buf b).refcnt = 0) := by
  have hp := bget_path s dev blockno
  rw [h] at hp
  cases hp with
  | hit I b hI hlt hb =>
    left
    have := (isHit_iff s dev blockno b).1 (List.find?_some hb)
    exact ⟨incref_buf_self s b, this⟩
  | localReuse I b2 m' hI hlt hmiss hscan =>
    right
    exact ⟨rfl, (scanFree_mem s _ _ _ _ hscan).2⟩
  | steal I t b2 m' hI hlt hmiss hfull ht hbefore hscan =>
    right
    rw [steal_buf]
    exact ⟨rfl, (scanFree_mem s _ _ _ _ hscan).2⟩

/-- A returning call of `bget` keeps every slot other than the one returned
in the rings it was in. -/
theorem bget_mem_of_ne (s s' : Cache) (dev blockno b : Nat)
    (h : bget s dev blockno = .ok (s', b)) (x : Nat) (hx : x ≠ b) (k : Nat) :
    x ∈ s'.head k ↔ x ∈ s.head k := by
  have hp := bget_path s dev blockno
  rw [h] at hp
  cases hp with
  | hit I b hI hlt hb => rfl
  | localReuse I b2 m' hI hlt hmiss hscan => rfl
  | steal I t b2 m' hI hlt hmiss hfull ht hbefore hscan =>
    rw [steal_head s b dev blockno I _ k (walk_ne I t ht)]
    split
    · rename_i hk
      subst hk
      simp [hx]
    · split
      · rename_i hk hk'
        subst hk'
        exact List.mem_erase_of_ne hx
      · rfl

/-- On a hit, and only then can the returned slot have been held, the rings
are left as they were. -/
theorem bget_head_of_held (s s' : Cache) (dev blockno b : Nat)
    (h : bget s dev blockno = .ok (s', b)) (hb : 0 < (s.buf b).refcnt) :
    s'.head = s.head ∧
      s'.buf b = { s.buf b with refcnt := ((s.buf b).refcnt + 1) % 4294967296 } := by
  have hp := bget_path s dev blockno
  rw [h] at hp
  cases hp with
  | hit I b hI hlt hb => exact ⟨rfl, incref_buf_self s b⟩
  | localReuse I b2 m' hI hlt hmiss hscan =>
    have := (scanFree_mem s _ _ _ _ hscan).2
    omega
  | steal I t b2 m' hI hlt hmiss hfull ht hbefore hscan =>
    have := (scanFree_mem s _ _ _ _ hscan).2
    omega

/-- The slot returned by `bget` lies in the ring of the bucket of `blockno`. -/
theorem bget_mem_ring (s s' : Cache) (dev blockno b : Nat)
    (h : bget s dev blockno = .ok (s', b)) :
    0 ≤ hash (toInt blockno) ∧ b ∈ s'.head (hash (toInt blockno)).toNat := by
  have hp := bget_path s dev blockno
  rw [h] at hp
  cases hp with
  | hit I b hI hlt hb =>
    rw [hI, Int.toNat_ofNat]
    exact ⟨by omega, List.mem_of_find?_eq_some hb⟩
  | localReuse I b2 m' hI hlt hmiss hscan =>
    rw [hI, Int.toNat_ofNat]
    exact ⟨by omega, (scanFree_mem s _ _ _ _ hscan).1⟩
  | steal I t b2 m' hI hlt hmiss hfull ht hbefore hscan =>
    rw [hI, Int.toNat_ofNat, steal_head s b dev blockno I _ I (walk_ne I t ht), if_pos rfl]
    exact ⟨by omega, List.mem_cons_self _ _⟩

/-- The fuel given to the walk over the buckets is never exhausted: a call of
`bget` returns, panics or is undefined. -/
theorem bget_ne_timeout (s : Cache) (dev blockno : Nat) : bget s dev blockno ≠ .timeout := by
  intro h
  have hp := bget_path s dev blockno
  rw [h] at hp
  cases hp

/-- A call of `bget` that panics has changed nothing in the cache. -/
theorem bget_panic_eq (s : Cache) (dev blockno : Nat) (s' : Cache)
    (h : bget s dev blockno = .panic s') : s' = s := by
  have hp := bget_path s dev blockno
  rw [h] at hp
  cases hp with
  | panic I hI hlt hmiss hfull => rfl

/-- The slot returned by `bget` carries the requested identity. -/
theorem bget_identity (s s' : Cache) (dev blockno b : Nat)
    (h : bget s dev blockno = .ok (s', b)) :
    (s'.buf b).dev = dev ∧ (s'.buf b).blockno = blockno := by
  rcases bget_buf_self s s' dev blockno b h with ⟨e, hd, hb⟩ | ⟨e, _⟩
  · rw [e]; exact ⟨hd, hb⟩
  · rw [e, reuse_buf_self]; exact ⟨rfl, rfl⟩

/-! ## The cache left by binit, and typing -/

theorem foldl_insertHead_buf (l : List Nat) (s0 : Cache) :
    (l.foldl (fun s b => insertHead s 0 b) s0).buf = s0.buf := by
  induction l generalizing s0 with
  | nil => rfl
  | cons a l ih => rw [List.foldl_cons, ih, insertHead_buf]

theorem foldl_insertHead_head_zero (l : List Nat) (s0 : Cache) :
    (l.foldl (fun s b => insertHead s 0 b) s0).head 0 = l.reverse ++ s0.head 0 := by
  induction l generalizing s0 with
  | nil => rfl
  | cons a l ih =>
    rw [List.foldl_cons, ih, insertHead_head_self, List.reverse_cons, List.append_assoc]
    rfl

theorem foldl_insertHead_head_of_ne (l : List Nat) (s0 : Cache) (k : Nat) (hk : k ≠ 0) :
    (l.foldl (fun s b => insertHead s 0 b) s0).head k = s0.head k := by
  induction l generalizing s0 with
  | nil => rfl
  | cons a l ih => rw [List.foldl_cons, ih, insertHead_head_of_ne _ _ _ _ hk]

/-- After `binit` every slot is zero. -/
theorem binit_buf (NBUF : Nat) (x : Nat) : (binit NBUF).buf x = zeroBuf := by
  unfold binit
  rw [foldl_insertHead_buf]

/-- After `binit` ring 0 holds the slots `NBUF-1`, ..., `0`, in this order. -/
theorem binit_head_zero (NBUF : Nat) : (binit NBUF).head 0 = (List.range NBUF).reverse := by
  unfold binit
  rw [foldl_insertHead_head_zero, List.append_nil]

/-- After `binit` every ring but ring 0 is empty. -/
theorem binit_head_of_ne (NBUF k : Nat) (hk : k ≠ 0) : (binit NBUF).head k = [] := by
  unfold binit
  rw [foldl_insertHead_head_of_ne _ _ _ hk]

theorem typed_setBuf (s : Cache) (b : Nat) (v : Buf) (hs : Typed s)
    (hv : v.lastuse < 4294967296) : Typed (setBuf s b v) := by
  intro x
  by_cases hx : x = b
  · subst hx
    rw [setBuf_buf_self]
    exact hv
  · rw [setBuf_buf_of_ne s b x v hx]
    exact hs x

theorem typed_of_buf_eq (s s' : Cache) (hs : Typed s)
    (h : ∀ x, (s'.buf x).lastuse = (s.buf x).lastuse) : Typed s' := by
  intro x
  rw [h x]
  exact hs x

theorem typed_incref (s : Cache) (b : Nat) (hs : Typed s) : Typed (incref s b) :=
  typed_setBuf s b _ hs (hs b)

theorem typed_decref (s : Cache) (b : Nat) (hs : Typed s) : Typed (decref s b) :=
  typed_setBuf s b _ hs (hs b)

theorem typed_bget (s s' : Cache) (dev blockno b : Nat) (hs : Typed s)
    (h : bget s dev blockno = .ok (s', b)) : Typed s' := by
  apply typed_of_buf_eq s s' hs
  intro x
  by_cases hx : x = b
  · subst hx
    rcases bget_buf_self s s' dev blockno x h with ⟨e, _⟩ | ⟨e, _⟩
    · rw [e]
    · rw [e, reuse_buf_self]
  · rw [bget_buf_of_ne s s' dev blockno b h x hx]

theorem typed_brelse (s s' : Cache) (b ticks : Nat) (holding : Bool) (hs : Typed s)
    (h : brelse s b holding ticks = some s') : Typed s' := by
  unfold brelse at h
  split at h
  · cases h
  · simp only at h
    split at h
    · cases h
      exact typed_setBuf _ b _ (typed_decref s b hs) (Nat.mod_lt _ (by decide))
    · cases h
      exact typed_decref s b hs

/-- In a reachable cache every recency mark is a `uint`. -/
theorem typed_of_reachable (P : Cache → Nat → Prop) (NBUF : Nat) (s : Cache)
    (h : ReachableBy P NBUF s) : Typed s := by
  induction h with
  | init =>
    intro x
    rw [binit_buf]
    decide
  | bget s s' dev blockno b _ _ _ hcall ih => exact typed_bget s s' dev blockno b ih hcall
  | brelse s s' b ticks holding _ _ _ _ hcall ih => exact typed_brelse s s' b ticks holding ih hcall
  | bpin s b _ _ _ ih => exact typed_incref s b ih
  | bunpin s b _ _ _ ih => exact typed_decref s b ih

/-! ## First matches -/

theorem find?_mono {p p' : Nat → Bool} {l : List Nat} {x : Nat}
    (h : l.find? p = some x) (hpp : ∀ y, p' y = true → p y = true) (hx : p' x = true) :
    l.find? p' = some x := by
  induction l with
  | nil => simp at h
  | cons a l ih =>
    by_cases ha : p a = true
    · rw [List.find?_cons_of_pos _ ha] at h
      cases h
      rw [List.find?_cons_of_pos _ hx]
    · rw [List.find?_cons_of_neg _ ha] at h
      have ha' : ¬ p' a = true := fun h' => ha (hpp a h')
      rw [List.find?_cons_of_neg _ ha']
      exact ih h

theorem find?_erase_mono {p p' : Nat → Bool} {l : List Nat} {x b : Nat}
    (h : l.find? p = some x) (hxb : x ≠ b) (hpp : ∀ y, p' y = true → p y = true)
    (hx : p' x = true) : (l.erase b).find? p' = some x := by
  induction l with
  | nil => simp at h
  | cons a l ih =>
    by_cases hab : a = b
    · subst hab
      rw [List.erase_cons_head]
      by_cases ha : p a = true
      · rw [List.find?_cons_of_pos _ ha] at h
        cases h
        exact absurd rfl hxb
      · rw [List.find?_cons_of_neg _ ha] at h
        exact find?_mono h hpp hx
    · rw [List.erase_cons_tail (by simpa using hab)]
      by_cases ha : p a = true
      · rw [List.find?_cons_of_pos _ ha] at h
        cases h
        rw [List.find?_cons_of_pos _ hx]
      · rw [List.find?_cons_of_neg _ ha] at h
        have ha' : ¬ p' a = true := fun h' => ha (hpp a h')
        rw [List.find?_cons_of_neg _ ha']
        exact ih h

theorem find?_unique {p : Nat → Bool} {l : List Nat} {b : Nat}
    (hb : b ∈ l) (hp : p b = true) (hu : ∀ y, y ∈ l → p y = true → y = b) :
    l.find? p = some b := by
  induction l with
  | nil => simp at hb
  | cons a l ih =>
    by_cases ha : p a = true
    · rw [List.find?_cons_of_pos _ ha, hu a (List.mem_cons_self _ _) ha]
    · rw [List.find?_cons_of_neg _ ha]
      rcases List.mem_cons.1 hb with rfl | hb
      · exact absurd hp ha
      · exact ih hb (fun y hy => hu y (List.mem_cons_of_mem _ hy))

theorem isHit_congr (s s' : Cache) (dev blockno y : Nat) (h : s.buf y = s'.buf y) :
    isHit s dev blockno y = isHit s' dev blockno y := by
  unfold isHit
  rw [h]

/-- Calls that change nothing but counts and marks keep `HeldFirst`, provided
every slot held afterwards was held before or is a first match. -/
theorem heldFirst_of_same_identity (s s' : Cache) (hs : HeldFirst s)
    (hhead : s'.head = s.head)
    (hid : ∀ x, (s'.buf x).dev = (s.buf x).dev ∧ (s'.buf x).blockno = (s.buf x).blockno)
    (hheld : ∀ x, 0 < (s'.buf x).refcnt → 0 < (s.buf x).refcnt ∨
      (0 ≤ hash (toInt (s.buf x).blockno) ∧
        lookup s (hash (toInt (s.buf x).blockno)).toNat (s.buf x).dev (s.buf x).blockno =
          some x)) :
    HeldFirst s' := by
  intro x hx
  have e : ∀ k d n, lookup s' k d n = lookup s k d n := by
    intro k d n
    unfold lookup
    rw [hhead]
    congr 1
    funext y
    unfold isHit
    rw [(hid y).1, (hid y).2]
  rw [(hid x).1, (hid x).2, e]
  rcases hheld x hx with h | h
  · exact hs x h
  · exact h

theorem heldFirst_incref_held (s : Cache) (b : Nat) (hs : HeldFirst s) (hb : held s b) :
    HeldFirst (incref s b) := by
  refine heldFirst_of_same_identity s (incref s b) hs rfl ?_ ?_
  · intro x
    by_cases hx : x = b
    · subst hx; rw [incref_buf_self]; exact ⟨rfl, rfl⟩
    · rw [incref_buf_of_ne s b x hx]; exact ⟨rfl, rfl⟩
  · intro x hx
    by_cases hxb : x = b
    · subst hxb; exact Or.inl hb
    · rw [incref_buf_of_ne s b x hxb] at hx; exact Or.inl hx

theorem heldFirst_decref_held (s : Cache) (b : Nat) (hs : HeldFirst s) (hb : held s b) :
    HeldFirst (decref s b) := by
  refine heldFirst_of_same_identity s (decref s b) hs rfl ?_ ?_
  · intro x
    by_cases hx : x = b
    · subst hx; rw [decref_buf_self]; exact ⟨rfl, rfl⟩
    · rw [decref_buf_of_ne s b x hx]; exact ⟨rfl, rfl⟩
  · intro x hx
    by_cases hxb : x = b
    · subst hxb; exact Or.inl hb
    · rw [decref_buf_of_ne s b x hxb] at hx; exact Or.inl hx

theorem heldFirst_brelse_held (s s' : Cache) (b ticks : Nat) (holding : Bool)
    (hs : HeldFirst s) (hb : held s b) (h : brelse s b holding ticks = some s') :
    HeldFirst s' := by
  have hd := heldFirst_decref_held s b hs hb
  unfold brelse at h
  split at h
  · cases h
  · simp only at h
    split at h
    · cases h
      refine heldFirst_of_same_identity (decref s b) _ hd rfl ?_ ?_
      · intro x
        by_cases hx : x = b
        · subst hx; rw [setBuf_buf_self]; exact ⟨rfl, rfl⟩
        · rw [setBuf_buf_of_ne _ b x _ hx]; exact ⟨rfl, rfl⟩
      · intro x hx
        by_cases hxb : x = b
        · subst hxb; rw [setBuf_buf_self] at hx; exact Or.inl hx
        · rw [setBuf_buf_of_ne _ b x _ hxb] at hx; exact Or.inl hx
    · cases h
      exact hd

/-- A slot that is given the identity `(dev, blockno)` after a miss does not
take the place of a held slot as first match of that slot's identity. -/
theorem isHit_reuse_imp (s : Cache) (dev blockno I b2 x : Nat) (hs : HeldFirst s)
    (hI : hash (toInt blockno) = (I : Int)) (hmiss : noHit s I dev blockno)
    (hx : 0 < (s.buf x).refcnt) (y : Nat)
    (hy : isHit (reuse s b2 dev blockno) (s.buf x).dev (s.buf x).blockno y = true) :
    isHit s (s.buf x).dev (s.buf x).blockno y = true := by
  by_cases hyb : y = b2
  · subst hyb
    exfalso
    rw [isHit_iff, reuse_buf_self] at hy
    obtain ⟨hd, hb⟩ := hy
    simp only at hd hb
    obtain ⟨_, hl⟩ := hs x hx
    rw [← hb, hI, Int.toNat_ofNat] at hl
    exact hmiss x (List.mem_of_find?_eq_some hl) ⟨hd.symm, hb.symm⟩
  · unfold isHit at hy ⊢
    rw [reuse_buf_of_ne s b2 dev blockno y hyb] at hy
    exact hy

theorem heldFirst_bget (s s' : Cache) (dev blockno b : Nat) (hs : HeldFirst s)
    (h : bget s dev blockno = .ok (s', b)) : HeldFirst s' := by
  have hp := bget_path s dev blockno
  rw [h] at hp
  cases hp with
  | hit I b hI hlt hb =>
    have hid := (isHit_iff s dev blockno b).1 (List.find?_some hb)
    refine heldFirst_of_same_identity s (incref s b) hs rfl ?_ ?_
    · intro x
      by_cases hx : x = b
      · subst hx; rw [incref_buf_self]; exact ⟨rfl, rfl⟩
      · rw [incref_buf_of_ne s b x hx]; exact ⟨rfl, rfl⟩
    · intro x hx
      by_cases hxb : x = b
      · subst hxb
        right
        rw [hid.1, hid.2, hI, Int.toNat_ofNat]
        exact ⟨by omega, hb⟩
      · rw [incref_buf_of_ne s b x hxb] at hx; exact Or.inl hx
  | localReuse I b2 m' hI hlt hmiss hscan =>
    have hm := scanFree_mem s _ _ _ _ hscan
    intro x hx
    by_cases hxb : x = b
    · subst hxb
      rw [reuse_buf_self]
      simp only
      rw [hI, Int.toNat_ofNat]
      refine ⟨by omega, ?_⟩
      unfold lookup
      rw [reuse_head]
      apply find?_unique hm.1
      · rw [isHit_iff, reuse_buf_self]; exact ⟨rfl, rfl⟩
      · intro y hy hyh
        by_contra hne
        rw [isHit_iff, reuse_buf_of_ne s x dev blockno y hne] at hyh
        exact hmiss y hy hyh
    · rw [reuse_buf_of_ne s b dev blockno x hxb] at hx ⊢
      obtain ⟨h0, hl⟩ := hs x hx
      refine ⟨h0, ?_⟩
      unfold lookup at hl ⊢
      rw [reuse_head]
      apply find?_mono hl (isHit_reuse_imp s dev blockno I b x hs hI hmiss hx)
      rw [isHit_congr _ s _ _ x (reuse_buf_of_ne s b dev blockno x hxb)]
      exact List.find?_some hl
  | steal I t b2 m' hI hlt hmiss hfull ht hbefore hscan =>
    have hm := scanFree_mem s _ _ _ _ hscan
    have hJ := walk_ne I t ht
    intro x hx
    rw [steal_buf] at hx ⊢
    by_cases hxb : x = b
    · subst hxb
      rw [reuse_buf_self]
      simp only
      rw [hI, Int.toNat_ofNat]
      refine ⟨by omega, ?_⟩
      unfold lookup
      rw [steal_head s x dev blockno I _ I hJ, if_pos rfl]
      apply List.find?_cons_of_pos
      rw [isHit_iff, steal_buf, reuse_buf_self]
      exact ⟨rfl, rfl⟩
    · rw [reuse_buf_of_ne s b dev blockno x hxb] at hx ⊢
      obtain ⟨h0, hl⟩ := hs x hx
      refine ⟨h0, ?_⟩
      have himp := isHit_reuse_imp s dev blockno I b x hs hI hmiss hx
      have hxhit : isHit (reuse s b dev blockno) (s.buf x).dev (s.buf x).blockno x = true := by
        rw [isHit_congr _ s _ _ x (reuse_buf_of_ne s b dev blockno x hxb)]
        exact List.find?_some hl
      have hbmiss : ¬ isHit (reuse s b dev blockno) (s.buf x).dev (s.buf x).blockno b = true := by
        intro hc
        have h1 := himp b hc
        rw [isHit_iff] at hc h1
        rw [reuse_buf_self] at hc
        simp only at hc
        obtain ⟨_, hl'⟩ := hs x hx
        rw [← hc.2, hI, Int.toNat_ofNat] at hl'
        exact hmiss x (List.mem_of_find?_eq_some hl') ⟨hc.1.symm, hc.2.symm⟩
      unfold lookup at hl ⊢
      have e : isHit (insertHead (unlink (reuse s b dev blockno) ((I + 1 + t) % 13) b) I b)
          (s.buf x).dev (s.buf x).blockno =
          isHit (reuse s b dev blockno) (s.buf x).dev (s.buf x).blockno := rfl
      rw [e, steal_head s b dev blockno I _ _ hJ]
      split
      · rename_i hk
        rw [hk] at hl
        rw [List.find?_cons_of_neg _ hbmiss]
        exact find?_mono hl himp hxhit
      · split
        · rename_i hk hk'
          rw [hk'] at hl
          exact find?_erase_mono hl hxb himp hxhit
        · exact find?_mono hl himp hxhit

/-- In every cache reachable by calls applied to held slots, every held slot
is the first match of its identity in the ring of its bucket. -/
theorem heldFirst_of_reachable (NBUF : Nat) (s : Cache) (h : ReachableHeld NBUF s) :
    HeldFirst s := by
  induction h with
  | init =>
    intro x hx
    rw [binit_buf] at hx
    exact absurd hx (by decide)
  | bget s s' dev blockno b _ _ _ hcall ih => exact heldFirst_bget s s' dev blockno b ih hcall
  | brelse s s' b ticks holding _ _ hP _ hcall ih =>
    exact heldFirst_brelse_held s s' b ticks holding ih hP hcall
  | bpin s b _ _ hP ih => exact heldFirst_incref_held s b ih hP
  | bunpin s b _ _ hP ih => exact heldFirst_decref_held s b ih hP

theorem cache_ext (s s' : Cache) (hb : ∀ x, s'.buf x = s.buf x) (hh : s'.head = s.head) :
    s' = s := by
  obtain ⟨b, h⟩ := s
  obtain ⟨b', h'⟩ := s'
  simp only at hb hh
  have : b' = b := funext hb
  rw [this, hh]

theorem lookup_of_same_identity (s s' : Cache) (hhead : s'.head = s.head)
    (hid : ∀ x, (s'.buf x).dev = (s.buf x).dev ∧ (s'.buf x).blockno = (s.buf x).blockno)
    (k dev blockno : Nat) : lookup s' k dev blockno = lookup s k dev blockno := by
  unfold lookup
  rw [hhead]
  congr 1
  funext y
  unfold isHit
  rw [(hid y).1, (hid y).2]

/-- Replacing a slot by one with the same identity changes no lookup. -/
theorem lookup_setBuf (s : Cache) (b : Nat) (v : Buf) (hd : v.dev = (s.buf b).dev)
    (hb : v.blockno = (s.buf b).blockno) (k dev blockno : Nat) :
    lookup (setBuf s b v) k dev blockno = lookup s k dev blockno := by
  refine lookup_of_same_identity s (setBuf s b v) rfl ?_ k dev blockno
  intro x
  by_cases hx : x = b
  · subst hx; rw [setBuf_buf_self]; exact ⟨hd, hb⟩
  · rw [setBuf_buf_of_ne s b x v hx]; exact ⟨rfl, rfl⟩

theorem lookup_incref (s : Cache) (b k dev blockno : Nat) :
    lookup (incref s b) k dev blockno = lookup s k dev blockno := by
  refine lookup_setBuf s b _ ?_ ?_ k dev blockno <;> rfl

theorem lookup_decref (s : Cache) (b k dev blockno : Nat) :
    lookup (decref s b) k dev blockno = lookup s k dev blockno := by
  refine lookup_setBuf s b _ ?_ ?_ k dev blockno <;> rfl

/-- The slot returned by `bget` is, after the call, the first slot of the ring
of the bucket of `blockno` that carries `(dev, blockno)`. -/
theorem bget_lookup_returned (s s' : Cache) (dev blockno b : Nat)
    (h : bget s dev blockno = .ok (s', b)) :
    lookup s' (hash (toInt blockno)).toNat dev blockno = some b := by
  have hp := bget_path s dev blockno
  rw [h] at hp
  cases hp with
  | hit I b hI hlt hb =>
    rw [hI, Int.toNat_ofNat]
    exact (lookup_incref s b I dev blockno).trans hb
  | localReuse I b2 m' hI hlt hmiss hscan =>
    have hm := scanFree_mem s _ _ _ _ hscan
    rw [hI, Int.toNat_ofNat]
    unfold lookup
    rw [reuse_head]
    apply find?_unique hm.1
    · rw [isHit_iff, reuse_buf_self]; exact ⟨rfl, rfl⟩
    · intro y hy hyh
      by_contra hne
      rw [isHit_iff, reuse_buf_of_ne s b dev blockno y hne] at hyh
      exact hmiss y hy hyh
  | steal I t b2 m' hI hlt hmiss hfull ht hbefore hscan =>
    rw [hI, Int.toNat_ofNat]
    unfold lookup
    rw [steal_head s b dev blockno I _ I (walk_ne I t ht), if_pos rfl]
    apply List.find?_cons_of_pos
    rw [isHit_iff, steal_buf, reuse_buf_self]
    exact ⟨rfl, rfl⟩

/-- A call of `bget` for an identity that some slot of the ring carries
returns the first such slot and counts one more hold on it. -/
theorem bget_of_lookup (s : Cache) (dev blockno b : Nat) (hidx : 0 ≤ hash (toInt blockno))
    (hl : lookup s (hash (toInt blockno)).toNat dev blockno = some b) :
    bget s dev blockno = .ok (incref s b, b) := by
  unfold bget
  simp only
  rw [if_neg (by omega), hl]

theorem bread_of_bget (s s1 : Cache) (d : Disk) (dev blockno b : Nat)
    (h : bget s dev blockno = .ok (s1, b)) :
    bread s d dev blockno =
      if !(s1.buf b).valid then
        .ok (setBuf (virtio_disk_rw s1 d b false).1 b
              { (virtio_disk_rw s1 d b false).1.buf b with valid := true },
            (virtio_disk_rw s1 d b false).2, b)
      else .ok (s1, d, b) := by
  unfold bread
  rw [h]

/-- A returning call of `bread` comes from a returning call of `bget`. -/
theorem bget_of_bread (s s2 : Cache) (d d2 : Disk) (dev blockno b : Nat)
    (h : bread s d dev blockno = .ok (s2, d2, b)) :
    ∃ s1, bget s dev blockno = .ok (s1, b) := by
  unfold bread at h
  split at h
  · rename_i s1 b1 hb
    split at h
    · simp only [Result.ok.injEq, Prod.mk.injEq] at h
      rw [← h.2.2]; exact ⟨s1, hb⟩
    · simp only [Result.ok.injEq, Prod.mk.injEq] at h
      rw [← h.2.2]; exact ⟨s1, hb⟩
  · cases h
  · cases h
  · cases h

/-- What `bread` does once `bget` has returned slot `b` in cache `s1`. -/
theorem bread_spec (s s1 : Cache) (d : Disk) (dev blockno b : Nat)
    (h : bget s dev blockno = .ok (s1, b)) :
    ∃ s2 d2, bread s d dev blockno = .ok (s2, d2, b) ∧ (s2.buf b).valid = true ∧
      ((s1.buf b).valid = false →
        d2.log = d.log ++ [(false, dev, blockno)] ∧ d2.block = d.block ∧
          (s2.buf b).data = d.block dev blockno) ∧
      ((s1.buf b).valid = true → d2 = d ∧ s2 = s1) ∧
      lookup s2 (hash (toInt blockno)).toNat dev blockno = some b := by
  have hl := bget_lookup_returned s s1 dev blockno b h
  have hid := bget_identity s s1 dev blockno b h
  rw [bread_of_bget s s1 d dev blockno b h]
  cases hv : (s1.buf b).valid with
  | true =>
    refine ⟨s1, d, by simp, hv, by simp, fun _ => ⟨rfl, rfl⟩, hl⟩
  | false =>
    refine ⟨_, _, by simp; exact ⟨rfl, rfl⟩, by rw [setBuf_buf_self], ?_, by simp, ?_⟩
    · intro _
      simp only [virtio_disk_rw, Bool.false_eq_true, if_false, setBuf_buf_self, hid.1, hid.2]
      exact ⟨trivial, trivial, trivial⟩
    · simp only [virtio_disk_rw, Bool.false_eq_true, if_false, setBuf_buf_self]
      refine (lookup_of_same_identity s1 _ ?_ ?_ _ dev blockno).trans hl
      · rfl
      intro x
      by_cases hx : x = b
      · subst hx; rw [setBuf_buf_self]; exact ⟨rfl, rfl⟩
      · rw [setBuf_buf_of_ne _ b x _ hx, setBuf_buf_of_ne _ b x _ hx]; exact ⟨rfl, rfl⟩

/-- In a cache where the first slot of the ring carrying `(dev, blockno)` is
valid, `bread` returns that slot without any transfer. -/
theorem bread_of_lookup_valid (s : Cache) (d : Disk) (dev blockno b : Nat)
    (hidx : 0 ≤ hash (toInt blockno))
    (hl : lookup s (hash (toInt blockno)).toNat dev blockno = some b)
    (hv : (s.buf b).valid = true) :
    bread s d dev blockno = .ok (incref s b, d, b) := by
  rw [bread_of_bget s _ d dev blockno b (bget_of_lookup s dev blockno b hidx hl)]
  rw [incref_buf_self]
  simp [hv]

/-- A call of `brelse` by the holder of the sleep-lock returns and touches
neither the rings nor the identity, the flag or the payload of any slot. -/
theorem brelse_holding (s : Cache) (b ticks : Nat) :
    ∃ s', brelse s b true ticks = some s' ∧ s'.head = s.head ∧
      ∀ x, (s'.buf x).dev = (s.buf x).dev ∧ (s'.buf x).blockno = (s.buf x).blockno ∧
        (s'.buf x).valid = (s.buf x).valid ∧ (s'.buf x).data = (s.buf x).data := by
  unfold brelse
  simp only [Bool.not_true, Bool.false_eq_true, if_false]
  split
  · refine ⟨_, rfl, rfl, ?_⟩
    intro x
    by_cases hx : x = b
    · subst hx; rw [setBuf_buf_self, decref_buf_self]; exact ⟨rfl, rfl, rfl, rfl⟩
    · rw [setBuf_buf_of_ne _ b x _ hx, decref_buf_of_ne s b x hx]; exact ⟨rfl, rfl, rfl, rfl⟩
  · refine ⟨_, rfl, rfl, ?_⟩
    intro x
    by_cases hx : x = b
    · subst hx; rw [decref_buf_self]; exact ⟨rfl, rfl, rfl, rfl⟩
    · rw [decref_buf_of_ne s b x hx]; exact ⟨rfl, rfl, rfl, rfl⟩

/-- After a returning call of `bread` the slot returned is valid and is the
first slot of its ring that carries the identity. -/
theorem bread_post (s s1 : Cache) (d d1 : Disk) (dev blockno b : Nat)
    (h : bread s d dev blockno = .ok (s1, d1, b)) :
    0 ≤ hash (toInt blockno) ∧ (s1.buf b).valid = true ∧
      lookup s1 (hash (toInt blockno)).toNat dev blockno = some b ∧
      (s1.buf b).dev = dev ∧ (s1.buf b).blockno = blockno := by
  obtain ⟨s0, h0⟩ := bget_of_bread s s1 d d1 dev blockno b h
  obtain ⟨s2, d2, hb, hv, _, _, hl⟩ := bread_spec s s0 d dev blockno b h0
  rw [h] at hb
  simp only [Result.ok.injEq, Prod.mk.injEq] at hb
  obtain ⟨rfl, _, _⟩ := hb
  have hid : isHit s1 dev blockno b = true := List.find?_some hl
  exact ⟨(bget_mem_ring s s0 dev blockno b h0).1, hv, hl, (isHit_iff s1 dev blockno b).1 hid⟩

/-! ## Many pins of one slot -/

theorem pins_head (s : Cache) (b n : Nat) : (pins s b n).head = s.head := by
  induction n with
  | zero => rfl
  | succ n ih =>
    show (incref (pins s b n) b).head = s.head
    rw [incref_head, ih]

theorem pins_buf_of_ne (s : Cache) (b n x : Nat) (hx : x ≠ b) :
    (pins s b n).buf x = s.buf x := by
  induction n with
  | zero => rfl
  | succ n ih =>
    show (incref (pins s b n) b).buf x = s.buf x
    rw [incref_buf_of_ne _ b x hx, ih]

/-- After `n` pins the count of the slot is its count plus `n` modulo `2^32`,
and its other fields are as before. -/
theorem pins_buf_self (s : Cache) (b n : Nat) :
    (pins s b n).buf b = { s.buf b with refcnt := ((s.buf b).refcnt + n) % 4294967296 } ∨
      (pins s b n).buf b = s.buf b ∧ n = 0 := by
  induction n with
  | zero => exact Or.inr ⟨rfl, rfl⟩
  | succ n ih =>
    left
    show (incref (pins s b n) b).buf b = _
    rw [incref_buf_self]
    rcases ih with e | ⟨e, hn⟩
    · rw [e]
      simp only
      have : (((s.buf b).refcnt + n) % 4294967296 + 1) % 4294967296 =
          ((s.buf b).refcnt + (n + 1)) % 4294967296 := by omega
      rw [this]
    · rw [e, hn]

theorem pins_refcnt (s : Cache) (b n : Nat) (hr : (s.buf b).refcnt < 4294967296) :
    ((pins s b n).buf b).refcnt = ((s.buf b).refcnt + n) % 4294967296 := by
  rcases pins_buf_self s b n with e | ⟨e, hn⟩
  · rw [e]
  · rw [e, hn, Nat.add_zero, Nat.mod_eq_of_lt hr]

theorem lookup_pins (s : Cache) (b n k dev blockno : Nat) :
    lookup (pins s b n) k dev blockno = lookup s k dev blockno := by
  induction n with
  | zero => rfl
  | succ n ih =>
    show lookup (incref (pins s b n) b) k dev blockno = _
    rw [lookup_incref, ih]

/-- A slot that is held once can be pinned again and again, as long as its
count does not come back to 0, within the caches reachable by calls on held
slots. -/
theorem reachableHeld_pins (NBUF : Nat) (s : Cache) (b : Nat) (hb : b < NBUF)
    (hs : ReachableHeld NBUF s) (hr : (s.buf b).refcnt = 1) (n : Nat)
    (hn : n ≤ 4294967294) : ReachableHeld NBUF (pins s b n) := by
  induction n with
  | zero => exact hs
  | succ n ih =>
    refine ReachableBy.bpin (pins s b n) b (ih (by omega)) hb ?_
    unfold held
    rw [pins_refcnt s b n (by omega), hr]
    omega

theorem incref_pins_refcnt (s : Cache) (b n : Nat) (hr : (s.buf b).refcnt < 4294967296) :
    ((incref (pins s b n) b).buf b).refcnt =
      (((s.buf b).refcnt + n) % 4294967296 + 1) % 4294967296 := by
  rw [incref_buf_self]
  simp only
  rw [pins_refcnt s b n hr]

theorem partition_binit (NBUF : Nat) : Partition NBUF (binit NBUF) := by
  have hk : ∀ k b, b ∈ (binit NBUF).head k → k = 0 ∧ b < NBUF := by
    intro k b hb
    by_cases h0 : k = 0
    · subst h0
      rw [binit_head_zero, List.mem_reverse, List.mem_range] at hb
      exact ⟨rfl, hb⟩
    · rw [binit_head_of_ne NBUF k h0] at hb
      simp at hb
  refine ⟨?_, ?_, ?_, ?_⟩
  · intro b hb
    refine ⟨0, by decide, ?_⟩
    rw [binit_head_zero, List.mem_reverse, List.mem_range]
    exact hb
  · intro k
    by_cases h0 : k = 0
    · subst h0
      rw [binit_head_zero, List.nodup_reverse]
      exact List.nodup_range NBUF
    · rw [binit_head_of_ne NBUF k h0]
      exact List.nodup_nil
  · intro k k' b hb hb'
    rw [(hk k b hb).1, (hk k' b hb').1]
  · intro k b hb
    obtain ⟨h0, hlt⟩ := hk k b hb
    exact ⟨hlt, by omega⟩

theorem partition_of_head_eq (NBUF : Nat) (s s' : Cache) (hs : Partition NBUF s)
    (h : s'.head = s.head) : Partition NBUF s' := by
  unfold Partition
  rw [h]
  exact hs

/-- Membership in the rings after a slot of ring `J` has been moved to the
front of ring `I`. -/
theorem steal_mem_iff (NBUF : Nat) (s : Cache) (hs : Partition NBUF s)
    (b2 dev blockno I J : Nat) (hJI : J ≠ I) (hb2 : b2 ∈ s.head J) (x k : Nat) :
    x ∈ (insertHead (unlink (reuse s b2 dev blockno) J b2) I b2).head k ↔
      (x = b2 ∧ k = I) ∨ (x ≠ b2 ∧ x ∈ s.head k) := by
  obtain ⟨_, hnd, hdisj, _⟩ := hs
  rw [steal_head s b2 dev blockno I J k hJI]
  by_cases hkI : k = I
  · subst hkI
    rw [if_pos rfl, List.mem_cons]
    constructor
    · rintro (h | h)
      · exact Or.inl ⟨h, rfl⟩
      · right
        refine ⟨?_, h⟩
        intro e
        rw [e] at h
        exact hJI (hdisj J k b2 hb2 h)
    · rintro (⟨h, _⟩ | ⟨_, h⟩)
      · exact Or.inl h
      · exact Or.inr h
  · rw [if_neg hkI]
    by_cases hkJ : k = J
    · subst hkJ
      rw [if_pos rfl, (hnd k).mem_erase_iff]
      constructor
      · rintro ⟨h1, h2⟩
        exact Or.inr ⟨h1, h2⟩
      · rintro (⟨_, h⟩ | h)
        · exact absurd h hkI
        · exact h
    · rw [if_neg hkJ]
      constructor
      · intro h
        right
        refine ⟨?_, h⟩
        intro e
        rw [e] at h
        exact hkJ (hdisj k J b2 h hb2)
      · rintro (⟨_, h⟩ | ⟨_, h⟩)
        · exact absurd h hkI
        · exact h

/-- A returning call of `bget` keeps the rings a partition of the slots: on a
hit or a reuse within the bucket the rings are untouched, and a steal takes
the slot out of the ring it was found in and puts it in the ring of the
bucket of the request. -/
theorem partition_bget (NBUF : Nat) (s s' : Cache) (dev blockno b : Nat)
    (hs : Partition NBUF s) (h : bget s dev blockno = .ok (s', b)) : Partition NBUF s' := by
  have hp := bget_path s dev blockno
  rw [h] at hp
  cases hp with
  | hit I b hI hlt hb => exact partition_of_head_eq NBUF s _ hs rfl
  | localReuse I b2 m' hI hlt hmiss hscan => exact partition_of_head_eq NBUF s _ hs rfl
  | steal I t b2 m' hI hlt hmiss hfull ht hbefore hscan =>
    have hJI := walk_ne I t ht
    have hb2 := (scanFree_mem s _ _ _ _ hscan).1
    have hiff := steal_mem_iff NBUF s hs b dev blockno I _ hJI hb2
    obtain ⟨hall, hnd, hdisj, hin⟩ := hs
    refine ⟨?_, ?_, ?_, ?_⟩
    · intro x hx
      by_cases hxb : x = b
      · exact ⟨I, hlt, (hiff x I).2 (Or.inl ⟨hxb, rfl⟩)⟩
      · obtain ⟨k, hk, hmem⟩ := hall x hx
        exact ⟨k, hk, (hiff x k).2 (Or.inr ⟨hxb, hmem⟩)⟩
    · intro k
      rw [steal_head s b dev blockno I _ k hJI]
      split
      · rename_i hk
        refine List.nodup_cons.2 ⟨?_, hnd I⟩
        intro hmem
        exact hJI (hdisj _ I b hb2 hmem)
      · split
        · exact (hnd _).erase b
        · exact hnd k
    · intro k k' x hx hx'
      rcases (hiff x k).1 hx with ⟨h1, h2⟩ | ⟨h1, h2⟩
      · rcases (hiff x k').1 hx' with ⟨_, h4⟩ | ⟨h3, _⟩
        · rw [h2, h4]
        · exact absurd h1 h3
      · rcases (hiff x k').1 hx' with ⟨h3, _⟩ | ⟨_, h4⟩
        · exact absurd h3 h1
        · exact hdisj k k' x h2 h4
    · intro k x hx
      rcases (hiff x k).1 hx with ⟨h1, h2⟩ | ⟨_, h2⟩
      · rw [h1, h2]
        exact ⟨(hin _ b hb2).1, hlt⟩
      · exact hin k x h2

theorem brelse_head (s s' : Cache) (b ticks : Nat) (holding : Bool)
    (h : brelse s b holding ticks = some s') : s'.head = s.head := by
  unfold brelse at h
  split at h
  · cases h
  · simp only at h
    split at h
    · cases h; rfl
    · cases h; rfl

/-- In every cache reachable from `binit`, whatever the slots `brelse`, `bpin`
and `bunpin` are applied to, the rings are a partition of the slots. -/
theorem partition_of_reachable (P : Cache → Nat → Prop) (NBUF : Nat) (s : Cache)
    (h : ReachableBy P NBUF s) : Partition NBUF s := by
  induction h with
  | init => exact partition_binit NBUF
  | bget s s' dev blockno b _ _ _ hcall ih => exact partition_bget NBUF s s' dev blockno b ih hcall
  | brelse s s' b ticks holding _ _ _ _ hcall ih =>
    exact partition_of_head_eq NBUF s s' ih (brelse_head s s' b ticks holding hcall)
  | bpin s b _ _ _ ih => exact partition_of_head_eq NBUF s _ ih rfl
  | bunpin s b _ _ _ ih => exact partition_of_head_eq NBUF s _ ih rfl

/-! ## Placement of the slots in the rings -/

theorem placed_of_same (s s' : Cache) (hs : Placed s) (hh : s'.head = s.head)
    (hb : ∀ x, (s'.buf x).blockno = (s.buf x).blockno) : Placed s' := by
  intro k x hx
  rw [hh] at hx
  rw [hb x]
  exact hs k x hx

theorem placed_binit (NBUF : Nat) : Placed (binit NBUF) := by
  intro k x hx
  rw [binit_buf]
  by_cases h0 : k = 0
  · subst h0
    decide
  · rw [binit_head_of_ne NBUF k h0] at hx
    simp at hx

/-- A returning call of `bget` keeps every slot in the ring of the bucket of
its block number: the slot it assigns is, or is put, in ring `hash(blockno)`. -/
theorem placed_bget (NBUF : Nat) (s s' : Cache) (dev blockno b : Nat) (hs : Placed s)
    (hpart : Partition NBUF s) (h : bget s dev blockno = .ok (s', b)) : Placed s' := by
  have hp := bget_path s dev blockno
  rw [h] at hp
  cases hp with
  | hit I b hI hlt hb =>
    refine placed_of_same s _ hs rfl ?_
    intro x
    by_cases hx : x = b
    · subst hx; rw [incref_buf_self]
    · rw [incref_buf_of_ne s b x hx]
  | localReuse I b2 m' hI hlt hmiss hscan =>
    intro k x hx
    rw [reuse_head] at hx
    by_cases hxb : x = b
    · subst hxb
      rw [reuse_buf_self]
      simp only
      have hk := hs I x (scanFree_mem s _ _ _ _ hscan).1
      have hk' := hs k x hx
      rw [hI]
      omega
    · rw [reuse_buf_of_ne s b dev blockno x hxb]
      exact hs k x hx
  | steal I t b2 m' hI hlt hmiss hfull ht hbefore hscan =>
    have hJI := walk_ne I t ht
    have hb2 := (scanFree_mem s _ _ _ _ hscan).1
    intro k x hx
    rw [steal_buf]
    rcases (steal_mem_iff NBUF s hpart b dev blockno I _ hJI hb2 x k).1 hx with
      ⟨h1, h2⟩ | ⟨h1, h2⟩
    · rw [h1, h2, reuse_buf_self]
      exact hI
    · rw [reuse_buf_of_ne s b dev blockno x h1]
      exact hs k x h2

theorem brelse_blockno (s s' : Cache) (b ticks : Nat) (holding : Bool)
    (h : brelse s b holding ticks = some s') (x : Nat) :
    (s'.buf x).dev = (s.buf x).dev ∧ (s'.buf x).blockno = (s.buf x).blockno := by
  unfold brelse at h
  split at h
  · cases h
  · simp only at h
    split at h
    · cases h
      by_cases hx : x = b
      · subst hx; rw [setBuf_buf_self, decref_buf_self]; exact ⟨rfl, rfl⟩
      · rw [setBuf_buf_of_ne _ b x _ hx, decref_buf_of_ne s b x hx]; exact ⟨rfl, rfl⟩
    · cases h
      by_cases hx : x = b
      · subst hx; rw [decref_buf_self]; exact ⟨rfl, rfl⟩
      · rw [decref_buf_of_ne s b x hx]; exact ⟨rfl, rfl⟩

theorem incref_identity (s : Cache) (b x : Nat) :
    ((incref s b).buf x).dev = (s.buf x).dev ∧
      ((incref s b).buf x).blockno = (s.buf x).blockno := by
  by_cases hx : x = b
  · subst hx; rw [incref_buf_self]; exact ⟨rfl, rfl⟩
  · rw [incref_buf_of_ne s b x hx]; exact ⟨rfl, rfl⟩

theorem decref_identity (s : Cache) (b x : Nat) :
    ((decref s b).buf x).dev = (s.buf x).dev ∧
      ((decref s b).buf x).blockno = (s.buf x).blockno := by
  by_cases hx : x = b
  · subst hx; rw [decref_buf_self]; exact ⟨rfl, rfl⟩
  · rw [decref_buf_of_ne s b x hx]; exact ⟨rfl, rfl⟩

/-- In every reachable cache every member of a ring is in the ring of the
bucket of its block number. -/
theorem placed_of_reachable (P : Cache → Nat → Prop) (NBUF : Nat) (s : Cache)
    (h : ReachableBy P NBUF s) : Placed s := by
  induction h with
  | init => exact placed_binit NBUF
  | bget s s' dev blockno b hr _ _ hcall ih =>
    exact placed_bget NBUF s s' dev blockno b ih (partition_of_reachable P NBUF s hr) hcall
  | brelse s s' b ticks holding _ _ _ _ hcall ih =>
    exact placed_of_same s s' ih (brelse_head s s' b ticks holding hcall)
      (fun x => (brelse_blockno s s' b ticks holding hcall x).2)
  | bpin s b _ _ _ ih => exact placed_of_same s _ ih rfl (fun x => (incref_identity s b x).2)
  | bunpin s b _ _ _ ih => exact placed_of_same s _ ih rfl (fun x => (decref_identity s b x).2)

/-! ## Slots with the same identity -/

theorem uniqueAssigned_of_same (NBUF : Nat) (s s' : Cache) (hs : UniqueAssigned NBUF s)
    (hid : ∀ x, (s'.buf x).dev = (s.buf x).dev ∧ (s'.buf x).blockno = (s.buf x).blockno) :
    UniqueAssigned NBUF s' := by
  intro x y hx hy hxy hd hb
  rw [(hid x).1, (hid y).1] at hd
  rw [(hid x).2, (hid y).2] at hb
  rw [(hid x).1, (hid x).2]
  exact hs x y hx hy hxy hd hb

/-- After a miss in the ring of bucket `I`, no slot of the cache other than the
one that is assigned carries the requested identity. -/
theorem no_other_carrier (NBUF : Nat) (s : Cache) (hpart : Partition NBUF s) (hpl : Placed s)
    (dev blockno I : Nat) (hI : hash (toInt blockno) = (I : Int))
    (hmiss : noHit s I dev blockno) (y : Nat) (hy : y < NBUF)
    (hd : (s.buf y).dev = dev) (hb : (s.buf y).blockno = blockno) : False := by
  obtain ⟨k, _, hmem⟩ := hpart.1 y hy
  have hk := hpl k y hmem
  rw [hb, hI] at hk
  have e : I = k := by omega
  subst e
  exact hmiss y hmem ⟨hd, hb⟩

theorem uniqueAssigned_reuse (NBUF : Nat) (s : Cache) (hs : UniqueAssigned NBUF s)
    (hpart : Partition NBUF s) (hpl : Placed s) (dev blockno I b2 : Nat)
    (hI : hash (toInt blockno) = (I : Int)) (hmiss : noHit s I dev blockno) (s' : Cache)
    (hbuf : s'.buf = (reuse s b2 dev blockno).buf) : UniqueAssigned NBUF s' := by
  intro x y hx hy hxy hd hb
  rw [hbuf] at hd hb ⊢
  by_cases hxb : x = b2
  · subst hxb
    have hyb : y ≠ x := fun e => hxy e.symm
    rw [reuse_buf_self] at hd hb
    rw [reuse_buf_of_ne s x dev blockno y hyb] at hd hb
    simp only at hd hb
    exact (no_other_carrier NBUF s hpart hpl dev blockno I hI hmiss y hy hd.symm hb.symm).elim
  · rw [reuse_buf_of_ne s b2 dev blockno x hxb] at hd hb ⊢
    by_cases hyb : y = b2
    · subst hyb
      rw [reuse_buf_self] at hd hb
      simp only at hd hb
      exact (no_other_carrier NBUF s hpart hpl dev blockno I hI hmiss x hx hd hb).elim
    · rw [reuse_buf_of_ne s b2 dev blockno y hyb] at hd hb
      exact hs x y hx hy hxy hd hb

theorem uniqueAssigned_bget (NBUF : Nat) (s s' : Cache) (dev blockno b : Nat)
    (hs : UniqueAssigned NBUF s) (hpart : Partition NBUF s) (hpl : Placed s)
    (h : bget s dev blockno = .ok (s', b)) : UniqueAssigned NBUF s' := by
  have hp := bget_path s dev blockno
  rw [h] at hp
  cases hp with
  | hit I b hI hlt hb => exact uniqueAssigned_of_same NBUF s _ hs (incref_identity s b)
  | localReuse I b2 m' hI hlt hmiss hscan =>
    exact uniqueAssigned_reuse NBUF s hs hpart hpl dev blockno I b hI hmiss _ rfl
  | steal I t b2 m' hI hlt hmiss hfull ht hbefore hscan =>
    exact uniqueAssigned_reuse NBUF s hs hpart hpl dev blockno I b hI hmiss _ rfl

/-- In every reachable cache an identity other than `(0, 0)` is carried by at
most one of the `NBUF` slots. -/
theorem uniqueAssigned_of_reachable (P : Cache → Nat → Prop) (NBUF : Nat) (s : Cache)
    (h : ReachableBy P NBUF s) : UniqueAssigned NBUF s := by
  induction h with
  | init =>
    intro x y _ _ _ _ _
    rw [binit_buf]
    exact ⟨rfl, rfl⟩
  | bget s s' dev blockno b hr _ _ hcall ih =>
    exact uniqueAssigned_bget NBUF s s' dev blockno b ih
      (partition_of_reachable P NBUF s hr) (placed_of_reachable P NBUF s hr) hcall
  | brelse s s' b ticks holding _ _ _ _ hcall ih =>
    exact uniqueAssigned_of_same NBUF s s' ih (brelse_blockno s s' b ticks holding hcall)
  | bpin s b _ _ _ ih => exact uniqueAssigned_of_same NBUF s _ ih (incref_identity s b)
  | bunpin s b _ _ _ ih => exact uniqueAssigned_of_same NBUF s _ ih (decref_identity s b)

/-! ## The slot found by the scan is the first of the least recently used -/

/-- With a candidate `b` in hand, whose mark is `min_ticks`, the scan keeps
`b` if no free slot of the ring has a smaller mark, and otherwise ends on the
first of the free slots of the ring with the smallest mark. -/
theorem scanFree_split_acc (s : Cache) (ht : Typed s) (l : List Nat) (b b2 : Nat) (m' : Int)
    (h : scanFree s l (some b, toInt (s.buf b).lastuse) = (some b2, m')) :
    (b2 = b ∧ ∀ x, x ∈ l → (s.buf x).refcnt = 0 → (s.buf b).lastuse ≤ (s.buf x).lastuse) ∨
    ∃ l1 l2, l = l1 ++ b2 :: l2 ∧ (s.buf b2).refcnt = 0 ∧
      (s.buf b2).lastuse < (s.buf b).lastuse ∧
      (∀ x, x ∈ l1 → (s.buf x).refcnt = 0 → (s.buf b2).lastuse < (s.buf x).lastuse) ∧
      (∀ x, x ∈ l2 → (s.buf x).refcnt = 0 → (s.buf b2).lastuse ≤ (s.buf x).lastuse) := by
  induction l generalizing b with
  | nil =>
    simp only [scanFree, Prod.mk.injEq, Option.some.injEq] at h
    exact Or.inl ⟨h.1.symm, by simp⟩
  | cons x xs ih =>
    have hb := ht b
    by_cases hx : (s.buf x).refcnt = 0
    · rw [scanFree_cons_some s x xs b _ hx, toUint_toInt, Nat.mod_eq_of_lt hb] at h
      split at h
      · rename_i hlt
        rcases ih x h with ⟨e, hmin⟩ | ⟨l1, l2, hl, hf, hlt2, h1, h2⟩
        · right
          refine ⟨[], xs, by rw [e]; rfl, by rw [e]; exact hx, by rw [e]; exact hlt,
            by simp, ?_⟩
          intro y hy hfy
          rw [e]
          exact hmin y hy hfy
        · right
          refine ⟨x :: l1, l2, by rw [hl]; rfl, hf, by omega, ?_, h2⟩
          intro y hy hfy
          rcases List.mem_cons.1 hy with rfl | hy
          · exact hlt2
          · exact h1 y hy hfy
      · rename_i hlt
        rcases ih b h with ⟨e, hmin⟩ | ⟨l1, l2, hl, hf, hlt2, h1, h2⟩
        · left
          refine ⟨e, ?_⟩
          intro y hy hfy
          rcases List.mem_cons.1 hy with rfl | hy
          · omega
          · exact hmin y hy hfy
        · right
          refine ⟨x :: l1, l2, by rw [hl]; rfl, hf, hlt2, ?_, h2⟩
          intro y hy hfy
          rcases List.mem_cons.1 hy with rfl | hy
          · omega
          · exact h1 y hy hfy
    · rw [scanFree_cons_busy s x xs _ hx] at h
      rcases ih b h with ⟨e, hmin⟩ | ⟨l1, l2, hl, hf, hlt2, h1, h2⟩
      · left
        refine ⟨e, ?_⟩
        intro y hy hfy
        rcases List.mem_cons.1 hy with rfl | hy
        · exact absurd hfy hx
        · exact hmin y hy hfy
      · right
        refine ⟨x :: l1, l2, by rw [hl]; rfl, hf, hlt2, ?_, h2⟩
        intro y hy hfy
        rcases List.mem_cons.1 hy with rfl | hy
        · exact absurd hfy hx
        · exact h1 y hy hfy

/-- The slot found by a scan that starts without candidate is the first, in
ring order, of the free slots of the ring with the smallest mark: every free
slot before it has a larger mark and no free slot after it has a smaller one. -/
theorem scanFree_split (s : Cache) (ht : Typed s) (l : List Nat) (m m' : Int) (b2 : Nat)
    (h : scanFree s l (none, m) = (some b2, m')) :
    ∃ l1 l2, l = l1 ++ b2 :: l2 ∧ (s.buf b2).refcnt = 0 ∧
      (∀ x, x ∈ l1 → (s.buf x).refcnt = 0 → (s.buf b2).lastuse < (s.buf x).lastuse) ∧
      (∀ x, x ∈ l2 → (s.buf x).refcnt = 0 → (s.buf b2).lastuse ≤ (s.buf x).lastuse) := by
  induction l with
  | nil => simp [scanFree] at h
  | cons x xs ih =>
    by_cases hx : (s.buf x).refcnt = 0
    · rw [scanFree_cons_none s x xs m hx] at h
      rcases scanFree_split_acc s ht xs x b2 m' h with ⟨e, hmin⟩ | ⟨l1, l2, hl, hf, hlt, h1, h2⟩
      · refine ⟨[], xs, by rw [e]; rfl, by rw [e]; exact hx, by simp, ?_⟩
        intro y hy hfy
        rw [e]
        exact hmin y hy hfy
      · refine ⟨x :: l1, l2, by rw [hl]; rfl, hf, ?_, h2⟩
        intro y hy hfy
        rcases List.mem_cons.1 hy with rfl | hy
        · exact hlt
        · exact h1 y hy hfy
    · rw [scanFree_cons_busy s x xs _ hx] at h
      obtain ⟨l1, l2, hl, hf, h1, h2⟩ := ih h
      refine ⟨x :: l1, l2, by rw [hl]; rfl, hf, ?_, h2⟩
      intro y hy hfy
      rcases List.mem_cons.1 hy with rfl | hy
      · exact absurd hfy hx
      · exact h1 y hy hfy

/-- The order of the slots other than `b` is the same in a ring and in the
ring without `b`. -/
theorem filter_erase_ne (l : List Nat) (b : Nat) :
    (l.erase b).filter (fun x => decide (x ≠ b)) = l.filter (fun x => decide (x ≠ b)) := by
  induction l with
  | nil => rfl
  | cons a l ih =>
    by_cases hab : a = b
    · subst hab
      rw [List.erase_cons_head]
      simp
    · rw [List.erase_cons_tail (by simpa using hab)]
      have hd : decide (a ≠ b) = true := by simpa using hab
      simp only [List.filter_cons, hd, if_true, ih]

/-! ## Holds and refcnt -/

theorem brelse_refcnt (s s' : Cache) (b ticks : Nat) (holding : Bool)
    (h : brelse s b holding ticks = some s') :
    (s'.buf b).refcnt = ((s.buf b).refcnt + 4294967295) % 4294967296 ∧
      ∀ x, x ≠ b → (s'.buf x).refcnt = (s.buf x).refcnt := by
  unfold brelse at h
  split at h
  · cases h
  · simp only at h
    split at h
    · cases h
      refine ⟨by rw [setBuf_buf_self, decref_buf_self], ?_⟩
      intro x hx
      rw [setBuf_buf_of_ne _ b x _ hx, decref_buf_of_ne s b x hx]
    · cases h
      refine ⟨by rw [decref_buf_self], ?_⟩
      intro x hx
      rw [decref_buf_of_ne s b x hx]

/-- The count `refcnt` of every slot is its number of outstanding holds
modulo `2^32`. -/
theorem tracked_refcnt (NBUF : Nat) (s : Cache) (holds : Nat → Nat)
    (h : Tracked NBUF s holds) (x : Nat) : (s.buf x).refcnt = holds x % 4294967296 := by
  induction h generalizing x with
  | init => rw [binit_buf]; rfl
  | bget s s' holds dev blockno b _ _ _ hcall ih =>
    unfold holdsAfterBget
    by_cases hx : x = b
    · subst hx
      rw [Function.update_same]
      have hp := bget_path s dev blockno
      rw [hcall] at hp
      cases hp with
      | hit I b hI hlt hb =>
        rw [hI, Int.toNat_ofNat, if_pos hb, incref_buf_self]
        simp only
        rw [ih x]
        omega
      | localReuse I b2 m' hI hlt hmiss hscan =>
        rw [hI, Int.toNat_ofNat, (lookup_none_iff s I dev blockno).2 hmiss, if_neg (by simp),
          reuse_buf_self]
        simp only
        rw [(scanFree_mem s _ _ _ _ hscan).2]
      | steal I t b2 m' hI hlt hmiss hfull ht hbefore hscan =>
        rw [hI, Int.toNat_ofNat, (lookup_none_iff s I dev blockno).2 hmiss, if_neg (by simp),
          steal_buf, reuse_buf_self]
        simp only
        rw [(scanFree_mem s _ _ _ _ hscan).2]
    · rw [Function.update_noteq hx, bget_buf_of_ne s s' dev blockno b hcall x hx]
      exact ih x
  | brelse s s' holds b ticks holding _ _ hheld _ hcall ih =>
    obtain ⟨h1, h2⟩ := brelse_refcnt s s' b ticks holding hcall
    by_cases hx : x = b
    · subst hx
      rw [Function.update_same, h1, ih x]
      omega
    · rw [Function.update_noteq hx, h2 x hx]
      exact ih x
  | bpin s holds b _ _ ih =>
    by_cases hx : x = b
    · subst hx
      unfold bpin
      rw [Function.update_same, incref_buf_self]
      simp only
      rw [ih x]
      omega
    · unfold bpin
      rw [Function.update_noteq hx, incref_buf_of_ne s b x hx]
      exact ih x
  | bunpin s holds b _ _ hheld ih =>
    by_cases hx : x = b
    · subst hx
      unfold bunpin
      rw [Function.update_same, decref_buf_self]
      simp only
      rw [ih x]
      omega
    · unfold bunpin
      rw [Function.update_noteq hx, decref_buf_of_ne s b x hx]
      exact ih x

/-- Pinning a slot `n` times adds `n` to its number of outstanding holds. -/
theorem tracked_pins (NBUF : Nat) (s : Cache) (holds : Nat → Nat) (b : Nat) (hb : b < NBUF)
    (h : Tracked NBUF s holds) (n : Nat) :
    Tracked NBUF (pins s b n) (Function.update holds b (holds b + n)) := by
  induction n with
  | zero =>
    have e : Function.update holds b (holds b + 0) = holds := by
      rw [Nat.add_zero, Function.update_eq_self]
    rw [e]
    exact h
  | succ n ih =>
    have e : Function.update holds b (holds b + (n + 1)) =
        Function.update (Function.update holds b (holds b + n)) b
          (Function.update holds b (holds b + n) b + 1) := by
      rw [Function.update_same, Function.update_idem]
      rfl
    rw [e]
    exact Tracked.bpin (pins s b n) _ b ih hb

theorem pins_refcnt_zero (s : Cache) (b n : Nat) (hr : (s.buf b).refcnt = 0)
    (hn : n % 4294967296 = 0) : ((pins s b n).buf b).refcnt = 0 := by
  rw [pins_refcnt s b n (by omega), hr]
  omega

/-! ## The spinlocks: calls instrumented with their lock events -/

/-! ## The instrumented calls compute what the calls compute -/

theorem stealLoopT_fst (s : Cache) (dev blockno : Nat) (i : Int) :
    ∀ (fuel : Nat) (j : Int) (acc : Option Nat × Int),
      (stealLoopT s dev blockno i fuel j acc).1 = stealLoop s dev blockno i fuel j acc := by
  intro fuel
  induction fuel with
  | zero => intro j acc; rfl
  | succ fuel ih =>
    intro j acc
    unfold stealLoopT stealLoop
    by_cases hj : j = i
    · rw [if_pos hj, if_pos hj]
    · rw [if_neg hj, if_neg hj]
      generalize scanFree s (s.head j.toNat) acc = r
      obtain ⟨r1, r2⟩ := r
      cases r1 with
      | some b2 => rfl
      | none => exact ih _ _

theorem bgetT_fst (s : Cache) (dev blockno : Nat) :
    (bgetT s dev blockno).1 = bget s dev blockno := by
  unfold bgetT bget
  simp only
  by_cases hneg : hash (toInt blockno) < 0
  · rw [if_pos hneg, if_pos hneg]
  · rw [if_neg hneg, if_neg hneg]
    cases lookup s (hash (toInt blockno)).toNat dev blockno with
    | some b => rfl
    | none =>
      simp only
      generalize scanFree s (s.head (hash (toInt blockno)).toNat) (none, 0) = r
      obtain ⟨r1, r2⟩ := r
      cases r1 with
      | some b2 => rfl
      | none => exact stealLoopT_fst s dev blockno _ _ _ _

theorem breadT_fst (s : Cache) (d : Disk) (dev blockno : Nat) :
    (breadT s d dev blockno).1 = bread s d dev blockno := by
  unfold breadT bread
  rw [← bgetT_fst]
  generalize bgetT s dev blockno = r
  obtain ⟨r1, tr⟩ := r
  cases r1 with
  | ok a =>
    obtain ⟨s1, b⟩ := a
    simp only
    by_cases hv : (!(s1.buf b).valid) = true
    · rw [if_pos hv, if_pos hv]
    · rw [if_neg hv, if_neg hv]
  | panic s1 => rfl
  | undefined => rfl
  | timeout => rfl

theorem brelseT_fst (s : Cache) (b : Nat) (holding : Bool) (ticks : Nat) :
    (brelseT s b holding ticks).1 = brelse s b holding ticks := by
  unfold brelseT brelse
  by_cases hh : (!holding) = true
  · rw [if_pos hh, if_pos hh]
  · rw [if_neg hh, if_neg hh]
    simp only
    by_cases hz : (((decref s b).buf b).refcnt == 0) = true
    · rw [if_pos hz, if_pos hz]
    · rw [if_neg hz, if_neg hz]

theorem bpinT_fst (s : Cache) (b : Nat) : (bpinT s b).1 = bpin s b := rfl

theorem bunpinT_fst (s : Cache) (b : Nat) : (bunpinT s b).1 = bunpin s b := rfl

/-! ## Running the events -/

theorem run_cons (p : LockState → Event → Bool) (e : Event) (es : List Event) (σ : LockState) :
    run p (e :: es) σ = if p σ e then run p es (applyEvent σ e) else none := rfl

theorem run_append (p : LockState → Event → Bool) (es es' : List Event) :
    ∀ σ, run p (es ++ es') σ = (run p es σ).bind (run p es') := by
  induction es with
  | nil => intro σ; rfl
  | cons e es ih =>
    intro σ
    rw [List.cons_append, run_cons, run_cons]
    by_cases h : p σ e = true
    · rw [if_pos h, if_pos h, ih]
    · rw [if_neg h, if_neg h]
      rfl

/-- A run allowed by one rule is allowed by every weaker rule. -/
theorem run_mono (p q : LockState → Event → Bool) (hpq : ∀ σ e, p σ e = true → q σ e = true)
    (es : List Event) : ∀ σ σ', run p es σ = some σ' → run q es σ = some σ' := by
  induction es with
  | nil => intro σ σ' h; exact h
  | cons e es ih =>
    intro σ σ' h
    rw [run_cons] at h
    rw [run_cons]
    by_cases hp : p σ e = true
    · rw [if_pos hp] at h
      rw [if_pos (hpq σ e hp)]
      exact ih _ _ h
    · rw [if_neg hp] at h
      cases h

theorem strict_lockOrder (σ : LockState) (e : Event) (h : strict σ e = true) :
    lockOrder σ e = true := by
  unfold strict at h
  rw [Bool.and_eq_true] at h
  exact h.1

theorem strict_underBucketLock (σ : LockState) (e : Event) (h : strict σ e = true) :
    underBucketLock σ e = true := by
  unfold strict at h
  rw [Bool.and_eq_true] at h
  exact h.2

theorem underBucketLock_relax (σ : LockState) (e : Event) (h : underBucketLock σ e = true) :
    underBucketOrSleepLock σ e = true := by
  cases e with
  | write b f =>
    have h1 : (!guarded f || covered σ b) = true := h
    show (!guarded f || covered σ b || (decide (f = .valid) && decide (b ∈ σ.sleeping))) = true
    rw [h1]
    rfl
  | _ => rfl

theorem covered_of_mem (σ : LockState) (b k : Nat) (hk : k < 13) (hb : b ∈ σ.rings k)
    (hl : Lock.bucket (k : Int) ∈ σ.held) : covered σ b = true := by
  unfold covered
  rw [List.any_eq_true]
  refine ⟨k, by rw [List.mem_range]; exact hk, ?_⟩
  simp [hb, hl]

/-- A write of slot `b` made while the caller holds `bcache.lock[k]`, `b`
being in ring `k`, is allowed by both rules. -/
theorem strict_write (σ : LockState) (b k : Nat) (f : Field) (hk : k < 13) (hb : b ∈ σ.rings k)
    (hl : Lock.bucket (k : Int) ∈ σ.held) : strict σ (.write b f) = true := by
  show (true && (!guarded f || covered σ b)) = true
  rw [covered_of_mem σ b k hk hb hl]
  simp

/-- The events of a hit in the first scan. -/
theorem run_hit_first (s : Cache) (I b : Nat) (hI : I < 13) (hb : b ∈ s.head I) :
    run strict [.acquire (.bucket (I : Int)), .write b .refcnt, .release (.bucket (I : Int)),
        .acquiresleep b] ⟨s.head, [], []⟩ = some ⟨s.head, [], [b]⟩ := by
  rw [run_cons, if_pos (by simp [strict, lockOrder, underBucketLock, isBucket])]
  rw [run_cons, if_pos (strict_write _ b I .refcnt hI hb (by simp [applyEvent]))]
  simp [run, strict, lockOrder, underBucketLock, applyEvent]

/-- The events up to the second scan, which runs under `biglock` and
`bcache.lock[I]`. -/
theorem run_prelude (s : Cache) (I : Nat) :
    run strict [.acquire (.bucket (I : Int)), .release (.bucket (I : Int)), .acquire .biglock,
        .acquire (.bucket (I : Int))] ⟨s.head, [], []⟩ =
      some ⟨s.head, [.bucket (I : Int), .biglock], []⟩ := by
  simp [run, strict, lockOrder, underBucketLock, applyEvent, isBucket]

/-- The events of a hit in the second scan. -/
theorem run_hit_second (s : Cache) (I b : Nat) (hI : I < 13) (hb : b ∈ s.head I) :
    run strict [.write b .refcnt, .release (.bucket (I : Int)), .release .biglock,
        .acquiresleep b] ⟨s.head, [.bucket (I : Int), .biglock], []⟩ =
      some ⟨s.head, [], [b]⟩ := by
  rw [run_cons, if_pos (strict_write _ b I .refcnt hI hb (by simp))]
  simp [run, strict, lockOrder, underBucketLock, applyEvent]

/-- The events of the reuse of a slot of bucket `I`. -/
theorem run_local (s : Cache) (I b : Nat) (hI : I < 13) (hb : b ∈ s.head I) :
    run strict [.write b .dev, .write b .blockno, .write b .refcnt, .write b .valid,
        .release (.bucket (I : Int)), .release .biglock, .acquiresleep b]
        ⟨s.head, [.bucket (I : Int), .biglock], []⟩ = some ⟨s.head, [], [b]⟩ := by
  rw [run_cons, if_pos (strict_write _ b I .dev hI hb (by simp))]
  rw [run_cons, if_pos (strict_write _ b I .blockno hI hb (by simp [applyEvent]))]
  rw [run_cons, if_pos (strict_write _ b I .refcnt hI hb (by simp [applyEvent]))]
  rw [run_cons, if_pos (strict_write _ b I .valid hI hb (by simp [applyEvent]))]
  simp [run, strict, lockOrder, underBucketLock, applyEvent]

/-- The events of the move of a slot of bucket `J` to bucket `I`. -/
theorem run_steal (s : Cache) (dev blockno I J b : Nat) (hJ : J < 13) (hJI : J ≠ I)
    (hb : b ∈ s.head J) :
    run strict [.acquire (.bucket (J : Int)), .write b .dev, .write b .refcnt, .write b .valid,
        .write b .blockno, .unlinked b (J : Int), .release (.bucket (J : Int)),
        .linked b (I : Int), .release (.bucket (I : Int)), .release .biglock, .acquiresleep b]
        ⟨s.head, [.bucket (I : Int), .biglock], []⟩ =
      some ⟨(insertHead (unlink (reuse s b dev blockno) J b) I b).head, [], [b]⟩ := by
  have hne : ¬ ((J : Int) = (I : Int)) := by omega
  rw [run_cons, if_pos (by simp [strict, lockOrder, underBucketLock, isBucket, hne])]
  rw [run_cons, if_pos (strict_write _ b J .dev hJ hb (by simp [applyEvent]))]
  rw [run_cons, if_pos (strict_write _ b J .refcnt hJ hb (by simp [applyEvent]))]
  rw [run_cons, if_pos (strict_write _ b J .valid hJ hb (by simp [applyEvent]))]
  rw [run_cons, if_pos (strict_write _ b J .blockno hJ hb (by simp [applyEvent]))]
  simp [run, strict, lockOrder, underBucketLock, applyEvent, insertHead, unlink, reuse, setBuf,
    hne]

/-- The events of a bucket visited by the walk that has no free slot. -/
theorem run_visit (s : Cache) (I J : Nat) (hJI : J ≠ I) :
    run strict [.acquire (.bucket (J : Int)), .release (.bucket (J : Int))]
        ⟨s.head, [.bucket (I : Int), .biglock], []⟩ =
      some ⟨s.head, [.bucket (I : Int), .biglock], []⟩ := by
  have hne : ¬ ((J : Int) = (I : Int)) := by omega
  simp [run, strict, lockOrder, underBucketLock, applyEvent, isBucket, hne]

/-- The events of the end of the walk. -/
theorem run_nobuffers (s : Cache) (I : Nat) :
    run strict [.release (.bucket (I : Int)), .release .biglock, .panic]
        ⟨s.head, [.bucket (I : Int), .biglock], []⟩ = some ⟨s.head, [], []⟩ := by
  simp [run, strict, lockOrder, underBucketLock, applyEvent]

/-! ## The events of bget -/

theorem stealLoopT_succ (s : Cache) (dev blockno : Nat) (i j : Int) (fuel : Nat)
    (acc : Option Nat × Int) :
    stealLoopT s dev blockno i (fuel + 1) j acc =
      if j = i then (.panic s, [.release (.bucket i), .release .biglock, .panic])
      else
        match scanFree s (s.head j.toNat) acc with
        | (some b2, _) =>
          (.ok (insertHead (unlink (reuse s b2 dev blockno) j.toNat b2) i.toNat b2, b2),
            [.acquire (.bucket j), .write b2 .dev, .write b2 .refcnt, .write b2 .valid,
              .write b2 .blockno, .unlinked b2 j, .release (.bucket j), .linked b2 i,
              .release (.bucket i), .release .biglock, .acquiresleep b2])
        | (none, min_ticks) =>
          ((stealLoopT s dev blockno i fuel (hash (j + 1)) (none, min_ticks)).1,
            [.acquire (.bucket j), .release (.bucket j)] ++
              (stealLoopT s dev blockno i fuel (hash (j + 1)) (none, min_ticks)).2) := rfl

/-- The walk started at bucket `J` under `biglock` and `bcache.lock[I]`, with
enough fuel: its events are allowed by both rules and leave no spinlock held,
whether it returns a slot, whose sleep-lock is then held and which the events
have moved to ring `I`, or panics. -/
theorem stealLoopT_run (s : Cache) (dev blockno I : Nat) (m : Int) (hI : I < 13) :
    ∀ (fuel J : Nat), J < 13 → (I + 13 - J) % 13 < fuel →
      (∃ s' b, stealLoop s dev blockno (I : Int) fuel (J : Int) (none, m) = .ok (s', b) ∧
          run strict (stealLoopT s dev blockno (I : Int) fuel (J : Int) (none, m)).2
            ⟨s.head, [.bucket (I : Int), .biglock], []⟩ = some ⟨s'.head, [], [b]⟩) ∨
      (stealLoop s dev blockno (I : Int) fuel (J : Int) (none, m) = .panic s ∧
          run strict (stealLoopT s dev blockno (I : Int) fuel (J : Int) (none, m)).2
            ⟨s.head, [.bucket (I : Int), .biglock], []⟩ = some ⟨s.head, [], []⟩ ∧
          Event.panic ∈ (stealLoopT s dev blockno (I : Int) fuel (J : Int) (none, m)).2) := by
  intro fuel
  induction fuel with
  | zero => intro J _ h; omega
  | succ fuel ih =>
    intro J hJ hfuel
    rw [stealLoop_succ, stealLoopT_succ]
    by_cases hJI : J = I
    · subst hJI
      right
      rw [if_pos rfl, if_pos rfl]
      exact ⟨rfl, run_nobuffers s J, by simp⟩
    · have hne : ¬ ((J : Int) = (I : Int)) := by omega
      rw [if_neg hne, if_neg hne, Int.toNat_ofNat, Int.toNat_ofNat]
      generalize hr : scanFree s (s.head J) (none, m) = r
      obtain ⟨r1, r2⟩ := r
      cases r1 with
      | some b2 =>
        left
        exact ⟨_, b2, rfl, run_steal s dev blockno I J b2 hJ hJI (scanFree_mem s _ _ _ _ hr).1⟩
      | none =>
        have hno : noFree s J := (scanFree_fst_none_iff s (s.head J) m).1 (by rw [hr])
        have hacc := scanFree_none_acc s (s.head J) m hno
        rw [hr] at hacc
        simp only [Prod.mk.injEq, true_and] at hacc
        subst hacc
        have hh : hash ((J : Int) + 1) = (((J + 1) % 13 : Nat) : Int) := by
          have : ((J : Int) + 1) = ((J + 1 : Nat) : Int) := by omega
          rw [this, hash_natCast]
        simp only [hh]
        rw [run_append, run_visit s I J hJI, Option.some_bind]
        rcases ih ((J + 1) % 13) (by omega) (by omega) with ⟨s', b, hok, hrun⟩ | ⟨hp, hrun, hmem⟩
        · left
          exact ⟨s', b, hok, hrun⟩
        · right
          exact ⟨hp, hrun, List.mem_append_right _ hmem⟩

/-- The events of `bget` are allowed by both rules and leave no spinlock held:
a call that returns slot `b` ends holding the sleep-lock of `b` and nothing
else, with the rings of the new cache; a call that panics has reached `panic`
holding nothing. -/
theorem bgetT_run (s : Cache) (dev blockno : Nat) :
    (∃ s' b, bget s dev blockno = .ok (s', b) ∧
        run strict (bgetT s dev blockno).2 ⟨s.head, [], []⟩ = some ⟨s'.head, [], [b]⟩) ∨
    (bget s dev blockno = .panic s ∧
        run strict (bgetT s dev blockno).2 ⟨s.head, [], []⟩ = some ⟨s.head, [], []⟩ ∧
        Event.panic ∈ (bgetT s dev blockno).2) ∨
    (bget s dev blockno = .undefined ∧ hash (toInt blockno) < 0 ∧ (bgetT s dev blockno).2 = []) := by
  unfold bget bgetT
  simp only
  by_cases hneg : hash (toInt blockno) < 0
  · rw [if_pos hneg, if_pos hneg]
    exact Or.inr (Or.inr ⟨rfl, hneg, rfl⟩)
  · rw [if_neg hneg, if_neg hneg]
    obtain ⟨I, hI⟩ : ∃ I : Nat, hash (toInt blockno) = (I : Int) :=
      ⟨(hash (toInt blockno)).toNat, (Int.toNat_of_nonneg (by omega)).symm⟩
    have hlt : I < 13 := by
      have := hash_lt (toInt blockno)
      omega
    rw [hI, Int.toNat_ofNat]
    cases hl : lookup s I dev blockno with
    | some b =>
      left
      exact ⟨_, b, rfl, run_hit_first s I b hlt (List.mem_of_find?_eq_some hl)⟩
    | none =>
      simp only
      generalize hr : scanFree s (s.head I) (none, 0) = r
      obtain ⟨r1, r2⟩ := r
      cases r1 with
      | some b2 =>
        left
        refine ⟨_, b2, rfl, ?_⟩
        have e := run_append strict [.acquire (.bucket (I : Int)), .release (.bucket (I : Int)),
          .acquire .biglock, .acquire (.bucket (I : Int))]
          [.write b2 .dev, .write b2 .blockno, .write b2 .refcnt, .write b2 .valid,
            .release (.bucket (I : Int)), .release .biglock, .acquiresleep b2] ⟨s.head, [], []⟩
        rw [run_prelude s I, Option.some_bind,
          run_local s I b2 hlt (scanFree_mem s _ _ _ _ hr).1] at e
        exact e
      | none =>
        simp only
        have hno : noFree s I := (scanFree_fst_none_iff s (s.head I) 0).1 (by rw [hr])
        have hacc := scanFree_none_acc s (s.head I) 0 hno
        rw [hr] at hacc
        simp only [Prod.mk.injEq, true_and] at hacc
        subst hacc
        have hh : hash ((I : Int) + 1) = (((I + 1) % 13 : Nat) : Int) := by
          have : ((I : Int) + 1) = ((I + 1 : Nat) : Int) := by omega
          rw [this, hash_natCast]
        rw [hh, run_append, run_prelude s I, Option.some_bind]
        have hd : (I + 13 - (I + 1) % 13) % 13 = 12 := by omega
        rcases stealLoopT_run s dev blockno I 0 hlt NBUCKET ((I + 1) % 13) (by omega)
            (by rw [hd]; decide) with ⟨s', b, hok, hrun⟩ | ⟨hp, hrun, hmem⟩
        · left
          exact ⟨s', b, hok, hrun⟩
        · right
          left
          exact ⟨hp, hrun, List.mem_append_right _ hmem⟩

/-! ## The events of brelse, bpin, bunpin and bread -/

/-- The events of a hit in the second scan, from the start of the call. -/
theorem run_recheck (s : Cache) (I b : Nat) (hI : I < 13) (hb : b ∈ s.head I) :
    run strict (recheckHitEvents (I : Int) b) ⟨s.head, [], []⟩ = some ⟨s.head, [], [b]⟩ := by
  have e := run_append strict [.acquire (.bucket (I : Int)), .release (.bucket (I : Int)),
    .acquire .biglock, .acquire (.bucket (I : Int))]
    [.write b .refcnt, .release (.bucket (I : Int)), .release .biglock, .acquiresleep b]
    ⟨s.head, [], []⟩
  rw [run_prelude s I, Option.some_bind, run_hit_second s I b hI hb] at e
  exact e

/-- The events `acquire(&bcache.lock[k]); b->refcnt++; release(&bcache.lock[k])`
of `bpin` and `bunpin`, for a slot of ring `k`. -/
theorem run_pin (s : Cache) (b k : Nat) (sl : List Nat) (hk : k < 13) (hb : b ∈ s.head k) :
    run strict [.acquire (.bucket (k : Int)), .write b .refcnt, .release (.bucket (k : Int))]
        ⟨s.head, [], sl⟩ = some ⟨s.head, [], sl⟩ := by
  rw [run_cons, if_pos (by simp [strict, lockOrder, underBucketLock, isBucket])]
  rw [run_cons, if_pos (strict_write _ b k .refcnt hk hb (by simp [applyEvent]))]
  simp [run, strict, lockOrder, underBucketLock, applyEvent]

/-- The events of `brelse` on a slot of ring `k` whose count reaches 0. -/
theorem run_release (s : Cache) (b k : Nat) (sl : List Nat) (hk : k < 13) (hb : b ∈ s.head k) :
    run strict [.releasesleep b, .acquire (.bucket (k : Int)), .write b .refcnt,
        .write b .lastuse, .release (.bucket (k : Int))] ⟨s.head, [], sl⟩ =
      some ⟨s.head, [], sl.erase b⟩ := by
  rw [run_cons, if_pos (by simp [strict, lockOrder, underBucketLock])]
  rw [run_cons, if_pos (by simp [strict, lockOrder, underBucketLock, isBucket, applyEvent])]
  rw [run_cons, if_pos (strict_write _ b k .refcnt hk hb (by simp [applyEvent]))]
  rw [run_cons, if_pos (strict_write _ b k .lastuse hk hb (by simp [applyEvent]))]
  simp [run, strict, lockOrder, underBucketLock, applyEvent]

/-- In a reachable cache the spinlock that `brelse`, `bpin` and `bunpin` take
for one of the `NBUF` slots is the one of the ring that contains the slot. -/
theorem lockIndex_ring (NBUF : Nat) (s : Cache) (h : Reachable NBUF s) (b : Nat) (hb : b < NBUF) :
    ∃ k, k < 13 ∧ b ∈ s.head k ∧ lockIndex s b = (k : Int) := by
  obtain ⟨hall, _, _, _⟩ := partition_of_reachable _ NBUF s h
  obtain ⟨k, hk, hmem⟩ := hall b hb
  exact ⟨k, hk, hmem, placed_of_reachable _ NBUF s h k b hmem⟩

theorem brelseT_run (s : Cache) (b k : Nat) (holding : Bool) (ticks : Nat) (sl : List Nat)
    (hk : k < 13) (hb : b ∈ s.head k) (hidx : lockIndex s b = (k : Int)) :
    ∃ σ, run strict (brelseT s b holding ticks).2 ⟨s.head, [], sl⟩ = some σ ∧ σ.held = [] := by
  unfold brelseT
  rw [hidx]
  by_cases hh : (!holding) = true
  · rw [if_pos hh]
    exact ⟨⟨s.head, [], sl⟩, by simp [run, strict, lockOrder, underBucketLock, applyEvent], rfl⟩
  · rw [if_neg hh]
    by_cases hz : (((decref s b).buf b).refcnt == 0) = true
    · rw [if_pos hz]
      exact ⟨_, run_release s b k sl hk hb, rfl⟩
    · rw [if_neg hz]
      refine ⟨⟨s.head, [], sl.erase b⟩, ?_, rfl⟩
      have e := run_append strict [.releasesleep b]
        [.acquire (.bucket (k : Int)), .write b .refcnt, .release (.bucket (k : Int))]
        ⟨s.head, [], sl⟩
      rw [show run strict [.releasesleep b] ⟨s.head, [], sl⟩ = some ⟨s.head, [], sl.erase b⟩ by
        simp [run, strict, lockOrder, underBucketLock, applyEvent], Option.some_bind,
        run_pin s b k (sl.erase b) hk hb] at e
      exact e

/-- The events of `bread` are those of `bget`, followed by the transfer and
the write of `valid` when the slot returned is not valid. -/
theorem breadT_events (s : Cache) (d : Disk) (dev blockno : Nat) :
    (breadT s d dev blockno).2 = (bgetT s dev blockno).2 ∨
    ∃ s' b, bget s dev blockno = .ok (s', b) ∧ (s'.buf b).valid = false ∧
      (breadT s d dev blockno).2 = (bgetT s dev blockno).2 ++ [.transfer b, .write b .valid] := by
  have hf := bgetT_fst s dev blockno
  unfold breadT
  generalize bgetT s dev blockno = r at hf
  obtain ⟨r1, tr⟩ := r
  cases r1 with
  | ok a =>
    obtain ⟨s1, b⟩ := a
    simp only
    by_cases hv : (!(s1.buf b).valid) = true
    · rw [if_pos hv]
      right
      exact ⟨s1, b, hf.symm, by simpa using hv, rfl⟩
    · rw [if_neg hv]
      left
      rfl
  | panic s1 => left; rfl
  | undefined => left; rfl
  | timeout => left; rfl

/-- The events of `bread` are allowed when `valid` may be written under the
sleep-lock of the slot. -/
theorem breadT_run (s : Cache) (d : Disk) (dev blockno : Nat) :
    (run underBucketOrSleepLock (breadT s d dev blockno).2 ⟨s.head, [], []⟩).isSome = true := by
  have hmono : ∀ σ e, strict σ e = true → underBucketOrSleepLock σ e = true :=
    fun σ e h => underBucketLock_relax σ e (strict_underBucketLock σ e h)
  rcases breadT_events s d dev blockno with e | ⟨s', b, hok, _, e⟩
  · rw [e]
    rcases bgetT_run s dev blockno with ⟨s', b, _, hrun⟩ | ⟨_, hrun, _⟩ | ⟨_, _, hnil⟩
    · rw [run_mono strict _ hmono _ _ _ hrun]
      rfl
    · rw [run_mono strict _ hmono _ _ _ hrun]
      rfl
    · rw [hnil]
      rfl
  · rw [e, run_append]
    rcases bgetT_run s dev blockno with ⟨s'', b', hok', hrun⟩ | ⟨hp, _, _⟩ | ⟨hu, _, _⟩
    · rw [hok] at hok'
      cases hok'
      rw [run_mono strict _ hmono _ _ _ hrun, Option.some_bind]
      simp [run, underBucketOrSleepLock, applyEvent]
    · rw [hok] at hp
      cases hp
    · rw [hok] at hu
      cases hu

/-! ## C1: what bget returns -/

/-- C1, as stated, fails, because `refcnt` is a `uint` that wraps.  After
`binit` with two slots and `bunpin` of slot 1 (whose count goes from 0 to
`2^32 - 1`), `bget(0, 0)` hits slot 1 and returns it with `refcnt == 0`.  The
same happens when `brelse`, `bpin` and `bunpin` are only applied to held
slots: after `binit` with one slot, `bget(0, 0)` and `2^32 - 2` calls
`bpin` of slot 0, the count is `2^32 - 1` and the next `bget(0, 0)` returns
slot 0 with `refcnt == 0`. -/
theorem bget_refcnt_ge_one_fails :
    ¬ (∀ (NBUF : Nat) (s s' : Cache) (dev blockno b : Nat),
        Reachable NBUF s → bget s dev blockno = .ok (s', b) →
          (s'.buf b).dev = dev ∧ (s'.buf b).blockno = blockno ∧ 1 ≤ (s'.buf b).refcnt ∧
            b ∈ s'.head (hash (toInt blockno)).toNat) ∧
    ¬ (∀ (NBUF : Nat) (s s' : Cache) (dev blockno b : Nat),
        ReachableHeld NBUF s → bget s dev blockno = .ok (s', b) →
          (s'.buf b).dev = dev ∧ (s'.buf b).blockno = blockno ∧ 1 ≤ (s'.buf b).refcnt ∧
            b ∈ s'.head (hash (toInt blockno)).toNat) := by
  constructor
  · intro h
    have hr : Reachable 2 (bunpin (binit 2) 1) :=
      ReachableBy.bunpin (binit 2) 1 ReachableBy.init (by decide) trivial
    have h1 := (h 2 (bunpin (binit 2) 1) (incref (bunpin (binit 2) 1) 1) 0 0 1 hr rfl).2.2.1
    revert h1
    decide
  · intro h
    have h0 : ReachableHeld 1 (incref (binit 1) 0) :=
      ReachableBy.bget (binit 1) _ 0 0 0 ReachableBy.init (by decide) (by decide) rfl
    have hr := reachableHeld_pins 1 (incref (binit 1) 0) 0 (by decide) h0 rfl 4294967294
      (le_refl _)
    have hl : lookup (pins (incref (binit 1) 0) 0 4294967294) (hash (toInt 0)).toNat 0 0 =
        some 0 := by
      rw [lookup_pins]
      rfl
    have hg := bget_of_lookup (pins (incref (binit 1) 0) 0 4294967294) 0 0 0 (by decide) hl
    have h1 := (h 1 _ _ 0 0 0 hr hg).2.2.1
    rw [incref_pins_refcnt _ 0 4294967294 (by decide)] at h1
    revert h1
    decide

/-- C1, amended: for every cache (reachable or not) and every `(dev, blockno)`,
whenever `bget(dev, blockno)` returns, the returned slot `b` has `b.dev == dev`
and `b.blockno == blockno`, it is a member of the ring of bucket
`hash(blockno)`, and its `refcnt` is the count it had before the call plus one
modulo `2^32`; hence `b.refcnt >= 1` whenever that count was below `2^32 - 1`. -/
theorem bget_returns (s s' : Cache) (dev blockno b : Nat)
    (h : bget s dev blockno = .ok (s', b)) :
    (s'.buf b).dev = dev ∧ (s'.buf b).blockno = blockno ∧
      (s'.buf b).refcnt = ((s.buf b).refcnt + 1) % 4294967296 ∧
      ((s.buf b).refcnt < 4294967295 → 1 ≤ (s'.buf b).refcnt) ∧
      0 ≤ hash (toInt blockno) ∧ b ∈ s'.head (hash (toInt blockno)).toNat := by
  have hm := bget_mem_ring s s' dev blockno b h
  have hr : (s'.buf b).dev = dev ∧ (s'.buf b).blockno = blockno ∧
      (s'.buf b).refcnt = ((s.buf b).refcnt + 1) % 4294967296 := by
    rcases bget_buf_self s s' dev blockno b h with ⟨e, hd, hb⟩ | ⟨e, _⟩
    · rw [e]; exact ⟨hd, hb, rfl⟩
    · rw [e, reuse_buf_self]; exact ⟨rfl, rfl, rfl⟩
  refine ⟨hr.1, hr.2.1, hr.2.2, ?_, hm.1, hm.2⟩
  intro hlt
  rw [hr.2.2]
  omega

/-- C1, amended, on the cache left by `binit` with two slots: `bget(0, 1)`
takes slot 1 from ring 0. -/
theorem bget_returns_witness :
    bget (binit 2) 0 1 =
        .ok (insertHead (unlink (reuse (binit 2) 1 0 1) 0 1) 1 1, 1) ∧
      ((insertHead (unlink (reuse (binit 2) 1 0 1) 0 1) 1 1).buf 1).refcnt = 1 :=
  ⟨rfl, (bget_returns (binit 2) _ 0 1 1 rfl).2.2.1⟩

/-! ## C2: sequential uniqueness -/

/-- C2: in every cache reachable from `binit` by calls of `bget`, `brelse`,
`bpin` and `bunpin`, the last three applied only to slots with `refcnt > 0`,
no two distinct slots carry the same `(dev, blockno)` while both have
`refcnt > 0`. -/
theorem sequential_uniqueness (NBUF : Nat) (s : Cache) (h : ReachableHeld NBUF s)
    (x y : Nat) (hxy : x ≠ y) (hdev : (s.buf x).dev = (s.buf y).dev)
    (hblockno : (s.buf x).blockno = (s.buf y).blockno) :
    ¬ (0 < (s.buf x).refcnt ∧ 0 < (s.buf y).refcnt) := by
  rintro ⟨hx, hy⟩
  have hf := heldFirst_of_reachable NBUF s h
  have h1 := (hf x hx).2
  have h2 := (hf y hy).2
  rw [hdev, hblockno, h2] at h1
  exact hxy (Option.some.inj h1).symm

/-- C2 on the cache reached with two slots by `bget(0, 0)` followed by
`bpin` of the slot returned: slots 0 and 1 both carry `(0, 0)` and only slot 1
is held. -/
theorem sequential_uniqueness_witness :
    ((bpin (incref (binit 2) 1) 1).buf 0).dev = ((bpin (incref (binit 2) 1) 1).buf 1).dev ∧
      ¬ (0 < ((bpin (incref (binit 2) 1) 1).buf 0).refcnt ∧
          0 < ((bpin (incref (binit 2) 1) 1).buf 1).refcnt) :=
  ⟨rfl, sequential_uniqueness 2 (bpin (incref (binit 2) 1) 1)
      (ReachableBy.bpin _ 1
        (ReachableBy.bget (binit 2) _ 0 0 1 ReachableBy.init (by decide) (by decide) rfl)
        (by decide) (by unfold held; decide))
      0 1 (by decide) rfl rfl⟩

/-! ## C3: a held slot is not evicted -/

/-- C3: whenever `bget(dev, blockno)` returns, every slot with `refcnt > 0`
before the call has the same `dev`, `blockno` and `valid` after it and is a
member of exactly the rings it was a member of; so a slot whose identity or
ring membership differs after the call had `refcnt == 0` before it.  When the
call panics instead, the cache is as before the call. -/
theorem pin_prevents_eviction (s : Cache) (dev blockno : Nat) :
    (∀ s' b, bget s dev blockno = .ok (s', b) →
      (∀ x, 0 < (s.buf x).refcnt →
          (s'.buf x).dev = (s.buf x).dev ∧ (s'.buf x).blockno = (s.buf x).blockno ∧
            (s'.buf x).valid = (s.buf x).valid ∧ ∀ k, x ∈ s'.head k ↔ x ∈ s.head k) ∧
      (∀ x, ((s'.buf x).dev ≠ (s.buf x).dev ∨ (s'.buf x).blockno ≠ (s.buf x).blockno ∨
            ∃ k, ¬ (x ∈ s'.head k ↔ x ∈ s.head k)) → (s.buf x).refcnt = 0)) ∧
    (∀ s', bget s dev blockno = .panic s' → s' = s) := by
  refine ⟨?_, bget_panic_eq s dev blockno⟩
  intro s' b h
  have key : ∀ x, 0 < (s.buf x).refcnt →
      (s'.buf x).dev = (s.buf x).dev ∧ (s'.buf x).blockno = (s.buf x).blockno ∧
        (s'.buf x).valid = (s.buf x).valid ∧ ∀ k, x ∈ s'.head k ↔ x ∈ s.head k := by
    intro x hx
    by_cases hxb : x = b
    · subst hxb
      obtain ⟨hh, hbuf⟩ := bget_head_of_held s s' dev blockno x h hx
      rw [hbuf, hh]
      exact ⟨rfl, rfl, rfl, fun _ => Iff.rfl⟩
    · rw [bget_buf_of_ne s s' dev blockno b h x hxb]
      exact ⟨rfl, rfl, rfl, bget_mem_of_ne s s' dev blockno b h x hxb⟩
  refine ⟨key, ?_⟩
  intro x hx
  by_contra hne
  obtain ⟨h1, h2, _, h4⟩ := key x (Nat.pos_of_ne_zero hne)
  rcases hx with hx | hx | ⟨k, hx⟩
  · exact hx h1
  · exact hx h2
  · exact hx (h4 k)

/-- C3 on a cache with two slots where slot 1 is pinned: `bget(0, 13)` leaves
its identity alone and takes the free slot 0. -/
theorem pin_prevents_eviction_witness :
    bget (bpin (binit 2) 1) 0 13 = .ok (reuse (bpin (binit 2) 1) 0 0 13, 0) ∧
      ((reuse (bpin (binit 2) 1) 0 0 13).buf 1).blockno = ((bpin (binit 2) 1).buf 1).blockno :=
  ⟨rfl, (((pin_prevents_eviction (bpin (binit 2) 1) 0 13).1 _ 0 rfl).1 1 (by decide)).2.1⟩

/-! ## C4: no buffers -/

/-- C4: `bget(dev, blockno)` stops in `panic("bget: no buffers")` if and only
if the bucket `hash(blockno)` is one of the rings of the cache, no slot of that
ring carries `(dev, blockno)` and no slot of any of the 13 rings has
`refcnt == 0`; the cache at the panic is the cache before the call (no `dev`,
`blockno`, `valid`, `refcnt`, `lastuse` or ring has changed), and the panic
happens in particular when the identity is not resident and every one of the
`NBUF` slots, which are all there is in the rings, has `refcnt > 0`. -/
theorem capacity_exhaustion (s : Cache) (dev blockno : Nat) :
    ((∃ s', bget s dev blockno = .panic s') ↔
        ∃ I : Nat, hash (toInt blockno) = (I : Int) ∧ noHit s I dev blockno ∧
          ∀ k, k < 13 → noFree s k) ∧
    (∀ s', bget s dev blockno = .panic s' → s' = s) ∧
    (∀ (NBUF I : Nat), hash (toInt blockno) = (I : Int) →
        (∀ k b, k < 13 → b ∈ s.head k → b < NBUF) →
        (∀ b, b < NBUF → 0 < (s.buf b).refcnt) →
        noHit s I dev blockno → bget s dev blockno = .panic s) := by
  have hp := bget_path s dev blockno
  have main : ∀ I : Nat, hash (toInt blockno) = (I : Int) → noHit s I dev blockno →
      (∀ k, k < 13 → noFree s k) → bget s dev blockno = .panic s := by
    intro I0 hI0 hmiss hfull
    generalize bget s dev blockno = r at hp
    cases hp with
    | undef hneg => omega
    | hit I b hI hlt hb =>
      have e : I = I0 := by omega
      subst e
      have := (lookup_none_iff s I dev blockno).2 hmiss
      rw [this] at hb
      cases hb
    | localReuse I b2 m' hI hlt hmiss' hscan =>
      have := scanFree_mem s _ _ _ _ hscan
      exact absurd this.2 (hfull I hlt b2 this.1)
    | steal I t b2 m' hI hlt hmiss' hfull' ht hbefore hscan =>
      have := scanFree_mem s _ _ _ _ hscan
      exact absurd this.2 (hfull _ (Nat.mod_lt _ (by decide)) b2 this.1)
    | panic I hI hlt hmiss' hfull' => rfl
  refine ⟨⟨?_, fun ⟨I, hI, hmiss, hfull⟩ => ⟨s, main I hI hmiss hfull⟩⟩, ?_, ?_⟩
  · rintro ⟨s', hs'⟩
    rw [hs'] at hp
    cases hp with
    | panic I hI hlt hmiss hfull => exact ⟨I, hI, hmiss, hfull⟩
  · intro s' hs'
    rw [hs'] at hp
    cases hp with
    | panic I hI hlt hmiss hfull => rfl
  · intro NBUF I hI hin hpin hmiss
    refine main I hI hmiss ?_
    intro k hk x hx
    have := hpin x (hin k x hk hx)
    omega

/-- C4 on a cache with two slots, both pinned: `bget(0, 13)` panics and the
cache is untouched. -/
theorem capacity_exhaustion_witness :
    bget (bpin (bpin (binit 2) 0) 1) 0 13 = .panic (bpin (bpin (binit 2) 0) 1) :=
  (capacity_exhaustion (bpin (bpin (binit 2) 0) 1) 0 13).2.2 2 0 rfl
    (fun k b _ hb => ((partition_of_reachable (fun _ _ => True) 2 _
      (ReachableBy.bpin _ 1 (ReachableBy.bpin _ 0 ReachableBy.init (by decide) trivial)
        (by decide) trivial)).2.2.2 k b hb).1)
    (by decide) (by unfold noHit; decide)

/-! ## C5: the slot that is evicted -/

/-- C5, as stated, fails: with two slots, request the blocks `(0, 1)`, `(0, 2)`
and `(0, 15)` one after the other, each released before the next (at
`ticks == 5` and `ticks == 6`).  The call `bget(0, 15)` misses and reuses
slot 0, which holds block `(0, 2)` with `lastuse == 6` and is the free slot of
bucket 2, although slot 1, in ring 1, is free with `lastuse == 5`: the slot
reused does not have the smallest `lastuse` among the free slots of the whole
cache. -/
theorem eviction_not_global_lru :
    ¬ (∀ (NBUF : Nat) (s s' : Cache) (dev blockno b : Nat),
        ReachableHeld NBUF s → bget s dev blockno = .ok (s', b) →
        noHit s (hash (toInt blockno)).toNat dev blockno →
          ∀ k x, k < 13 → x ∈ s.head k → (s.buf x).refcnt = 0 →
            (s.buf b).lastuse ≤ (s.buf x).lastuse) := by
  intro h
  have h1 := @ReachableBy.bget held 2 (binit 2) _ 0 1 1 ReachableBy.init (by decide)
    (by decide) rfl
  have h2 := @ReachableBy.brelse held 2 _ _ 1 5 true h1 (by decide) (by unfold held; decide)
    (by decide) rfl
  have h3 := @ReachableBy.bget held 2 _ _ 0 2 0 h2 (by decide) (by decide) rfl
  have h4 := @ReachableBy.brelse held 2 _ _ 0 6 true h3 (by decide) (by unfold held; decide)
    (by decide) rfl
  have h5 := h 2 _ _ 0 15 0 h4 rfl (by unfold noHit; decide) 1 1 (by decide) (by decide)
    (by decide)
  revert h5
  decide

/-- C5, amended: whenever `bget` misses in a cache whose recency marks are
`uint` values and reuses a slot, the slot is taken from one ring, the ring of
bucket `hash(blockno)` if it has a slot with `refcnt == 0` and otherwise that
of the first bucket in the order `hash(blockno)+1`, `hash(blockno)+2`, ...
(modulo 13) that has one; the slot has `refcnt == 0` and the smallest
`lastuse` among the slots of that ring with `refcnt == 0`.  Free slots of
other rings are not compared with it. -/
theorem eviction_choice (s s' : Cache) (dev blockno b : Nat) (ht : Typed s)
    (h : bget s dev blockno = .ok (s', b))
    (hmiss : noHit s (hash (toInt blockno)).toNat dev blockno) :
    ∃ k, k < 13 ∧ b ∈ s.head k ∧ (s.buf b).refcnt = 0 ∧
      (∀ x, x ∈ s.head k → (s.buf x).refcnt = 0 → (s.buf b).lastuse ≤ (s.buf x).lastuse) ∧
      (k = (hash (toInt blockno)).toNat ∨
        (noFree s (hash (toInt blockno)).toNat ∧
          ∃ t, t < 12 ∧ k = ((hash (toInt blockno)).toNat + 1 + t) % 13 ∧
            ∀ t', t' < t → noFree s (((hash (toInt blockno)).toNat + 1 + t') % 13))) := by
  have hp := bget_path s dev blockno
  rw [h] at hp
  cases hp with
  | hit I b hI hlt hb =>
    rw [hI, Int.toNat_ofNat] at hmiss
    have := (lookup_none_iff s I dev blockno).2 hmiss
    rw [this] at hb
    cases hb
  | localReuse I b2 m' hI hlt hmiss' hscan =>
    rw [hI, Int.toNat_ofNat]
    have hm := scanFree_mem s _ _ _ _ hscan
    exact ⟨I, hlt, hm.1, hm.2, scanFree_min s ht _ _ _ _ hscan, Or.inl rfl⟩
  | steal I t b2 m' hI hlt hmiss' hfull ht' hbefore hscan =>
    rw [hI, Int.toNat_ofNat]
    have hm := scanFree_mem s _ _ _ _ hscan
    exact ⟨(I + 1 + t) % 13, Nat.mod_lt _ (by decide), hm.1, hm.2,
      scanFree_min s ht _ _ _ _ hscan, Or.inr ⟨hfull, t, ht', rfl, hbefore⟩⟩

/-- C5, amended, on the cache left by `binit` with two slots: `bget(0, 1)`
misses and takes a slot. -/
theorem eviction_choice_witness :
    ∃ k, k < 13 ∧ 1 ∈ (binit 2).head k ∧ ((binit 2).buf 1).refcnt = 0 :=
  have h := eviction_choice (binit 2) _ 0 1 1
    (typed_of_reachable (fun _ _ => True) 2 (binit 2) ReachableBy.init) rfl
    (by unfold noHit; decide)
  h.elim fun k hk => ⟨k, hk.1, hk.2.1, hk.2.2.1⟩

/-! ## C6: reads of a valid buffer -/

/-- C6: once `bget` has returned slot `b`, `bread` returns `b` with
`valid == 1`, and it makes a read transfer (one more entry
`(read, dev, blockno)` in the log of the device) if and only if `bget` returned
the slot with `valid == 0`; with `valid == 1` the device is left as it was.
Consequently, in every cache, `bread(dev, blockno)` followed by `brelse` of the
slot and by `bread(dev, blockno)` returns the same slot the second time and the
second call makes no transfer: the device, log included, is the same before
and after it. -/
theorem bread_idempotent_validity (s : Cache) (d : Disk) (dev blockno : Nat) :
    (∀ s1 b, bget s dev blockno = .ok (s1, b) →
      ∃ s2 d2, bread s d dev blockno = .ok (s2, d2, b) ∧ (s2.buf b).valid = true ∧
        (d2.log = d.log ++ [(false, dev, blockno)] ↔ (s1.buf b).valid = false) ∧
        (d2 = d ↔ (s1.buf b).valid = true)) ∧
    (∀ s1 d1 b ticks, bread s d dev blockno = .ok (s1, d1, b) →
      (s1.buf b).valid = true ∧
        ∃ s2 s3, brelse s1 b true ticks = some s2 ∧
          bread s2 d1 dev blockno = .ok (s3, d1, b)) := by
  constructor
  · intro s1 b h
    obtain ⟨s2, d2, hb, hv, hf, ht, _⟩ := bread_spec s s1 d dev blockno b h
    refine ⟨s2, d2, hb, hv, ?_, ?_⟩
    · cases hv1 : (s1.buf b).valid with
      | true =>
        have := (ht hv1).1
        rw [this]
        simp
      | false => simp [(hf hv1).1]
    · cases hv1 : (s1.buf b).valid with
      | true => simp [(ht hv1).1]
      | false =>
        have := (hf hv1).1
        constructor
        · intro e
          rw [e] at this
          simp at this
        · intro e; cases e
  · intro s1 d1 b ticks h
    obtain ⟨hidx, hv, hl, _, _⟩ := bread_post s s1 d d1 dev blockno b h
    obtain ⟨s2, hs2, hhead, hsame⟩ := brelse_holding s1 b ticks
    refine ⟨hv, s2, incref s2 b, hs2, ?_⟩
    apply bread_of_lookup_valid s2 d1 dev blockno b hidx
    · rw [lookup_of_same_identity s1 s2 hhead (fun x => ⟨(hsame x).1, (hsame x).2.1⟩)]
      exact hl
    · rw [(hsame b).2.2.1]
      exact hv

/-- C6 on the cache left by `binit` with two slots and an empty log:
`bread(1, 5)` reads the block once; after `brelse` the second `bread(1, 5)`
returns slot 1 again and leaves the log with its single entry. -/
theorem bread_idempotent_validity_witness :
    ∃ s1 d1, bread (binit 2) { block := fun _ _ _ => 0, log := [] } 1 5 = .ok (s1, d1, 1) ∧
      d1.log = [(false, 1, 5)] ∧
      ∃ s2 s3, brelse s1 1 true 3 = some s2 ∧ bread s2 d1 1 5 = .ok (s3, d1, 1) :=
  ⟨_, _, rfl, rfl,
    ((bread_idempotent_validity (binit 2) { block := fun _ _ _ => 0, log := [] } 1 5).2
      _ _ 1 3 rfl).2⟩

/-! ## C7: read after write -/

/-- C7: with the device a map from `(dev, blockno)` to block contents, for
every cache, device, `(dev, blockno)` and payload `P`: if `bread(dev, blockno)`
returns slot `b`, then storing `P` in the payload of `b`, `bwrite(b)` and
`brelse(b)` by the holder all go through, the device then holds `P` at
`(dev, blockno)`, and the next `bread(dev, blockno)` returns the same slot `b`
with payload `P`. -/
theorem read_after_write (s : Cache) (d : Disk) (dev blockno ticks : Nat) (P : Nat → Nat)
    (s1 : Cache) (d1 : Disk) (b : Nat) (h : bread s d dev blockno = .ok (s1, d1, b)) :
    ∃ s2 d2 s3 s4, bwrite (store s1 b P) d1 b true = some (s2, d2) ∧
      d2.block dev blockno = P ∧
      brelse s2 b true ticks = some s3 ∧
      bread s3 d2 dev blockno = .ok (s4, d2, b) ∧ (s4.buf b).data = P := by
  obtain ⟨hidx, hv, hl, hdev, hblockno⟩ := bread_post s s1 d d1 dev blockno b h
  have hst : (store s1 b P).buf b = { s1.buf b with data := P } := by
    unfold store
    rw [setBuf_buf_self]
  obtain ⟨s3, hs3, hhead, hsame⟩ := brelse_holding (store s1 b P) b ticks
  refine ⟨store s1 b P, (virtio_disk_rw (store s1 b P) d1 b true).2, s3, incref s3 b,
    ?_, ?_, hs3, ?_, ?_⟩
  · unfold bwrite virtio_disk_rw
    simp only [Bool.not_true, Bool.false_eq_true, if_false, if_true]
  · unfold virtio_disk_rw
    simp only [if_true, hst, hdev, hblockno, and_self]
  · apply bread_of_lookup_valid s3 _ dev blockno b hidx
    · rw [lookup_of_same_identity (store s1 b P) s3 hhead
        (fun x => ⟨(hsame x).1, (hsame x).2.1⟩)]
      unfold store
      refine (lookup_setBuf s1 b _ ?_ ?_ _ dev blockno).trans hl <;> rfl
    · rw [(hsame b).2.2.1, hst]
      exact hv
  · rw [incref_buf_self]
    simp only
    rw [(hsame b).2.2.2, hst]

/-- C7 at `dev = 1`, `blockno = 5` on the cache left by `binit` with two slots:
the payload `7, 7, ...` written through slot 1 is what the next `bread(1, 5)`
returns. -/
theorem read_after_write_witness :
    ∃ s1 d1, bread (binit 2) { block := fun _ _ _ => 0, log := [] } 1 5 = .ok (s1, d1, 1) ∧
      ∃ s2 d2 s3 s4, bwrite (store s1 1 (fun _ => 7)) d1 1 true = some (s2, d2) ∧
        d2.block 1 5 = (fun _ => 7) ∧ brelse s2 1 true 3 = some s3 ∧
        bread s3 d2 1 5 = .ok (s4, d2, 1) ∧ (s4.buf 1).data = (fun _ => 7) :=
  ⟨_, _, rfl,
    read_after_write (binit 2) { block := fun _ _ _ => 0, log := [] } 1 5 3 (fun _ => 7)
      _ _ 1 rfl⟩

/-! ## C8: brelse -/

/-- C8: for a slot `b` whose sleep-lock the caller holds and whose `refcnt` is
at least 1 (and, being a `uint`, below `2^32`), `brelse(b)` returns, lowers
`b.refcnt` by exactly one, sets `b.lastuse` to `ticks` when the new `refcnt`
is 0 and leaves `b.lastuse` as it was otherwise, and changes nothing else:
`dev`, `blockno`, `valid` and the payload of `b`, every other slot, and every
ring with its order. -/
theorem brelse_effect (s : Cache) (b ticks : Nat) (h1 : 1 ≤ (s.buf b).refcnt)
    (h2 : (s.buf b).refcnt < 4294967296) (ht : ticks < 4294967296) :
    ∃ s', brelse s b true ticks = some s' ∧
      (s'.buf b).refcnt + 1 = (s.buf b).refcnt ∧
      ((s'.buf b).refcnt = 0 → (s'.buf b).lastuse = ticks) ∧
      ((s'.buf b).refcnt ≠ 0 → (s'.buf b).lastuse = (s.buf b).lastuse) ∧
      (s'.buf b).dev = (s.buf b).dev ∧ (s'.buf b).blockno = (s.buf b).blockno ∧
      (s'.buf b).valid = (s.buf b).valid ∧ (s'.buf b).data = (s.buf b).data ∧
      (∀ x, x ≠ b → s'.buf x = s.buf x) ∧ s'.head = s.head := by
  have hr : ((s.buf b).refcnt + 4294967295) % 4294967296 + 1 = (s.buf b).refcnt := by omega
  have htm : ticks % 4294967296 = ticks := Nat.mod_eq_of_lt ht
  unfold brelse
  simp only [Bool.not_true, Bool.false_eq_true, if_false]
  by_cases h0 : ((decref s b).buf b).refcnt = 0
  · rw [if_pos (by simpa using h0)]
    rw [decref_buf_self] at h0
    simp only at h0
    refine ⟨_, rfl, ?_, ?_, ?_, ?_, ?_, ?_, ?_, ?_, ?_⟩
    · rw [setBuf_buf_self, decref_buf_self]; exact hr
    · intro _; rw [setBuf_buf_self]; exact htm
    · intro hne
      rw [setBuf_buf_self, decref_buf_self] at hne
      exact absurd h0 hne
    · rw [setBuf_buf_self, decref_buf_self]
    · rw [setBuf_buf_self, decref_buf_self]
    · rw [setBuf_buf_self, decref_buf_self]
    · rw [setBuf_buf_self, decref_buf_self]
    · intro x hx
      rw [setBuf_buf_of_ne _ b x _ hx, decref_buf_of_ne s b x hx]
    · rfl
  · rw [if_neg (by simpa using h0)]
    refine ⟨_, rfl, ?_, ?_, ?_, ?_, ?_, ?_, ?_, ?_, ?_⟩
    · rw [decref_buf_self]; exact hr
    · intro h; exact absurd h h0
    · intro _; rw [decref_buf_self]
    · rw [decref_buf_self]
    · rw [decref_buf_self]
    · rw [decref_buf_self]
    · rw [decref_buf_self]
    · intro x hx
      exact decref_buf_of_ne s b x hx
    · rfl

/-- C8 on the cache with two slots where slot 1 is pinned once: `brelse` at
`ticks == 9` brings its `refcnt` to 0 and stamps `lastuse` with 9. -/
theorem brelse_effect_witness :
    ∃ s', brelse (bpin (binit 2) 1) 1 true 9 = some s' ∧ (s'.buf 1).refcnt + 1 = 1 ∧
      ((s'.buf 1).refcnt = 0 → (s'.buf 1).lastuse = 9) :=
  have h := brelse_effect (bpin (binit 2) 1) 1 9 (by decide) (by decide) (by decide)
  h.elim fun s' hs' => ⟨s', hs'.1, hs'.2.1, hs'.2.2.1⟩

/-! ## C9: bpin and bunpin -/

/-- C9: `bpin(b)` raises and `bunpin(b)` lowers `b.refcnt` by exactly one in
the arithmetic of `uint` (the new count is the old one plus, or minus, one
modulo `2^32`: plus one unless the count was `2^32 - 1`, minus one unless it
was 0), and neither changes another field of `b`, another slot or a ring; in
particular `bunpin` leaves `b.lastuse` alone whatever the new count, and `bpin`
followed by `bunpin` gives back the very same cache. -/
theorem bpin_bunpin_effect (s : Cache) (b : Nat) (hr : (s.buf b).refcnt < 4294967296) :
    ((bpin s b).buf b = { s.buf b with refcnt := ((s.buf b).refcnt + 1) % 4294967296 } ∧
      ((s.buf b).refcnt + 1 < 4294967296 → ((bpin s b).buf b).refcnt = (s.buf b).refcnt + 1) ∧
      (∀ x, x ≠ b → (bpin s b).buf x = s.buf x) ∧ (bpin s b).head = s.head) ∧
    ((bunpin s b).buf b =
        { s.buf b with refcnt := ((s.buf b).refcnt + 4294967295) % 4294967296 } ∧
      (1 ≤ (s.buf b).refcnt → ((bunpin s b).buf b).refcnt + 1 = (s.buf b).refcnt) ∧
      ((bunpin s b).buf b).lastuse = (s.buf b).lastuse ∧
      (∀ x, x ≠ b → (bunpin s b).buf x = s.buf x) ∧ (bunpin s b).head = s.head) ∧
    bunpin (bpin s b) b = s := by
  refine ⟨⟨incref_buf_self s b, ?_, fun x hx => incref_buf_of_ne s b x hx, rfl⟩,
    ⟨decref_buf_self s b, ?_, ?_, fun x hx => decref_buf_of_ne s b x hx, rfl⟩, ?_⟩
  · intro h
    unfold bpin
    rw [incref_buf_self]
    exact Nat.mod_eq_of_lt h
  · intro h
    unfold bunpin
    rw [decref_buf_self]
    simp only
    omega
  · unfold bunpin
    rw [decref_buf_self]
  · apply cache_ext
    · intro x
      unfold bunpin bpin
      by_cases hx : x = b
      · subst hx
        rw [decref_buf_self, incref_buf_self]
        have : (((s.buf x).refcnt + 1) % 4294967296 + 4294967295) % 4294967296 =
            (s.buf x).refcnt := by omega
        simp only [this]
      · rw [decref_buf_of_ne _ b x hx, incref_buf_of_ne s b x hx]
    · rfl

/-- C9 on the cache left by `binit` with two slots: pinning slot 1 gives it
`refcnt == 1`, and unpinning it gives back the initial cache. -/
theorem bpin_bunpin_effect_witness :
    ((bpin (binit 2) 1).buf 1).refcnt = 0 + 1 ∧ bunpin (bpin (binit 2) 1) 1 = binit 2 :=
  have h := bpin_bunpin_effect (binit 2) 1 (by decide)
  ⟨h.1.2.1 (by decide), h.2.2⟩

/-! ## C10: every slot is in exactly one ring -/

/-- C10 (invariant I2): right after `binit` all the `NBUF` slots are in ring 0,
and in every cache reached from `binit` by any sequence of calls of `bget`,
`brelse`, `bpin` and `bunpin`, each of the `NBUF` slots occurs in exactly one
of the 13 rings and exactly once in it, so that no slot is lost or
duplicated (and the rings hold nothing but these slots). -/
theorem membership_invariant (NBUF : Nat) (s : Cache) (h : Reachable NBUF s) :
    (∀ b, b < NBUF → b ∈ (binit NBUF).head 0) ∧
    (∀ b, b < NBUF →
      ∃ k, k < 13 ∧ (s.head k).count b = 1 ∧ ∀ k', k' ≠ k → (s.head k').count b = 0) ∧
    (∀ k b, b ∈ s.head k → b < NBUF ∧ k < 13) := by
  obtain ⟨hall, hnd, hdisj, hin⟩ := partition_of_reachable _ NBUF s h
  refine ⟨?_, ?_, hin⟩
  · intro b hb
    rw [binit_head_zero, List.mem_reverse, List.mem_range]
    exact hb
  · intro b hb
    obtain ⟨k, hk, hmem⟩ := hall b hb
    refine ⟨k, hk, List.count_eq_one_of_mem (hnd k) hmem, ?_⟩
    intro k' hk'
    apply List.count_eq_zero_of_not_mem
    intro hmem'
    exact hk' (hdisj k' k b hmem' hmem)

/-- C10 on the cache reached with two slots by `bget(0, 1)`, which steals
slot 1 from ring 0 for ring 1: slot 1 is then in a single ring, once. -/
theorem membership_invariant_witness :
    ∃ k, k < 13 ∧ ((insertHead (unlink (reuse (binit 2) 1 0 1) 0 1) 1 1).head k).count 1 = 1 ∧
      ∀ k', k' ≠ k → ((insertHead (unlink (reuse (binit 2) 1 0 1) 0 1) 1 1).head k').count 1 = 0 :=
  (membership_invariant 2 (insertHead (unlink (reuse (binit 2) 1 0 1) 0 1) 1 1)
    (ReachableBy.bget (binit 2) _ 0 1 1 ReachableBy.init (by decide) (by decide) rfl)).2.1 1
    (by decide)

/-! ## C11: refcnt counts the holds -/

/-- C11, as stated, fails, because `refcnt` is a `uint` that wraps: after
`binit` with one slot and `2^32` calls `bpin` of slot 0, a sequence in which
neither `brelse` nor `bunpin` is called, slot 0 has `2^32` outstanding holds
and `refcnt == 0`. -/
theorem refcnt_not_holds :
    ¬ (∀ (NBUF : Nat) (s : Cache) (holds : Nat → Nat), Tracked NBUF s holds →
        ∀ b, (s.buf b).refcnt = holds b) := by
  intro h
  have ht := tracked_pins 1 (binit 1) (fun _ => 0) 0 (by decide) Tracked.init 4294967296
  have h1 := h 1 _ _ ht 0
  rw [pins_refcnt_zero (binit 1) 0 4294967296 rfl (by decide), Function.update_same] at h1
  revert h1
  decide

/-- C11, amended: for every sequence of calls starting from `binit` in which
`brelse` and `bunpin` are applied only to a slot with an outstanding hold, the
`refcnt` of each slot equals its number of outstanding holds (returns of
`bget` and calls of `bpin` minus calls of `brelse` and `bunpin` on it since its
identity was last assigned) modulo `2^32`.  Hence for a slot with fewer than
`2^32` outstanding holds: `refcnt` is that number; `refcnt >= 1` whenever a
hold is outstanding, so that `brelse` and `bunpin` do not decrement it below 0;
and `bget` gives the slot a new identity only when it has no holder. -/
theorem refcnt_counts_holds (NBUF : Nat) (s : Cache) (holds : Nat → Nat)
    (h : Tracked NBUF s holds) (b : Nat) :
    (s.buf b).refcnt = holds b % 4294967296 ∧
    (holds b < 4294967296 →
      (s.buf b).refcnt = holds b ∧
      (0 < holds b → 1 ≤ (s.buf b).refcnt) ∧
      (∀ dev blockno s', bget s dev blockno = .ok (s', b) →
        ((s'.buf b).dev ≠ (s.buf b).dev ∨ (s'.buf b).blockno ≠ (s.buf b).blockno) →
          holds b = 0)) := by
  have hr := tracked_refcnt NBUF s holds h b
  refine ⟨hr, ?_⟩
  intro hlt
  have e : (s.buf b).refcnt = holds b := by
    rw [hr]
    exact Nat.mod_eq_of_lt hlt
  refine ⟨e, fun hpos => by omega, ?_⟩
  intro dev blockno s' hcall hne
  rcases bget_buf_self s s' dev blockno b hcall with ⟨e1, _⟩ | ⟨_, h0⟩
  · rw [e1] at hne
    simp at hne
  · omega

/-- C11, amended, on the cache reached with two slots by `bget(0, 1)` and
`bpin` of the slot returned: slot 1 has two outstanding holds and
`refcnt == 2`. -/
theorem refcnt_counts_holds_witness :
    ((bpin (insertHead (unlink (reuse (binit 2) 1 0 1) 0 1) 1 1) 1).buf 1).refcnt = 2 :=
  ((refcnt_counts_holds 2 (bpin (insertHead (unlink (reuse (binit 2) 1 0 1) 0 1) 1 1) 1) _
    (Tracked.bpin _ _ 1
      (Tracked.bget (binit 2) _ (fun _ => 0) 0 1 1 Tracked.init (by decide) (by decide) rfl)
      (by decide)) 1).2 (by decide)).1

/-! ## C12: the index computed by hash -/

/-- C12, at a failing input: for the `uint` block number `2147483649` the
conversion to `int` gives `-2147483647` and `hash` returns `-10`, which is not
an index of `bcache.lock` or `bcache.head`; `bget` called with it is outside
the arrays whatever the cache and the device.  Below `2^31` the index does lie
in `[0, 13)`. -/
theorem hash_index_negative :
    hash (toInt 2147483649) = -10 ∧
      (∀ s dev, bget s dev 2147483649 = .undefined) ∧
      (∀ blockno, blockno < 2147483648 →
        0 ≤ hash (toInt blockno) ∧ hash (toInt blockno) < 13) := by
  refine ⟨by decide, ?_, ?_⟩
  · intro s dev
    unfold bget
    simp only
    rw [if_pos (by decide)]
  · intro blockno hlt
    rw [hash_toInt_of_lt hlt]
    omega

/-- C12 at block numbers below `2^31`, for instance 27, which is in bucket 1. -/
theorem hash_index_negative_witness : 0 ≤ hash (toInt 27) ∧ hash (toInt 27) < 13 :=
  hash_index_negative.2.2 27 (by decide)

/-! ## C13: slots that carry one identity -/

/-- C13, as stated, fails: after `binit` with two slots and `bget(0, 0)`, slot 1
is held with identity `(0, 0)` and slot 0, which has not been assigned since
`binit`, carries `(0, 0)` as well. -/
theorem identity_not_unique :
    ¬ (∀ (NBUF : Nat) (s : Cache), ReachableHeld NBUF s →
        ∀ x y, x < NBUF → y < NBUF → 0 < (s.buf x).refcnt →
          (s.buf y).dev = (s.buf x).dev → (s.buf y).blockno = (s.buf x).blockno → y = x) := by
  intro h
  have h1 : ReachableHeld 2 (incref (binit 2) 1) :=
    ReachableBy.bget (binit 2) _ 0 0 1 ReachableBy.init (by decide) (by decide) rfl
  have h2 := h 2 _ h1 1 0 (by decide) (by decide) (by decide) rfl rfl
  revert h2
  decide

/-- C13, amended: in every cache reachable from `binit` by calls of `bget`,
`brelse`, `bpin` and `bunpin`, an identity `(dev, blockno)` other than `(0, 0)`
is carried by at most one of the `NBUF` slots, slots of any `refcnt` counted;
so when a slot with `refcnt > 0` carries such an identity, exactly one slot in
the cache does.  The identity `(0, 0)` is that of the zero-initialised slots:
several slots may carry it, and when the calls of `brelse`, `bpin` and
`bunpin` are on held slots at most one of them has `refcnt > 0`. -/
theorem identity_unique_when_assigned (NBUF : Nat) (s : Cache) :
    (Reachable NBUF s →
      ∀ x y, x < NBUF → y < NBUF → ((s.buf x).dev ≠ 0 ∨ (s.buf x).blockno ≠ 0) →
        (s.buf y).dev = (s.buf x).dev → (s.buf y).blockno = (s.buf x).blockno → y = x) ∧
    (ReachableHeld NBUF s →
      ∀ x y, 0 < (s.buf x).refcnt → 0 < (s.buf y).refcnt →
        (s.buf y).dev = (s.buf x).dev → (s.buf y).blockno = (s.buf x).blockno → y = x) := by
  constructor
  · intro h x y hx hy hne hd hb
    by_contra hxy
    have := uniqueAssigned_of_reachable _ NBUF s h x y hx hy (fun e => hxy e.symm) hd.symm
      hb.symm
    rcases hne with h0 | h0
    · exact h0 this.1
    · exact h0 this.2
  · intro h x y hx hy hd hb
    have hf := heldFirst_of_reachable NBUF s h
    have h1 := (hf x hx).2
    have h2 := (hf y hy).2
    rw [hd, hb, h1] at h2
    exact (Option.some.inj h2).symm

/-- C13, amended, on the cache reached with two slots by `bget(1, 5)`: slot 1
carries `(1, 5)` and it is the only slot that does. -/
theorem identity_unique_when_assigned_witness :
    ∀ y, y < 2 →
      ((insertHead (unlink (reuse (binit 2) 1 1 5) 0 1) 5 1).buf y).dev =
        ((insertHead (unlink (reuse (binit 2) 1 1 5) 0 1) 5 1).buf 1).dev →
      ((insertHead (unlink (reuse (binit 2) 1 1 5) 0 1) 5 1).buf y).blockno =
        ((insertHead (unlink (reuse (binit 2) 1 1 5) 0 1) 5 1).buf 1).blockno → y = 1 :=
  fun y hy =>
    (identity_unique_when_assigned 2 (insertHead (unlink (reuse (binit 2) 1 1 5) 0 1) 5 1)).1
      (ReachableBy.bget (binit 2) _ 1 5 1 ReachableBy.init (by decide) (by decide) rfl)
      1 y (by decide) hy (Or.inl (by decide))

/-! ## C14: writes under the bucket lock -/

/-- C14, as stated, fails for `bread`: its write `b->valid = 1` is made after
`bget` has returned, when the caller holds no spinlock at all (it holds the
sleep-lock of the slot).  After `binit` with one slot, `bread(0, 0)` hits slot
0, which is not valid, and writes its `valid` with no spinlock held. -/
theorem bread_valid_without_bucket_lock :
    ¬ (∀ (NBUF : Nat) (s : Cache) (d : Disk) (dev blockno : Nat), Reachable NBUF s →
        (run underBucketLock (breadT s d dev blockno).2 ⟨s.head, [], []⟩).isSome = true) := by
  intro h
  have h1 := h 1 (binit 1) ⟨fun _ _ _ => 0, []⟩ 0 0 ReachableBy.init
  revert h1
  decide

/-- C14, amended: in every cache reachable from `binit`, every write of `dev`,
`blockno`, `valid` or `refcnt` of a slot made by `bget` (on each of its paths,
the hit in the second scan included), and by `brelse`, `bpin` and `bunpin`
applied to one of the `NBUF` slots, happens while the caller holds the spinlock
of the ring that contains the slot at that moment.  The write `b->valid = 1` of
`bread`, the only write `bread` makes after `bget`, happens with no spinlock
held, under the sleep-lock of the slot. -/
theorem writes_lock_discipline (NBUF : Nat) (s : Cache) (h : Reachable NBUF s) :
    (∀ dev blockno,
      (run underBucketLock (bgetT s dev blockno).2 ⟨s.head, [], []⟩).isSome = true) ∧
    (∀ I b, I < 13 → b ∈ s.head I →
      (run underBucketLock (recheckHitEvents (I : Int) b) ⟨s.head, [], []⟩).isSome = true) ∧
    (∀ b, b < NBUF →
      (∀ holding ticks sl,
        (run underBucketLock (brelseT s b holding ticks).2 ⟨s.head, [], sl⟩).isSome = true) ∧
      (run underBucketLock (bpinT s b).2 ⟨s.head, [], []⟩).isSome = true ∧
      (run underBucketLock (bunpinT s b).2 ⟨s.head, [], []⟩).isSome = true) ∧
    (∀ d dev blockno,
      (run underBucketOrSleepLock (breadT s d dev blockno).2 ⟨s.head, [], []⟩).isSome = true ∧
      ((breadT s d dev blockno).2 = (bgetT s dev blockno).2 ∨
        ∃ s' b, bget s dev blockno = .ok (s', b) ∧
          (breadT s d dev blockno).2 = (bgetT s dev blockno).2 ++ [.transfer b, .write b .valid] ∧
          run underBucketLock (bgetT s dev blockno).2 ⟨s.head, [], []⟩ =
            some ⟨s'.head, [], [b]⟩)) := by
  refine ⟨?_, ?_, ?_, ?_⟩
  · intro dev blockno
    rcases bgetT_run s dev blockno with ⟨s', b, _, hrun⟩ | ⟨_, hrun, _⟩ | ⟨_, _, hnil⟩
    · rw [run_mono strict _ strict_underBucketLock _ _ _ hrun]
      rfl
    · rw [run_mono strict _ strict_underBucketLock _ _ _ hrun]
      rfl
    · rw [hnil]
      rfl
  · intro I b hI hb
    rw [run_mono strict _ strict_underBucketLock _ _ _ (run_recheck s I b hI hb)]
    rfl
  · intro b hb
    obtain ⟨k, hk, hmem, hidx⟩ := lockIndex_ring NBUF s h b hb
    refine ⟨?_, ?_, ?_⟩
    · intro holding ticks sl
      obtain ⟨σ, hrun, _⟩ := brelseT_run s b k holding ticks sl hk hmem hidx
      rw [run_mono strict _ strict_underBucketLock _ _ _ hrun]
      rfl
    · unfold bpinT
      rw [hidx, run_mono strict _ strict_underBucketLock _ _ _ (run_pin s b k [] hk hmem)]
      rfl
    · unfold bunpinT
      rw [hidx, run_mono strict _ strict_underBucketLock _ _ _ (run_pin s b k [] hk hmem)]
      rfl
  · intro d dev blockno
    refine ⟨breadT_run s d dev blockno, ?_⟩
    rcases breadT_events s d dev blockno with e | ⟨s', b, hok, _, e⟩
    · exact Or.inl e
    · right
      refine ⟨s', b, hok, e, ?_⟩
      rcases bgetT_run s dev blockno with ⟨s'', b', hok', hrun⟩ | ⟨hp, _, _⟩ | ⟨hu, _, _⟩
      · rw [hok] at hok'
        cases hok'
        exact run_mono strict _ strict_underBucketLock _ _ _ hrun
      · rw [hok] at hp
        cases hp
      · rw [hok] at hu
        cases hu

/-- C14, amended, on the cache reached with two slots by `bget(1, 5)`: the
events of `brelse` of the slot returned, which is in ring 5, are allowed. -/
theorem writes_lock_discipline_witness :
    (run underBucketLock
      (brelseT (insertHead (unlink (reuse (binit 2) 1 1 5) 0 1) 5 1) 1 true 7).2
      ⟨(insertHead (unlink (reuse (binit 2) 1 1 5) 0 1) 5 1).head, [], [1]⟩).isSome = true :=
  ((writes_lock_discipline 2 (insertHead (unlink (reuse (binit 2) 1 1 5) 0 1) 5 1)
    (ReachableBy.bget (binit 2) _ 1 5 1 ReachableBy.init (by decide) (by decide) rfl)).2.2.1 1
    (by decide)).1 true 7 [1]

/-! ## C16: the hit path -/

/-- C16: if some slot of the ring of bucket `hash(blockno)` carries
`(dev, blockno)`, whatever its `refcnt`, then `bget(dev, blockno)` returns the
first such slot in ring order and adds one to its `refcnt` (one modulo `2^32`,
that is exactly one unless the count was `2^32 - 1`); the slot keeps `dev`,
`blockno`, `valid`, `lastuse` and its payload, every other slot is untouched
and every ring is as before. -/
theorem hit_path (s : Cache) (dev blockno I b : Nat)
    (hI : hash (toInt blockno) = (I : Int)) (hb : b ∈ s.head I)
    (hdev : (s.buf b).dev = dev) (hblockno : (s.buf b).blockno = blockno) :
    ∃ b0 l1 l2, s.head I = l1 ++ b0 :: l2 ∧
      ((s.buf b0).dev = dev ∧ (s.buf b0).blockno = blockno) ∧
      (∀ x, x ∈ l1 → ¬ ((s.buf x).dev = dev ∧ (s.buf x).blockno = blockno)) ∧
      bget s dev blockno = .ok (incref s b0, b0) ∧
      ((incref s b0).buf b0 =
        { s.buf b0 with refcnt := ((s.buf b0).refcnt + 1) % 4294967296 }) ∧
      ((s.buf b0).refcnt + 1 < 4294967296 →
        ((incref s b0).buf b0).refcnt = (s.buf b0).refcnt + 1) ∧
      (∀ x, x ≠ b0 → (incref s b0).buf x = s.buf x) ∧ (incref s b0).head = s.head := by
  cases hl : lookup s I dev blockno with
  | none =>
    exact absurd ⟨hdev, hblockno⟩ ((lookup_none_iff s I dev blockno).1 hl b hb)
  | some b0 =>
    have hl' := hl
    unfold lookup at hl'
    obtain ⟨hp, l1, l2, hsplit, hbefore⟩ := List.find?_eq_some.1 hl'
    refine ⟨b0, l1, l2, hsplit, (isHit_iff s dev blockno b0).1 hp, ?_, ?_, incref_buf_self s b0,
      ?_, fun x hx => incref_buf_of_ne s b0 x hx, rfl⟩
    · intro x hx hc
      have := hbefore x hx
      rw [(isHit_iff s dev blockno x).2 hc] at this
      simp at this
    · apply bget_of_lookup s dev blockno b0 (by omega)
      rw [hI, Int.toNat_ofNat]
      exact hl
    · intro h
      rw [incref_buf_self]
      exact Nat.mod_eq_of_lt h

/-- C16 on the cache left by `binit` with two slots, where slots 1 and 0 both
carry `(0, 0)` with `refcnt == 0`: `bget(0, 0)` returns slot 1, the first of
ring 0. -/
theorem hit_path_witness :
    ∃ b0 l1 l2, (binit 2).head 0 = l1 ++ b0 :: l2 ∧
      bget (binit 2) 0 0 = .ok (incref (binit 2) b0, b0) :=
  have h := hit_path (binit 2) 0 0 0 0 rfl (by decide) rfl rfl
  h.elim fun b0 h1 => h1.elim fun l1 h2 => h2.elim fun l2 h3 =>
    ⟨b0, l1, l2, h3.1, h3.2.2.2.1⟩

/-! ## C17: reuse within the bucket -/

/-- C17: if no slot of the ring of bucket `i = hash(blockno)` carries
`(dev, blockno)` and that ring has a slot with `refcnt == 0`, then
`bget(dev, blockno)` returns a slot of ring `i`: the first in ring order of the
slots of ring `i` with `refcnt == 0` whose `lastuse` is minimal among them.
After the call the slot has the requested `dev` and `blockno`, `valid == 0` and
`refcnt == 1`; no other slot and no ring has changed.  The recency marks are
`uint` values. -/
theorem local_reuse (s : Cache) (dev blockno I : Nat) (ht : Typed s)
    (hI : hash (toInt blockno) = (I : Int)) (hmiss : noHit s I dev blockno)
    (hfree : ∃ x, x ∈ s.head I ∧ (s.buf x).refcnt = 0) :
    ∃ b2 l1 l2 s', s.head I = l1 ++ b2 :: l2 ∧ (s.buf b2).refcnt = 0 ∧
      (∀ x, x ∈ l1 → (s.buf x).refcnt = 0 → (s.buf b2).lastuse < (s.buf x).lastuse) ∧
      (∀ x, x ∈ l2 → (s.buf x).refcnt = 0 → (s.buf b2).lastuse ≤ (s.buf x).lastuse) ∧
      bget s dev blockno = .ok (s', b2) ∧
      (s'.buf b2).dev = dev ∧ (s'.buf b2).blockno = blockno ∧
      (s'.buf b2).valid = false ∧ (s'.buf b2).refcnt = 1 ∧
      (∀ x, x ≠ b2 → s'.buf x = s.buf x) ∧ s'.head = s.head := by
  have hp := bget_path s dev blockno
  generalize hr : bget s dev blockno = r at hp
  cases hp with
  | undef hneg => omega
  | hit I' b hI' hlt hb =>
    have e : I' = I := by omega
    subst e
    rw [(lookup_none_iff s I' dev blockno).2 hmiss] at hb
    cases hb
  | localReuse I' b2 m' hI' hlt hmiss' hscan =>
    have e : I' = I := by omega
    subst e
    obtain ⟨l1, l2, hsplit, hf, h1, h2⟩ := scanFree_split s ht _ _ _ _ hscan
    refine ⟨b2, l1, l2, _, hsplit, hf, h1, h2, rfl, ?_, ?_, ?_, ?_,
      fun x hx => reuse_buf_of_ne s b2 dev blockno x hx, rfl⟩
    · rw [reuse_buf_self]
    · rw [reuse_buf_self]
    · rw [reuse_buf_self]
    · rw [reuse_buf_self]
      simp only
      rw [hf]
  | steal I' t b2 m' hI' hlt hmiss' hfull ht' hbefore hscan =>
    have e : I' = I := by omega
    subst e
    obtain ⟨x, hx, hfx⟩ := hfree
    exact absurd hfx (hfull x hx)
  | panic I' hI' hlt hmiss' hfull =>
    have e : I' = I := by omega
    subst e
    obtain ⟨x, hx, hfx⟩ := hfree
    exact absurd hfx (hfull I' hlt x hx)

/-- C17 on the cache left by `binit` with two slots: `bget(0, 13)` misses in
ring 0 and assigns slot 1, the first free slot of ring 0. -/
theorem local_reuse_witness :
    ∃ b2 l1 l2 s', (binit 2).head 0 = l1 ++ b2 :: l2 ∧ bget (binit 2) 0 13 = .ok (s', b2) ∧
      (s'.buf b2).refcnt = 1 :=
  have h := local_reuse (binit 2) 0 13 0
    (typed_of_reachable (fun _ _ => True) 2 (binit 2) ReachableBy.init) rfl
    (by unfold noHit; decide) ⟨1, by decide, rfl⟩
  h.elim fun b2 h1 => h1.elim fun l1 h2 => h2.elim fun l2 h3 => h3.elim fun s' h4 =>
    ⟨b2, l1, l2, s', h4.1, h4.2.2.2.2.1, h4.2.2.2.2.2.2.2.2.1⟩

/-! ## C18: the steal path -/

/-- C18: if the ring of bucket `i = hash(blockno)` has neither a slot that
carries `(dev, blockno)` nor a slot with `refcnt == 0`, then `bget` visits the
other buckets in the order `(i+1) mod 13`, `(i+2) mod 13`, ..., twelve visits
at most, all of different buckets and none of bucket `i`.  Either no ring has
a free slot and `bget` panics, or it stops at the first bucket visited whose
ring has a slot with `refcnt == 0` and takes there the first in ring order of
the free slots with minimal `lastuse`: the slot is removed from that ring,
put at the head of ring `i`, and has the requested `dev` and `blockno`,
`valid == 0` and `refcnt == 1`; no other slot changes, no other ring changes,
and in every ring the order of the other slots is as before.  The recency
marks are `uint` values. -/
theorem steal_path (s : Cache) (dev blockno I : Nat) (ht : Typed s)
    (hI : hash (toInt blockno) = (I : Int)) (hmiss : noHit s I dev blockno)
    (hfull : noFree s I) :
    (∀ t t', t < 12 → t' < 12 →
      (I + 1 + t) % 13 ≠ I ∧ ((I + 1 + t) % 13 = (I + 1 + t') % 13 → t = t')) ∧
    (((∀ k, k < 13 → noFree s k) ∧ bget s dev blockno = .panic s) ∨
     ∃ t b2 l1 l2 s', t < 12 ∧ (∀ t', t' < t → noFree s ((I + 1 + t') % 13)) ∧
      s.head ((I + 1 + t) % 13) = l1 ++ b2 :: l2 ∧ (s.buf b2).refcnt = 0 ∧
      (∀ x, x ∈ l1 → (s.buf x).refcnt = 0 → (s.buf b2).lastuse < (s.buf x).lastuse) ∧
      (∀ x, x ∈ l2 → (s.buf x).refcnt = 0 → (s.buf b2).lastuse ≤ (s.buf x).lastuse) ∧
      bget s dev blockno = .ok (s', b2) ∧
      (s'.buf b2).dev = dev ∧ (s'.buf b2).blockno = blockno ∧
      (s'.buf b2).valid = false ∧ (s'.buf b2).refcnt = 1 ∧
      (∀ x, x ≠ b2 → s'.buf x = s.buf x) ∧
      s'.head I = b2 :: s.head I ∧
      s'.head ((I + 1 + t) % 13) = (s.head ((I + 1 + t) % 13)).erase b2 ∧
      (∀ k, k ≠ I → k ≠ (I + 1 + t) % 13 → s'.head k = s.head k) ∧
      (∀ k, (s'.head k).filter (fun x => decide (x ≠ b2)) =
        (s.head k).filter (fun x => decide (x ≠ b2)))) := by
  have hI13 : I < 13 := by
    have := hash_lt (toInt blockno)
    omega
  refine ⟨fun t t' h1 h2 => ⟨by omega, by omega⟩, ?_⟩
  have hp := bget_path s dev blockno
  generalize hr : bget s dev blockno = r at hp
  cases hp with
  | undef hneg => omega
  | hit I' b hI' hlt hb =>
    have e : I' = I := by omega
    subst e
    rw [(lookup_none_iff s I' dev blockno).2 hmiss] at hb
    cases hb
  | localReuse I' b2 m' hI' hlt hmiss' hscan =>
    have e : I' = I := by omega
    subst e
    have hm := scanFree_mem s _ _ _ _ hscan
    exact absurd hm.2 (hfull b2 hm.1)
  | steal I' t b2 m' hI' hlt hmiss' hfull' ht' hbefore hscan =>
    have e : I' = I := by omega
    subst e
    right
    have hJ := walk_ne I' t ht'
    obtain ⟨l1, l2, hsplit, hf, h1, h2⟩ := scanFree_split s ht _ _ _ _ hscan
    refine ⟨t, b2, l1, l2, _, ht', hbefore, hsplit, hf, h1, h2, rfl, ?_, ?_, ?_, ?_, ?_, ?_, ?_,
      ?_, ?_⟩
    · rw [steal_buf, reuse_buf_self]
    · rw [steal_buf, reuse_buf_self]
    · rw [steal_buf, reuse_buf_self]
    · rw [steal_buf, reuse_buf_self]
      simp only
      rw [hf]
    · intro x hx
      rw [steal_buf]
      exact reuse_buf_of_ne s b2 dev blockno x hx
    · rw [steal_head s b2 dev blockno I' _ I' hJ, if_pos rfl]
    · rw [steal_head s b2 dev blockno I' _ _ hJ, if_neg hJ, if_pos rfl]
    · intro k hk1 hk2
      rw [steal_head s b2 dev blockno I' _ k hJ, if_neg hk1, if_neg hk2]
    · intro k
      rw [steal_head s b2 dev blockno I' _ k hJ]
      split
      · rename_i hk
        rw [hk]
        simp
      · split
        · rename_i hk hk'
          rw [hk']
          exact filter_erase_ne _ b2
        · rfl
  | panic I' hI' hlt hmiss' hfull' => exact Or.inl ⟨hfull', rfl⟩

/-- C18 on the cache left by `binit` with two slots: `bget(0, 1)` finds ring 1
empty, visits the buckets 2, 3, ..., 12, 0 and takes slot 1 from ring 0 at the
twelfth visit. -/
theorem steal_path_witness :
    ∃ t b2 s', t < 12 ∧ bget (binit 2) 0 1 = .ok (s', b2) ∧ s'.head 1 = b2 :: (binit 2).head 1 :=
  have h := (steal_path (binit 2) 0 1 1
    (typed_of_reachable (fun _ _ => True) 2 (binit 2) ReachableBy.init) rfl
    (by unfold noHit; decide) (by unfold noFree; decide)).2
  h.elim (fun hp => absurd hp.2 (by
      have e : bget (binit 2) 0 1 =
          .ok (insertHead (unlink (reuse (binit 2) 1 0 1) 0 1) 1 1, 1) := rfl
      rw [e]
      intro hc
      cases hc))
    (fun ⟨t, b2, _, _, s', h1, _, _, _, _, _, h7, _, _, _, _, _, h13, _⟩ =>
      ⟨t, b2, s', h1, h7, h13⟩)

/-! ## C19: order of the locks in bget -/

/-- C19: on every path of `bget` (hit in the first scan, hit in the second
scan, reuse within the bucket, steal, panic) no spinlock is acquired while it
is held, `biglock` is not acquired while a bucket lock is held, every lock
released is held, and no spinlock is held when `acquiresleep` is called on the
slot returned and when `panic` is called.  A call whose bucket index is not
negative returns or panics. -/
theorem bget_lock_order (s : Cache) (dev blockno : Nat) :
    (bgetT s dev blockno).1 = bget s dev blockno ∧
    (∀ s' b, bget s dev blockno = .ok (s', b) →
      run lockOrder (bgetT s dev blockno).2 ⟨s.head, [], []⟩ = some ⟨s'.head, [], [b]⟩) ∧
    (∀ s', bget s dev blockno = .panic s' →
      run lockOrder (bgetT s dev blockno).2 ⟨s.head, [], []⟩ = some ⟨s.head, [], []⟩ ∧
        Event.panic ∈ (bgetT s dev blockno).2) ∧
    (0 ≤ hash (toInt blockno) →
      (∃ s' b, bget s dev blockno = .ok (s', b)) ∨ bget s dev blockno = .panic s) ∧
    (∀ (i : Int) (b : Nat) (rings : Nat → List Nat),
      run lockOrder (recheckHitEvents i b) ⟨rings, [], []⟩ = some ⟨rings, [], [b]⟩) := by
  refine ⟨bgetT_fst s dev blockno, ?_, ?_, ?_, ?_⟩
  · intro s' b hok
    rcases bgetT_run s dev blockno with ⟨s'', b', hok', hrun⟩ | ⟨hp, _, _⟩ | ⟨hu, _, _⟩
    · rw [hok] at hok'
      cases hok'
      exact run_mono strict _ strict_lockOrder _ _ _ hrun
    · rw [hok] at hp
      cases hp
    · rw [hok] at hu
      cases hu
  · intro s' hpanic
    rcases bgetT_run s dev blockno with ⟨s'', b', hok', _⟩ | ⟨_, hrun, hmem⟩ | ⟨hu, _, _⟩
    · rw [hpanic] at hok'
      cases hok'
    · exact ⟨run_mono strict _ strict_lockOrder _ _ _ hrun, hmem⟩
    · rw [hpanic] at hu
      cases hu
  · intro hnn
    rcases bgetT_run s dev blockno with ⟨s'', b', hok', _⟩ | ⟨hp, _, _⟩ | ⟨_, hneg, _⟩
    · exact Or.inl ⟨s'', b', hok'⟩
    · exact Or.inr hp
    · omega
  · intro i b rings
    simp [recheckHitEvents, run, lockOrder, applyEvent, isBucket]

/-- C19 on `bget(1, 5)` after `binit` with two slots, which steals slot 1 from
ring 0: the events obey the order of the locks and end with the sleep-lock of
slot 1 held and no spinlock held. -/
theorem bget_lock_order_witness :
    run lockOrder (bgetT (binit 2) 1 5).2 ⟨(binit 2).head, [], []⟩ =
      some ⟨(insertHead (unlink (reuse (binit 2) 1 1 5) 0 1) 5 1).head, [], [1]⟩ :=
  (bget_lock_order (binit 2) 1 5).2.1 _ 1 rfl

/-! ## C20: slots are in the ring of their bucket -/

/-- C20: in every cache reachable from `binit` by calls of `bget`, `brelse`,
`bpin` and `bunpin` (calls with a block number below `2^31` among them), every
member of ring `k` has `hash(blockno) == k`; hence for each of the `NBUF`
slots the index `hash(b->blockno)` with which `brelse`, `bpin` and `bunpin`
select their spinlock is the index of the one ring that contains the slot. -/
theorem placement_invariant (NBUF : Nat) (s : Cache) (h : Reachable NBUF s) :
    (∀ k x, x ∈ s.head k → hash (toInt (s.buf x).blockno) = (k : Int)) ∧
    (∀ b, b < NBUF → ∃ k, k < 13 ∧ b ∈ s.head k ∧ lockIndex s b = (k : Int) ∧
      ∀ k', b ∈ s.head k' → k' = k) := by
  have hpl := placed_of_reachable _ NBUF s h
  obtain ⟨hall, _, hdisj, _⟩ := partition_of_reachable _ NBUF s h
  refine ⟨hpl, ?_⟩
  intro b hb
  obtain ⟨k, hk, hmem⟩ := hall b hb
  exact ⟨k, hk, hmem, hpl k b hmem, fun k' hmem' => hdisj k' k b hmem' hmem⟩

/-- C20 on the cache reached with two slots by `bget(1, 5)`: slot 1 is in
ring 5 and the lock index computed for it is 5. -/
theorem placement_invariant_witness :
    ∃ k, k < 13 ∧ 1 ∈ (insertHead (unlink (reuse (binit 2) 1 1 5) 0 1) 5 1).head k ∧
      lockIndex (insertHead (unlink (reuse (binit 2) 1 1 5) 0 1) 5 1) 1 = (k : Int) :=
  have h := (placement_invariant 2 (insertHead (unlink (reuse (binit 2) 1 1 5) 0 1) 5 1)
    (ReachableBy.bget (binit 2) _ 1 5 1 ReachableBy.init (by decide) (by decide) rfl)).2 1
    (by decide)
  h.elim fun k hk => ⟨k, hk.1, hk.2.1, hk.2.2.1⟩

end Bio
